import Mathlib

/-!
Verification development for the storage-engine core: extendible hash table,
LRU-K replacer, buffer pool manager, B+-tree index and its iterator.
Each definition is a shallow embedding of the corresponding function of the
C++ sources (file and function named in the doc comments).  All definitions
are executable; machine integers are modelled as `Nat`/`Int` (page ids use
`Int` with `-1` for `INVALID_PAGE_ID`).  The latching, pinning and
transaction bookkeeping of the sources synchronise concurrent threads and
have no effect on the sequential state transformation embedded here.
-/

namespace DB

/-! ### Extendible hash table
Embedding of `src/container/hash/extendible_hash_table.cpp`.
A `shared_ptr<Bucket>` is modelled as an index into the arena `buckets`;
two directory slots alias the same bucket exactly when they hold the same
arena index.  The hash function (`std::hash<K>`) is passed explicitly. -/

structure Bucket (K V : Type) where
  /-- capacity `size_` (the table's `bucket_size_`) -/
  size : Nat
  /-- local depth `depth_` -/
  depth : Nat
  /-- insertion-ordered item list `list_` -/
  list : List (K × V)
  deriving Repr, DecidableEq

namespace Bucket

/-- `Bucket::Find`: scan the list for the key. -/
def Find [BEq K] (b : Bucket K V) (key : K) : Option V :=
  (b.list.find? (fun item => item.1 == key)).map (·.2)

/-- `Bucket::Remove`: erase the first item with this key, report success. -/
def Remove [BEq K] (b : Bucket K V) (key : K) : Bool × Bucket K V :=
  if b.list.any (fun item => item.1 == key) then
    (true, { b with list := b.list.eraseP (fun item => item.1 == key) })
  else
    (false, b)

/-- Modelled from the spec (`Bucket::IsFull` lives in the missing header):
a bucket holds "up to `bucket_size` items", so it is full when the list has
reached the capacity. -/
def IsFull (b : Bucket K V) : Bool := b.size ≤ b.list.length

/-- Overwrite the value of the first item carrying `key` (the in-place
`item.second = value` of the source's scan loop). -/
def updateFirst [BEq K] (key : K) (value : V) : List (K × V) → List (K × V)
  | [] => []
  | item :: rest =>
    if item.1 == key then (item.1, value) :: rest
    else item :: updateFirst key value rest

/-- `Bucket::Insert`: overwrite on duplicate key; fail if full; else append. -/
def Insert [BEq K] (b : Bucket K V) (key : K) (value : V) : Bool × Bucket K V :=
  if b.list.any (fun item => item.1 == key) then
    (true, { b with list := updateFirst key value b.list })
  else if b.IsFull then
    (false, b)
  else
    (true, { b with list := b.list ++ [(key, value)] })

end Bucket

structure ExtendibleHashTable (K V : Type) where
  /-- `bucket_size_` -/
  bucketSize : Nat
  /-- `global_depth_` -/
  globalDepth : Nat
  /-- `num_buckets_` -/
  numBuckets : Nat
  /-- arena of all allocated buckets; directory slots hold arena indices -/
  buckets : List (Bucket K V)
  /-- `dir_`: directory of length `2^global_depth` -/
  dir : List Nat
  deriving Repr, DecidableEq

namespace ExtendibleHashTable

/-- The constructor: one empty bucket of depth 0, directory of length 1. -/
def init (K V : Type) (bucketSize : Nat) : ExtendibleHashTable K V :=
  { bucketSize := bucketSize
    globalDepth := 0
    numBuckets := 1
    buckets := [{ size := bucketSize, depth := 0, list := [] }]
    dir := [0] }

/-- `IndexOf`: `hash(key) & ((1 << global_depth) - 1)`. -/
def IndexOf (hash : K → Nat) (t : ExtendibleHashTable K V) (key : K) : Nat :=
  hash key &&& ((1 <<< t.globalDepth) - 1)

/-- Fetch the bucket a directory slot points to. -/
def bucketAt (t : ExtendibleHashTable K V) (dirIndex : Nat) : Option (Bucket K V) :=
  (t.dir.get? dirIndex).bind (fun bi => t.buckets.get? bi)

/-- `GetGlobalDepth`. -/
def GetGlobalDepth (t : ExtendibleHashTable K V) : Nat := t.globalDepth

/-- `GetLocalDepth(dir_index)`: depth of the bucket at that slot. -/
def GetLocalDepth (t : ExtendibleHashTable K V) (dirIndex : Nat) : Option Nat :=
  (t.bucketAt dirIndex).map (·.depth)

/-- `GetNumBuckets`. -/
def GetNumBuckets (t : ExtendibleHashTable K V) : Nat := t.numBuckets

/-- `Find(key, value)`: index the directory, scan that bucket. -/
def Find [BEq K] (hash : K → Nat) (t : ExtendibleHashTable K V) (key : K) : Option V :=
  (t.bucketAt (IndexOf hash t key)).bind (fun b => b.Find key)

/-- `Remove(key)`: erase from the addressed bucket; no merge. -/
def Remove [BEq K] (hash : K → Nat) (t : ExtendibleHashTable K V) (key : K) :
    Bool × ExtendibleHashTable K V :=
  let idx := IndexOf hash t key
  match t.dir.get? idx with
  | none => (false, t)
  | some bi =>
    match t.buckets.get? bi with
    | none => (false, t)
    | some b =>
      let r := b.Remove key
      (r.1, { t with buckets := t.buckets.set bi r.2 })

/-- `RedistributeBucket(bucket)`: increment the bucket's depth, allocate the
sibling, partition the items by the new split bit, and repoint every
directory slot that aliased the old bucket and has the split bit set. -/
def RedistributeBucket (hash : K → Nat) (t : ExtendibleHashTable K V) (bi : Nat) :
    ExtendibleHashTable K V :=
  match t.buckets.get? bi with
  | none => t
  | some b =>
    let localDepth := b.depth + 1
    let splitMask := 1 <<< (localDepth - 1)
    let keep := b.list.filter (fun item => hash item.1 &&& splitMask == 0)
    let moved := b.list.filter (fun item => !(hash item.1 &&& splitMask == 0))
    let newBucket : Bucket K V := { size := t.bucketSize, depth := localDepth, list := moved }
    let ni := t.buckets.length
    { t with
      buckets := (t.buckets.set bi { b with depth := localDepth, list := keep }) ++ [newBucket]
      dir := t.dir.enum.map (fun p =>
        if p.2 == bi && !(p.1 &&& splitMask == 0) then ni else p.2)
      numBuckets := t.numBuckets + 1 }

/-- `Insert(key, value)`: retry loop; on a full bucket, double the directory
when `local_depth == global_depth`, then split and retry.  The loop is given
fuel; `none` means the fuel ran out (the source loops forever only for
pathological hash functions). -/
def Insert [BEq K] (hash : K → Nat) :
    Nat → ExtendibleHashTable K V → K → V → Option (ExtendibleHashTable K V)
  | 0, _, _, _ => none
  | fuel + 1, t, key, value =>
    let idx := IndexOf hash t key
    match t.dir.get? idx with
    | none => none
    | some bi =>
      match t.buckets.get? bi with
      | none => none
      | some b =>
        let r := b.Insert key value
        if r.1 then
          some { t with buckets := t.buckets.set bi r.2 }
        else
          let t1 :=
            if b.depth == t.globalDepth then
              { t with globalDepth := t.globalDepth + 1, dir := t.dir ++ t.dir }
            else t
          Insert hash fuel (RedistributeBucket hash t1 bi) key value

end ExtendibleHashTable

/-- Scenario S1: `bucket_size = 2`, `hash(x) = x`; insert `(1,"a")`,
`(2,"b")`, `(3,"c")` in that order. -/
def s1Table : Option (ExtendibleHashTable Nat String) := do
  let t0 := ExtendibleHashTable.init Nat String 2
  let t1 ← ExtendibleHashTable.Insert id 8 t0 1 "a"
  let t2 ← ExtendibleHashTable.Insert id 8 t1 2 "b"
  ExtendibleHashTable.Insert id 8 t2 3 "c"

/-! ### Association-list helpers shared by the replacer and pool models
(`std::unordered_map` is modelled as an insertion-ordered association list
with unique keys). -/

/-- Update the first entry with this key, or append a fresh one
(`map[key] = value`). -/
def assocSet [BEq K] (key : K) (value : V) : List (K × V) → List (K × V)
  | [] => [(key, value)]
  | entry :: rest =>
    if entry.1 == key then (entry.1, value) :: rest
    else entry :: assocSet key value rest

/-! ### LRU-K replacer
Embedding of `src/buffer/lru_k_replacer.cpp`.  Timestamps are the logical
counter `current_timestamp_`; `size_t` subtraction in `Evict` is modelled
with an explicit `% 2^64`.  `BUSTUB_ASSERT` failure is `none`. -/

/-- the modulus of `size_t` arithmetic -/
def usizeMod : Nat := 2 ^ 64

/-- `current_timestamp_ - kth_timestamp` as computed on `size_t`. -/
def kDistance (now front : Nat) : Nat := (now + usizeMod - front) % usizeMod

structure LRUKReplacer where
  /-- `replacer_size_` (`num_frames`) -/
  replacerSize : Nat
  /-- `k_` -/
  k : Nat
  /-- `current_timestamp_` -/
  currentTimestamp : Nat
  /-- `curr_size_` -/
  currSize : Nat
  /-- `history_`: per-frame timestamps of its last `≤ k` accesses, oldest first -/
  history : List (Nat × List Nat)
  /-- `evictable_` -/
  evictable : List (Nat × Bool)
  deriving Repr, DecidableEq

namespace LRUKReplacer

/-- The constructor. -/
def init (numFrames k : Nat) : LRUKReplacer :=
  { replacerSize := numFrames, k := k, currentTimestamp := 0, currSize := 0
    history := [], evictable := [] }

/-- `RecordAccess`: append the current timestamp, keep only the most recent
`k`, increment the timestamp.  Asserts `frame_id < replacer_size_`. -/
def RecordAccess (r : LRUKReplacer) (frameId : Nat) : Option LRUKReplacer :=
  if r.replacerSize ≤ frameId then none
  else
    let h := ((r.history.lookup frameId).getD []) ++ [r.currentTimestamp]
    let h := if r.k < h.length then h.tail else h
    some { r with history := assocSet frameId h r.history
                  currentTimestamp := r.currentTimestamp + 1 }

/-- `SetEvictable`: silently ignore untracked frames; adjust `curr_size_`
only when the flag actually changes. -/
def SetEvictable (r : LRUKReplacer) (frameId : Nat) (flag : Bool) : Option LRUKReplacer :=
  if r.replacerSize ≤ frameId then none
  else if (r.history.lookup frameId).isNone then some r
  else
    let was := (r.evictable.lookup frameId).getD false
    if was == flag then some r
    else
      some { r with evictable := assocSet frameId flag r.evictable
                    currSize := if flag then r.currSize + 1 else r.currSize - 1 }

/-- `Remove`: silently ignore untracked frames; assert (hence `none`) on a
tracked frame that is not evictable; otherwise drop history and flag and
decrement `curr_size_`. -/
def Remove (r : LRUKReplacer) (frameId : Nat) : Option LRUKReplacer :=
  if r.replacerSize ≤ frameId then none
  else if (r.history.lookup frameId).isNone then some r
  else if !((r.evictable.lookup frameId).getD false) then none
  else
    some { r with history := r.history.eraseP (fun entry => entry.1 == frameId)
                  evictable := r.evictable.eraseP (fun entry => entry.1 == frameId)
                  currSize := r.currSize - 1 }

/-- `Size`. -/
def Size (r : LRUKReplacer) : Nat := r.currSize

/-- The candidate accumulator of `Evict`'s scan loop
(`candidate_frame` / `max_k_distance` / `has_inf` / `earliest_timestamp`). -/
structure EvictCand where
  frame : Option Nat
  maxKDist : Nat
  hasInf : Bool
  earliest : Nat
  deriving Repr, DecidableEq

/-- One iteration of `Evict`'s loop over `history_`. -/
def evictStep (k now : Nat) (hist : List (Nat × List Nat)) (ev : List (Nat × Bool))
    (c : EvictCand) (entry : Nat × List Nat) : EvictCand :=
  let fid := entry.1
  let h := entry.2
  if !((ev.lookup fid).getD false) then c
  else if h.length < k then
    -- fewer than k accesses: backward k-distance is +inf
    if !c.hasInf then { frame := some fid, maxKDist := c.maxKDist, hasInf := true, earliest := h.headD 0 }
    else if h.headD 0 < c.earliest then { c with frame := some fid, earliest := h.headD 0 }
    else c
  else
    let kdist := kDistance now (h.headD 0)
    if c.hasInf then c
    else if c.frame.isNone || c.maxKDist < kdist then
      { c with frame := some fid, maxKDist := kdist }
    else if kdist == c.maxKDist
            && h.headD 0 < (((hist.lookup (c.frame.getD 0)).getD []).headD 0) then
      { c with frame := some fid }
    else c

/-- `Evict`: pick the evictable frame with the largest backward k-distance
(+inf for frames with fewer than k accesses; ties by earliest oldest
timestamp), then drop it from the replacer. -/
def Evict (r : LRUKReplacer) : Option (Nat × LRUKReplacer) :=
  if r.currSize == 0 then none
  else
    let c := r.history.foldl (evictStep r.k r.currentTimestamp r.history r.evictable)
      { frame := none, maxKDist := 0, hasInf := false, earliest := usizeMod - 1 }
    match c.frame with
    | none => none
    | some fid =>
      some (fid,
        { r with history := r.history.eraseP (fun entry => entry.1 == fid)
                 evictable := r.evictable.eraseP (fun entry => entry.1 == fid)
                 currSize := r.currSize - 1 })

end LRUKReplacer

/-- The claim's **backward k-distance** of an access history at logical
time `now`: `+∞` (`⊤`) when fewer than k accesses are recorded, else
`current_timestamp` minus the k-th most recent access — which, since only
the `k` most recent timestamps are kept, is the oldest kept one. -/
def backwardKDistance (k now : Nat) (h : List Nat) : ℕ∞ :=
  if h.length < k then ⊤ else ((now - h.headD 0 : Nat) : ℕ∞)

/-- The claim's eviction preference: history `h` is at least as good a
victim as `h'` when its backward k-distance is larger, or equal with the
tie broken by the smaller oldest recorded timestamp. -/
def EvictPrefer (k now : Nat) (h h' : List Nat) : Prop :=
  backwardKDistance k now h' < backwardKDistance k now h ∨
  (backwardKDistance k now h' = backwardKDistance k now h ∧ h.headD 0 ≤ h'.headD 0)

/-- Invariant of `Evict`'s scan loop: after processing a prefix of
`history_`, the candidate accumulator holds no frame only if no processed
frame was evictable, and otherwise holds an evictable processed frame whose
scalar fields (`has_inf`, `earliest_timestamp`, `max_k_distance`) describe
its history and which is preferred over every processed evictable frame. -/
def EvictLoopInv (k T : Nat) (ev : List (Nat × Bool))
    (processed : List (Nat × List Nat)) (c : LRUKReplacer.EvictCand) : Prop :=
  (c.frame = none →
    c.hasInf = false ∧ ∀ e ∈ processed, (ev.lookup e.1).getD false = false) ∧
  (∀ cf, c.frame = some cf →
    ∃ hc, (cf, hc) ∈ processed ∧ (ev.lookup cf).getD false = true ∧
      (c.hasInf = true ↔ hc.length < k) ∧
      (c.hasInf = true → c.earliest = hc.headD 0) ∧
      (c.hasInf = false → c.maxKDist = kDistance T (hc.headD 0)) ∧
      (∀ e ∈ processed, (ev.lookup e.1).getD false = true →
        EvictPrefer k T hc e.2))

/-- Scenario S3: `pool_size = 3`, `k = 2`, accesses on frames `0,1,2,0,1`,
then all three marked evictable. -/
def s3Replacer : Option LRUKReplacer := do
  let r := LRUKReplacer.init 3 2
  let r ← r.RecordAccess 0
  let r ← r.RecordAccess 1
  let r ← r.RecordAccess 2
  let r ← r.RecordAccess 0
  let r ← r.RecordAccess 1
  let r ← r.SetEvictable 0 true
  let r ← r.SetEvictable 1 true
  r.SetEvictable 2 true

/-! ### Buffer pool manager
Embedding of `src/buffer/buffer_pool_manager_instance.cpp` (the parts the
claims are about: `UnpinPgImp`, `FlushPgImp`, `FlushAllPgsImp`).  A frame's
byte buffer is abstracted to a single `Nat`; the disk manager is an
association list `page_id → bytes`. -/

/-- `std::hash<int>` cast to `size_t` (identity modulo `2^64`). -/
def pageIdHash (i : Int) : Nat := (i.emod (2 ^ 64)).toNat

/-- One frame's `Page` object. -/
structure Page where
  /-- `page_id_` (`-1` = `INVALID_PAGE_ID`) -/
  pageId : Int
  /-- `pin_count_` (non-negative) -/
  pinCount : Nat
  /-- `is_dirty_` -/
  isDirty : Bool
  /-- `data_`, abstracted -/
  data : Nat
  deriving Repr, DecidableEq

structure BufferPoolManagerInstance where
  /-- `pool_size_` -/
  poolSize : Nat
  /-- `pages_`, indexed by frame id -/
  pages : List Page
  /-- `page_table_` -/
  pageTable : ExtendibleHashTable Int Nat
  /-- `replacer_` -/
  replacer : LRUKReplacer
  /-- `free_list_` -/
  freeList : List Nat
  /-- `next_page_id_` -/
  nextPageId : Int
  /-- the disk manager's stored pages -/
  disk : List (Int × Nat)
  deriving Repr, DecidableEq

namespace BufferPoolManagerInstance

/-- `DiskManager::WritePage`. -/
def diskWrite (d : List (Int × Nat)) (pageId : Int) (bytes : Nat) : List (Int × Nat) :=
  assocSet pageId bytes d

/-- `UnpinPgImp(page_id, is_dirty)`: fail when not resident or pin count is
already 0; else decrement the pin count, OR the dirty bit, and mark the
frame evictable when the pin count reaches 0.  `none` models undefined
behaviour (a page-table frame id out of the frame array). -/
def UnpinPgImp (s : BufferPoolManagerInstance) (pageId : Int) (isDirty : Bool) :
    Option (Bool × BufferPoolManagerInstance) :=
  match ExtendibleHashTable.Find pageIdHash s.pageTable pageId with
  | none => some (false, s)
  | some frameId =>
    match s.pages.get? frameId with
    | none => none
    | some page =>
      if page.pinCount == 0 then some (false, s)
      else
        let page' := { page with pinCount := page.pinCount - 1
                                 isDirty := page.isDirty || isDirty }
        let s1 := { s with pages := s.pages.set frameId page' }
        if page'.pinCount == 0 then
          (s.replacer.SetEvictable frameId true).map (fun rep => (true, { s1 with replacer := rep }))
        else
          some (true, s1)

/-- `FlushPgImp(page_id)`: fail on `INVALID_PAGE_ID` or a non-resident page;
else write the frame to disk unconditionally and clear the dirty bit. -/
def FlushPgImp (s : BufferPoolManagerInstance) (pageId : Int) :
    Option (Bool × BufferPoolManagerInstance) :=
  if pageId == -1 then some (false, s)
  else
    match ExtendibleHashTable.Find pageIdHash s.pageTable pageId with
    | none => some (false, s)
    | some frameId =>
      match s.pages.get? frameId with
      | none => none
      | some page =>
        some (true, { s with pages := s.pages.set frameId { page with isDirty := false }
                             disk := diskWrite s.disk pageId page.data })

/-- The loop body of `FlushAllPgsImp`: walk the frame array in order,
writing every frame that holds a valid page and clearing its dirty bit. -/
def flushAllAux : List Page → List (Int × Nat) → List Page × List (Int × Nat)
  | [], d => ([], d)
  | page :: rest, d =>
    if page.pageId == -1 then
      let r := flushAllAux rest d
      (page :: r.1, r.2)
    else
      let r := flushAllAux rest (diskWrite d page.pageId page.data)
      ({ page with isDirty := false } :: r.1, r.2)

/-- `FlushAllPgsImp()`. -/
def FlushAllPgsImp (s : BufferPoolManagerInstance) : BufferPoolManagerInstance :=
  let r := flushAllAux s.pages s.disk
  { s with pages := r.1, disk := r.2 }

end BufferPoolManagerInstance

/-! ### B+-tree index
Embedding of `src/storage/index/b_plus_tree.cpp`, sequentially: the buffer
pool is an unbounded page store `page_id → node` (fetching an existing page
and allocating a new page always succeed), and the latch/pin/transaction
bookkeeping — which only synchronises concurrent threads — is dropped.
Keys and record values are `Nat` (the injected comparator is the order on
`Nat`); page ids are `Int` with `-1` for `INVALID_PAGE_ID`. -/

/-- A B+-tree page: the common header's `page_type`, `parent_page_id` and
`max_size`, plus leaf items `(key, value)` and `next_page_id`, or internal
items `(key, child_page_id)` whose index-0 key is unused (kept as 0). -/
inductive BPlusTreePage where
  | leaf (parentPageId : Int) (maxSize : Nat) (items : List (Nat × Nat)) (nextPageId : Int)
  | internal (parentPageId : Int) (maxSize : Nat) (items : List (Nat × Int))
  deriving Repr, DecidableEq

namespace BPlusTreePage

/-- `IsLeafPage`. -/
def IsLeafPage : BPlusTreePage → Bool
  | leaf .. => true
  | internal .. => false

/-- `GetParentPageId`. -/
def GetParentPageId : BPlusTreePage → Int
  | leaf parent .. => parent
  | internal parent .. => parent

/-- `IsRootPage`: parent is `INVALID_PAGE_ID`. -/
def IsRootPage (n : BPlusTreePage) : Bool := n.GetParentPageId == -1

/-- `GetSize`: the stored item count. -/
def GetSize : BPlusTreePage → Nat
  | leaf _ _ items _ => items.length
  | internal _ _ items => items.length

/-- `SetParentPageId`. -/
def SetParentPageId (n : BPlusTreePage) (parent : Int) : BPlusTreePage :=
  match n with
  | leaf _ maxSize items next => leaf parent maxSize items next
  | internal _ maxSize items => internal parent maxSize items

end BPlusTreePage

/-- Modelled from the spec (the B+-tree page headers with `GetMinSize` are
not under `src/`): for a leaf, `min_size = ⌈max_size/2⌉`. -/
def leafMinSize (maxSize : Nat) : Nat := (maxSize + 1) / 2

/-- Modelled from the spec (the B+-tree page headers with `GetMinSize` are
not under `src/`): for an internal node, `min_size = ⌈(max_size+1)/2⌉`. -/
def internalMinSize (maxSize : Nat) : Nat := (maxSize + 2) / 2

structure BPlusTree where
  /-- the page store (buffer pool + disk): `page_id → node` -/
  pages : List (Int × BPlusTreePage)
  /-- `root_page_id_` -/
  rootPageId : Int
  /-- the buffer pool's `next_page_id_` counter -/
  nextPageId : Int
  /-- `leaf_max_size_` -/
  leafMaxSize : Nat
  /-- `internal_max_size_` -/
  internalMaxSize : Nat
  deriving Repr, DecidableEq

namespace BPlusTree

/-- `FetchPage` + cast. -/
def getPage (t : BPlusTree) (pageId : Int) : Option BPlusTreePage :=
  t.pages.lookup pageId

/-- Write a node back (the frame is shared, so mutation is in place). -/
def setPage (t : BPlusTree) (pageId : Int) (n : BPlusTreePage) : BPlusTree :=
  { t with pages := assocSet pageId n t.pages }

/-- `NewPage`: allocate the next page id. -/
def newPage (t : BPlusTree) (n : BPlusTreePage) : Int × BPlusTree :=
  (t.nextPageId,
   { t with pages := t.pages ++ [(t.nextPageId, n)], nextPageId := t.nextPageId + 1 })

/-- `DeletePage`: drop the page from the store. -/
def deletePage (t : BPlusTree) (pageId : Int) : BPlusTree :=
  { t with pages := t.pages.eraseP (fun entry => entry.1 == pageId) }

/-- `SetParentPageId` on the node stored at `pageId`. -/
def updateParentId (t : BPlusTree) (pageId newParent : Int) : BPlusTree :=
  match t.getPage pageId with
  | none => t
  | some n => t.setPage pageId (n.SetParentPageId newParent)

/-- `IsEmpty`. -/
def IsEmpty (t : BPlusTree) : Bool := t.rootPageId == -1

/-- `GetRootPageId`. -/
def GetRootPageId (t : BPlusTree) : Int := t.rootPageId

/-- A fresh tree: empty store, invalid root. -/
def init (leafMaxSize internalMaxSize : Nat) : BPlusTree :=
  { pages := [], rootPageId := -1, nextPageId := 1
    leafMaxSize := leafMaxSize, internalMaxSize := internalMaxSize }

/-- The internal-node child choice of `FindLeafPage`: start at index 1 and
advance while `key ≥ KeyAt(index)`; descend into `ValueAt(index - 1)`. -/
def lookupChildAux (key : Nat) (acc : Int) : List (Nat × Int) → Int
  | [] => acc
  | entry :: rest => if entry.1 ≤ key then lookupChildAux key entry.2 rest else acc

/-- Child chosen for `key` among an internal node's items. -/
def lookupChild (key : Nat) : List (Nat × Int) → Int
  | [] => -1
  | first :: rest => lookupChildAux key first.2 rest

/-- The descent loop of `FindLeafPage` from a given page (fuelled; `none`
means a broken store or exhausted fuel). -/
def findLeafFrom (t : BPlusTree) (key : Nat) (leftMost : Bool) :
    Nat → Int → Option Int
  | 0, _ => none
  | fuel + 1, pageId =>
    match t.getPage pageId with
    | none => none
    | some (.leaf ..) => some pageId
    | some (.internal _ _ items) =>
      let next := if leftMost then ((items.head?.map (·.2)).getD (-1))
                  else lookupChild key items
      findLeafFrom t key leftMost fuel next

/-- `FindLeafPage(key, left_most, …)` (sequentially: just the descent; the
latch crabbing has no state effect). -/
def FindLeafPage (t : BPlusTree) (key : Nat) (leftMost : Bool) : Option Int :=
  if t.rootPageId == -1 then none
  else findLeafFrom t key leftMost (t.pages.length + 1) t.rootPageId

/-- The leaf scan of `GetValue`: return `[value]` on the key, stop early
once the scanned key exceeds it. -/
def leafGetValue (key : Nat) : List (Nat × Nat) → List Nat
  | [] => []
  | (k, v) :: rest =>
    if key == k then [v] else if key < k then [] else leafGetValue key rest

/-- `GetValue(key)`: a one-element list when present, else empty. -/
def GetValue (t : BPlusTree) (key : Nat) : List Nat :=
  match t.FindLeafPage key false with
  | none => []
  | some leafId =>
    match t.getPage leafId with
    | some (.leaf _ _ items _) => leafGetValue key items
    | _ => []

/-- The insert-position scan of `Insert`: number of leading keys `< key`,
plus whether an equal key was found. -/
def leafFindPos (key : Nat) : List (Nat × Nat) → Nat × Bool
  | [] => (0, false)
  | (k, _) :: rest =>
    if key == k then (0, true)
    else if key < k then (0, false)
    else
      let r := leafFindPos key rest
      (r.1 + 1, r.2)

/-- `InsertIntoParent(parent_id, left_id, key, right_id)`: create a new root,
or insert the separator after `left_id`'s slot and split the internal node
when it exceeds `max_size`, recursing upward. -/
def InsertIntoParent (t : BPlusTree) :
    Nat → Int → Int → Nat → Int → Option BPlusTree
  | 0, _, _, _, _ => none
  | fuel + 1, parentId, leftId, key, rightId =>
    if parentId == -1 then
      -- create a new root holding (⊥, left) and (key, right)
      let r := t.newPage (.internal (-1) t.internalMaxSize [(0, leftId), (key, rightId)])
      let t1 := r.2.updateParentId leftId r.1
      let t2 := t1.updateParentId rightId r.1
      some { t2 with rootPageId := r.1 }
    else
      match t.getPage parentId with
      | some (.internal pparent pmax pitems) =>
        let ipos :=
          match pitems.findIdx? (fun entry => entry.2 == leftId) with
          | some i => i + 1
          | none => 0
        let pitems' := pitems.insertIdx ipos (key, rightId)
        let t1 := t.setPage parentId (.internal pparent pmax pitems')
        let t2 := t1.updateParentId rightId parentId
        if pmax < pitems'.length then
          -- split the internal node at (size + 1) / 2; the middle key moves up
          let splitIndex := (pitems'.length + 1) / 2
          let middleKey := ((pitems'.get? splitIndex).map (·.1)).getD 0
          let pivotChild := ((pitems'.get? splitIndex).map (·.2)).getD (-1)
          let newItems := (0, pivotChild) :: pitems'.drop (splitIndex + 1)
          let r := t2.newPage (.internal pparent t.internalMaxSize newItems)
          let t3 := r.2.setPage parentId (.internal pparent pmax (pitems'.take splitIndex))
          let t4 := newItems.foldl (fun acc entry => acc.updateParentId entry.2 r.1) t3
          InsertIntoParent t4 fuel pparent parentId middleKey r.1
        else
          some t2
      | _ => none

/-- The tail of `Insert` once the destination leaf is fixed: duplicate check,
sorted insert, and a split at `size ≥ max_size` handing the middle key to
`InsertIntoParent`. -/
def insertIntoLeaf (t : BPlusTree) (leafId : Int) (parent : Int) (maxSize : Nat)
    (items : List (Nat × Nat)) (next : Int) (key value : Nat) :
    Option (Bool × BPlusTree) :=
  let scan := leafFindPos key items
  if scan.2 then some (false, t)
  else
    let items' := items.insertIdx scan.1 (key, value)
    if t.leafMaxSize ≤ items'.length then
      -- split: keep the lower half, move the upper half to a new leaf
      let splitIndex := items'.length / 2
      let moved := items'.drop splitIndex
      let r := t.newPage (.leaf parent t.leafMaxSize moved next)
      let t1 := r.2.setPage leafId (.leaf parent maxSize (items'.take splitIndex) r.1)
      let middleKey := ((moved.head?).map (·.1)).getD 0
      (InsertIntoParent t1 (t1.pages.length + 1) parent leafId middleKey r.1).map
        (fun t2 => (true, t2))
    else
      some (true, t.setPage leafId (.leaf parent maxSize items' next))

/-- `Insert(key, value)`: start a new tree when empty; else walk to the
leaf, apply the successor hand-off guard, and insert. -/
def Insert (t : BPlusTree) (key value : Nat) : Option (Bool × BPlusTree) :=
  if t.rootPageId == -1 then
    let r := t.newPage (.leaf (-1) t.leafMaxSize [(key, value)] (-1))
    some (true, { r.2 with rootPageId := r.1 })
  else
    match t.FindLeafPage key false with
    | none => none
    | some leafId0 =>
      match t.getPage leafId0 with
      | some (.leaf parent0 max0 items0 next0) =>
        let scan0 := leafFindPos key items0
        -- hand off to the successor leaf when the key is greater than every
        -- key here and the successor's first key is ≤ key
        let handoff :=
          if items0.length ≤ scan0.1 && decide (0 < items0.length)
              && ((items0.getLast?.map (fun entry => decide (entry.1 < key))).getD false)
              && !(next0 == -1) then
            match t.getPage next0 with
            | some (.leaf parent1 max1 items1 next1) =>
              if decide (0 < items1.length)
                  && ((items1.head?.map (fun entry => decide (entry.1 ≤ key))).getD false) then
                some (next0, parent1, max1, items1, next1)
              else none
            | _ => none
          else none
        match handoff with
        | some (leafId, parent, maxSize, items, next) =>
          insertIntoLeaf t leafId parent maxSize items next key value
        | none =>
          insertIntoLeaf t leafId0 parent0 max0 items0 next0 key value
      | _ => none

/-- The delete-position scan of `Remove`: index of the equal key, stopping
early once the scanned key exceeds it. -/
def leafDeletePos (key : Nat) : List (Nat × Nat) → Option Nat
  | [] => none
  | (k, _) :: rest =>
    if key == k then some 0
    else if key < k then none
    else (leafDeletePos key rest).map (· + 1)

/-- Set the key of item `i`, keeping its value (`SetKeyAt`). -/
def setKeyAt (items : List (Nat × α)) (i : Nat) (key : Nat) : List (Nat × α) :=
  match items.get? i with
  | none => items
  | some entry => items.set i (key, entry.2)

/-- `CoalesceOrRedistribute(node)`: pick the left sibling if it exists, else
the right one; redistribute one boundary item when the sibling is above
`min_size`, else merge into the left page, remove the separator from the
parent and recurse when the parent underflows.  Both branches act only when
node and sibling are leaves: for internal nodes the source merely unpins
("Checkpoint 1"), so the state is returned unchanged. -/
def CoalesceOrRedistribute (t : BPlusTree) :
    Nat → Int → Option BPlusTree
  | 0, _ => none
  | fuel + 1, pageId =>
    match t.getPage pageId with
    | none => some t
    | some node =>
      if node.IsRootPage then some t
      else
        let parentId := node.GetParentPageId
        match t.getPage parentId with
        | some (.internal pparent pmax pitems) =>
          match pitems.findIdx? (fun entry => entry.2 == pageId) with
          | none => some t
          | some idx =>
            let sib :=
              if 0 < idx then some ((((pitems.get? (idx - 1)).map (·.2)).getD (-1)), true)
              else if idx + 1 < pitems.length then
                some ((((pitems.get? (idx + 1)).map (·.2)).getD (-1)), false)
              else none
            match sib with
            | none => some t
            | some (sibId, isLeft) =>
              -- the lock-ordering release/re-acquire of the source re-fetches
              -- the same pages and has no sequential state effect
              match t.getPage pageId, t.getPage sibId with
              | some (.leaf nparent nmax nitems nnext), some (.leaf sparent smax sitems snext) =>
                if leafMinSize smax < sitems.length then
                  -- redistribute one boundary item from the sibling
                  if isLeft then
                    let nitems' := (sitems.getLast?.getD (0, 0)) :: nitems
                    let sitems' := sitems.dropLast
                    let t1 := t.setPage pageId (.leaf nparent nmax nitems' nnext)
                    let t2 := t1.setPage sibId (.leaf sparent smax sitems' snext)
                    some (t2.setPage parentId (.internal pparent pmax
                      (setKeyAt pitems idx ((nitems'.head?.getD (0, 0)).1))))
                  else
                    let nitems' := nitems ++ [sitems.headD (0, 0)]
                    let sitems' := sitems.tail
                    let t1 := t.setPage pageId (.leaf nparent nmax nitems' nnext)
                    let t2 := t1.setPage sibId (.leaf sparent smax sitems' snext)
                    some (t2.setPage parentId (.internal pparent pmax
                      (setKeyAt pitems (idx + 1) ((sitems'.head?.getD (0, 0)).1))))
                else
                  -- merge into the left page and fix the next-pointer chain
                  let keyIndex := if isLeft then idx else idx + 1
                  let pageToDelete := if isLeft then pageId else sibId
                  let t1 :=
                    if isLeft then
                      t.setPage sibId (.leaf sparent smax (sitems ++ nitems) nnext)
                    else
                      t.setPage pageId (.leaf nparent nmax (nitems ++ sitems) snext)
                  let pitems' := pitems.eraseIdx keyIndex
                  let t2 := t1.setPage parentId (.internal pparent pmax pitems')
                  let t3 := t2.deletePage pageToDelete
                  if pitems'.length < internalMinSize pmax && !(pparent == -1) then
                    CoalesceOrRedistribute t3 fuel parentId
                  else some t3
              | _, _ => some t
        | _ => some t

/-- The root inspection at the end of `Remove`: demote an internal root of
size 0 to its first child; an empty leaf root empties the tree. -/
def adjustRoot (t : BPlusTree) : BPlusTree :=
  if t.rootPageId == -1 then t
  else
    match t.getPage t.rootPageId with
    | some (.internal _ _ items) =>
      if items.length == 0 then
        let newRootId := ((items.head?.map (·.2)).getD (-1))
        let oldRootId := t.rootPageId
        let t1 := t.updateParentId newRootId (-1)
        ({ t1 with rootPageId := newRootId }).deletePage oldRootId
      else t
    | some (.leaf _ _ items _) =>
      if items.length == 0 then
        (({ t with rootPageId := -1 }) : BPlusTree).deletePage t.rootPageId
      else t
    | none => t

/-- `Remove(key)`: no-op when empty or absent; shift-delete in the leaf,
run `CoalesceOrRedistribute` when a non-root leaf underflows, then inspect
the root. -/
def Remove (t : BPlusTree) (key : Nat) : Option BPlusTree :=
  if t.rootPageId == -1 then some t
  else
    match t.FindLeafPage key false with
    | none => none
    | some leafId =>
      match t.getPage leafId with
      | some (.leaf parent maxSize items next) =>
        match leafDeletePos key items with
        | none => some t
        | some dpos =>
          let items' := items.eraseIdx dpos
          let t1 := t.setPage leafId (.leaf parent maxSize items' next)
          let afterMerge :=
            if items'.length < leafMinSize maxSize && !(parent == -1) then
              CoalesceOrRedistribute t1 (t1.pages.length + 1) leafId
            else some t1
          afterMerge.map adjustRoot
      | _ => none

end BPlusTree

/-! ### Index iterator
Embedding of `src/storage/index/index_iterator.cpp`.  The pinned
`leaf_page_` pointer is modelled as the fetched leaf's contents
(`none` models a null pointer). -/

structure IndexIterator where
  /-- `page_id_` -/
  pageId : Int
  /-- `index_` -/
  index : Nat
  /-- `leaf_page_`: the current leaf's items and `next_page_id` -/
  leaf : Option (List (Nat × Nat) × Int)
  deriving Repr, DecidableEq

namespace IndexIterator

/-- Fetch a page and cast it to a leaf. -/
def fetchLeaf (t : BPlusTree) (pageId : Int) : Option (List (Nat × Nat) × Int) :=
  match t.getPage pageId with
  | some (.leaf _ _ items next) => some (items, next)
  | _ => none

/-- The default constructor — what `End()` returns. -/
def endIterator : IndexIterator := { pageId := -1, index := 0, leaf := none }

/-- The pinning constructor `IndexIterator(bpm, page_id, index)`. -/
def mkIterator (t : BPlusTree) (pageId : Int) (index : Nat) : IndexIterator :=
  { pageId := pageId, index := index
    leaf := if pageId == -1 then none else fetchLeaf t pageId }

/-- `IsEnd()`. -/
def IsEnd (it : IndexIterator) : Bool :=
  it.pageId == -1 || it.leaf.isNone || ((it.leaf.map (·.1.length)).getD 0) ≤ it.index

/-- `operator*`: the item under the cursor. -/
def deref (it : IndexIterator) : Option (Nat × Nat) :=
  (it.leaf.map (·.1)).getD [] |>.get? it.index

/-- `operator++`: no-op at end; else advance the slot and follow
`next_page_id` when the leaf is exhausted. -/
def increment (t : BPlusTree) (it : IndexIterator) : IndexIterator :=
  if it.IsEnd then it
  else
    match it.leaf with
    | none => it
    | some (items, next) =>
      if items.length ≤ it.index + 1 then
        if next == -1 then endIterator
        else
          match fetchLeaf t next with
          | some l => { pageId := next, index := 0, leaf := some l }
          | none => { pageId := next, index := 0, leaf := none }
      else { it with index := it.index + 1 }

/-- `operator==`: same `(page_id, index)` pair. -/
def eq (a b : IndexIterator) : Bool :=
  a.pageId == b.pageId && a.index == b.index

end IndexIterator

namespace BPlusTree

/-- `Begin()`: descend to the leftmost leaf, cursor at slot 0. -/
def Begin (t : BPlusTree) : IndexIterator :=
  if t.rootPageId == -1 then IndexIterator.endIterator
  else
    match t.FindLeafPage 0 true with
    | none => IndexIterator.endIterator
    | some leafId => IndexIterator.mkIterator t leafId 0

/-- Iterate with `operator++` from an iterator, collecting dereferenced
keys, until `IsEnd` (fuelled). -/
def collectKeys (t : BPlusTree) : Nat → IndexIterator → List Nat
  | 0, _ => []
  | fuel + 1, it =>
    if it.IsEnd then []
    else
      match it.deref with
      | none => []
      | some item => item.1 :: collectKeys t fuel (it.increment t)

/-- All keys yielded by iterating from `Begin()` to `End()`. -/
def iterateKeys (t : BPlusTree) : List Nat :=
  collectKeys t (t.pages.length * (t.leafMaxSize + 2) + 1) t.Begin

/-- Insert each key with itself as value, in order. -/
def insertList (t : BPlusTree) : List Nat → Option BPlusTree
  | [] => some t
  | key :: rest => (t.Insert key key).bind (fun r => insertList r.2 rest)

/-- Remove the keys in order. -/
def removeList (t : BPlusTree) : List Nat → Option BPlusTree
  | [] => some t
  | key :: rest => (t.Remove key).bind (fun t' => removeList t' rest)

end BPlusTree

/-- Scenarios S4/S5: `leaf_max_size = internal_max_size = 4`; insert keys
`5,3,8,1,4,9,2,7,6` (S4) and then `10,11,12,13` (S5), value = key. -/
def s5Tree : Option BPlusTree :=
  BPlusTree.insertList (BPlusTree.init 4 4) [5, 3, 8, 1, 4, 9, 2, 7, 6, 10, 11, 12, 13]

/-- Scenario S6: from S5, remove all of `1..13` (in ascending order). -/
def s6Tree : Option BPlusTree :=
  s5Tree.bind (fun t => BPlusTree.removeList t [1, 2, 3, 4, 5, 6, 7, 8, 9, 10, 11, 12, 13])

/-- A one-leaf page store for iterator tests: page 1 is a leaf holding the
single item `(5, 5)` with no successor. -/
def oneLeafStore : BPlusTree :=
  { pages := [(1, .leaf (-1) 4 [(5, 5)] (-1))]
    rootPageId := 1, nextPageId := 2, leafMaxSize := 4, internalMaxSize := 4 }

/-- An iterator on `oneLeafStore` whose slot index (1) is past the end of
its (valid) leaf page — an at-End iterator with a valid `page_id`. -/
def exhaustedIterator : IndexIterator := IndexIterator.mkIterator oneLeafStore 1 1

/-- A one-frame replacer with frame 0 tracked and evictable (witness
state). -/
def smallReplacer : LRUKReplacer :=
  { replacerSize := 1, k := 2, currentTimestamp := 1, currSize := 1
    history := [(0, [0])], evictable := [(0, true)] }

/-- The S1 table just before the third insert: the sole depth-0 bucket is
full with `(1,"a")`, `(2,"b")`. -/
def s1Full : ExtendibleHashTable Nat String :=
  { bucketSize := 2, globalDepth := 0, numBuckets := 1
    buckets := [{ size := 2, depth := 0, list := [(1, "a"), (2, "b")] }]
    dir := [0] }

/-- Structural facts every reachable pool state satisfies: the frame array
has `pool_size` frames, the replacer was built for `pool_size` frames, and
every frame id stored in the page table is in range and tracked by the
replacer (every resident page was `RecordAccess`ed when brought in). -/
def BPMWF (s : BufferPoolManagerInstance) : Prop :=
  s.pages.length = s.poolSize ∧
  s.replacer.replacerSize = s.poolSize ∧
  (∀ b ∈ s.pageTable.buckets, ∀ kv ∈ b.list,
    kv.2 < s.poolSize ∧ (s.replacer.history.lookup kv.2).isSome = true)

instance (s : BufferPoolManagerInstance) : Decidable (BPMWF s) := by
  unfold BPMWF; infer_instance

/-- A page table mapping page 5 to frame 0 (witness state). -/
def smallPageTable : ExtendibleHashTable Int Nat :=
  { bucketSize := 4, globalDepth := 0, numBuckets := 1
    buckets := [{ size := 4, depth := 0, list := [(5, 0)] }]
    dir := [0] }

/-- A replacer tracking the (pinned, non-evictable) frame 0 (witness
state). -/
def pinnedReplacer : LRUKReplacer :=
  { replacerSize := 1, k := 2, currentTimestamp := 1, currSize := 0
    history := [(0, [0])], evictable := [(0, false)] }

/-- A one-frame pool holding page 5 (pin count 1, clean) in frame 0
(witness state). -/
def smallBPM : BufferPoolManagerInstance :=
  { poolSize := 1
    pages := [{ pageId := 5, pinCount := 1, isDirty := false, data := 42 }]
    pageTable := smallPageTable
    replacer := pinnedReplacer
    freeList := []
    nextPageId := 6
    disk := [(5, 41)] }

/-! ### Structural invariant of the B+-tree store
An executable, fuel-indexed validator for the tree shape the sources rely
on: correct parent back-pointers, strictly sorted keys, separator-bounded
subtrees, and the sorted leaf chain.  `BPTWF` (the conjunction below) is
the well-formedness invariant quantifying claim C3's "tree state". -/

/-- `lo ≤ x` for an optional lower bound. -/
def geLB : Option Nat → Nat → Bool
  | none, _ => true
  | some l, x => l ≤ x

/-- `x < hi` for an optional upper bound. -/
def ltUB : Option Nat → Nat → Bool
  | none, _ => true
  | some h, x => x < h

/-- `lo < x` for an optional lower bound (strict, for separators). -/
def ltLB : Option Nat → Nat → Bool
  | none, _ => true
  | some l, x => l < x

/-- Strictly ascending item keys. -/
def itemsSorted : List (Nat × α) → Bool
  | [] => true
  | [_] => true
  | a :: b :: rest => decide (a.1 < b.1) && itemsSorted (b :: rest)

/-- Walk the child list of an internal node with a given subtree validator
`check`: child `c0` covers `[lo, k₁)`, the child after separator `kᵢ` covers
`[kᵢ, kᵢ₊₁)`, the last child covers `[kₙ, hi)`, with `lo < k₁ < … < kₙ < hi`;
the results are concatenated in order. -/
def checkKids
    (check : Int → Option Nat → Option Nat →
      Option (List (Nat × Nat) × List Int × List Int)) :
    Int → List (Nat × Int) → Option Nat → Option Nat →
    Option (List (Nat × Nat) × List Int × List Int)
  | c0, [], lo, hi => check c0 lo hi
  | c0, (k, c1) :: rest, lo, hi =>
    if ltLB lo k && ltUB hi k then
      (check c0 lo (some k)).bind (fun r =>
        (checkKids check c1 rest (some k) hi).map (fun r' =>
          (r.1 ++ r'.1, r.2.1 ++ r'.2.1, r.2.2 ++ r'.2.2)))
    else none

/-- Validate the subtree rooted at `pid`: the node records `parent`, keys
lie in `[lo, hi)`, leaf keys are strictly sorted, internal separators are
strictly ascending within the bounds, and every child validates between
consecutive separators.  Returns the subtree's items in key order, its
leaf pages left-to-right, and all its node pages.  Fuel is consumed once
per tree level, so `height + 1` always suffices. -/
def checkTree (t : BPlusTree) :
    Nat → Int → Int → Option Nat → Option Nat →
    Option (List (Nat × Nat) × List Int × List Int)
  | 0, _, _, _, _ => none
  | fuel + 1, pid, parent, lo, hi =>
    match t.getPage pid with
    | some (.leaf p m items next) =>
      if p == parent && m == t.leafMaxSize && itemsSorted items &&
          items.all (fun item => geLB lo item.1 && ltUB hi item.1) then
        some (items, [pid], [pid])
      else none
    | some (.internal p m entries) =>
      if p == parent && m == t.internalMaxSize then
        match entries with
        | [] => none
        | (_, c0) :: rest =>
          (checkKids (fun c lo hi => checkTree t fuel c pid lo hi) c0 rest lo hi).map
            (fun r => (r.1, r.2.1, pid :: r.2.2))
      else none
    | none => none

/-- The child-list walk of `checkTree` at a fixed fuel and parent. -/
def checkChildren (t : BPlusTree) (fuel : Nat) (parentId : Int) (c0 : Int)
    (entries : List (Nat × Int)) (lo hi : Option Nat) :
    Option (List (Nat × Nat) × List Int × List Int) :=
  checkKids (fun c lo hi => checkTree t fuel c parentId lo hi) c0 entries lo hi

/-- Fuel-free subtree validation: some fuel (hence any larger fuel)
makes `checkTree` succeed with this result. -/
def checksAs (t : BPlusTree) (pid parent : Int) (lo hi : Option Nat)
    (r : List (Nat × Nat) × List Int × List Int) : Prop :=
  ∃ fuel, checkTree t fuel pid parent lo hi = some r

/-- Fuel-free child-list validation. -/
def childrenCheckAs (t : BPlusTree) (parentId c0 : Int)
    (entries : List (Nat × Int)) (lo hi : Option Nat)
    (r : List (Nat × Nat) × List Int × List Int) : Prop :=
  ∃ fuel, checkChildren t fuel parentId c0 entries lo hi = some r

/-- The items stored in the leaf page `l` (empty when `l` is not a leaf). -/
def leafItemsAt (t : BPlusTree) (l : Int) : List (Nat × Nat) :=
  match t.getPage l with
  | some (.leaf _ _ items _) => items
  | _ => []

/-- Concatenated items of a list of leaf pages. -/
def flatLeaves (t : BPlusTree) (ls : List Int) : List (Nat × Nat) :=
  ls.foldr (fun l acc => leafItemsAt t l ++ acc) []

/-- The `next_page_id` of a leaf page (`none` when not a leaf): all the
leaf chain reads. -/
def linkView (t : BPlusTree) (l : Int) : Option Int :=
  match t.getPage l with
  | some (.leaf _ _ _ next) => some next
  | _ => none

/-- The right-hand context of a child slot inside an internal node: the
entries after the slot, the slot's upper bound `hi` (the first following
separator, or `phi` when the slot is last), and the validated right
segment. -/
def RightSeg (t : BPlusTree) (P : Int) (lo phi hi : Option Nat)
    (post : List (Nat × Int)) (CBs : List (Nat × Nat)) (LBs NBs : List Int) : Prop :=
  match post with
  | [] => hi = phi ∧ CBs = [] ∧ LBs = [] ∧ NBs = []
  | (k1, c1) :: post' =>
    hi = some k1 ∧ ltLB lo k1 = true ∧ ltUB phi k1 = true ∧
    childrenCheckAs t P c1 post' (some k1) phi (CBs, LBs, NBs)

/-- The context of one child slot of the internal node `P`: `P`'s stored
entry list around the slot, the validated segments on both sides, and the
slot's covered range `[lo, hi)`.  `slotChild` is the page id stored in the
slot. -/
def SlotCtx (t : BPlusTree) (P pp : Int) (plo phi lo hi : Option Nat)
    (CAs CBs : List (Nat × Nat)) (LAs LBs NAs NBs : List Int)
    (slotChild : Int) : Prop :=
  ∃ pitems, t.getPage P = some (.internal pp t.internalMaxSize pitems) ∧
    ((∃ hk post, pitems = (hk, slotChild) :: post ∧ lo = plo ∧
        CAs = [] ∧ LAs = [] ∧ NAs = [] ∧
        RightSeg t P lo phi hi post CBs LBs NBs)
     ∨ (∃ hk hc preRest sk post,
        pitems = (hk, hc) :: preRest ++ (sk, slotChild) :: post ∧
        lo = some sk ∧ ltLB plo sk = true ∧ ltUB phi sk = true ∧
        childrenCheckAs t P hc preRest plo (some sk) (CAs, LAs, NAs) ∧
        slotChild ∉ ((hk, hc) :: preRest).map (·.2) ∧
        RightSeg t P lo phi hi post CBs LBs NBs))

/-- A zipper context for one subtree slot of a validated tree: the slot
currently holds page `pid` under `parent`, covering `[lo, hi)`; `CA/CB`,
`LA/LB` and `NA/NB` are the contents, leaves and nodes of the rest of the
tree to the left and right of the slot. -/
inductive Zip (t : BPlusTree) :
    Nat → Int → Int → Option Nat → Option Nat →
    List (Nat × Nat) → List (Nat × Nat) →
    List Int → List Int → List Int → List Int → Prop
  | top : Zip t 0 t.rootPageId (-1) none none [] [] [] [] [] []
  | step {d : Nat} {P pp slotChild : Int} {plo phi lo hi : Option Nat}
      {CA' CB' CAs CBs : List (Nat × Nat)}
      {LA' LB' LAs LBs NA' NB' NAs NBs : List Int} :
      Zip t d P pp plo phi CA' CB' LA' LB' NA' NB' →
      SlotCtx t P pp plo phi lo hi CAs CBs LAs LBs NAs NBs slotChild →
      Zip t (d + 1) slotChild P lo hi (CA' ++ CAs) (CBs ++ CB')
        (LA' ++ LAs) (LBs ++ LB') (NA' ++ P :: NAs) (NBs ++ NB')

/-- The leaf chain: consecutive leaves linked by `next_page_id`, the last
leaf ending with `INVALID_PAGE_ID`. -/
def chainOK (t : BPlusTree) : List Int → Bool
  | [] => true
  | [l] =>
    match t.getPage l with
    | some (.leaf _ _ _ next) => next == -1
    | _ => false
  | l₁ :: l₂ :: rest =>
    (match t.getPage l₁ with
     | some (.leaf _ _ _ next) => next == l₂
     | _ => false) && chainOK t (l₂ :: rest)

/-- The canonical whole-tree validation (fuel `pages.length + 1` always
suffices for a well-formed store). -/
def treeCheck (t : BPlusTree) : Option (List (Nat × Nat) × List Int × List Int) :=
  checkTree t (t.pages.length + 1) t.rootPageId (-1) none none

/-- The tree's items in key order (empty for an empty tree or a broken
store). -/
def treeContents (t : BPlusTree) : List (Nat × Nat) :=
  if t.rootPageId == -1 then [] else ((treeCheck t).map (·.1)).getD []

/-- Well-formedness of a tree state: sane fanout parameters, fresh page
ids below the allocation counter, and — unless empty — a store that
validates, with globally distinct node pages and a correctly linked leaf
chain. -/
def BPTWF (t : BPlusTree) : Prop :=
  2 ≤ t.leafMaxSize ∧ 2 ≤ t.internalMaxSize ∧
  1 ≤ t.nextPageId ∧
  (∀ e ∈ t.pages, 0 ≤ e.1 ∧ e.1 < t.nextPageId) ∧
  (¬ t.rootPageId = -1 →
    ∃ r, treeCheck t = some r ∧ r.2.2.Nodup ∧ chainOK t r.2.1 = true)

/-! ## Theorems -/

/-- Helper: appending one element after a `set` and indexing at the
original length lands on the appended element. -/
theorem get?_set_concat {α : Type} (l : List α) (i : Nat) (x y : α) :
    ((l.set i x) ++ [y]).get? l.length = some y := by
  have h := List.get?_concat_length (l.set i x) y
  simpa using h

/-- Helper: a successful hash-table `Find` returns a value stored in one of
the table's buckets. -/
theorem extFind_mem [BEq K] (hash : K → Nat) (t : ExtendibleHashTable K V) (k : K) (v : V)
    (h : ExtendibleHashTable.Find hash t k = some v) :
    ∃ b ∈ t.buckets, ∃ item ∈ b.list, item.2 = v := by
  unfold ExtendibleHashTable.Find ExtendibleHashTable.bucketAt at h
  cases hd : t.dir.get? (ExtendibleHashTable.IndexOf hash t k) with
  | none => rw [hd] at h; simp at h
  | some bi =>
    rw [hd] at h
    simp only [Option.some_bind] at h
    cases hbk : t.buckets.get? bi with
    | none =>
      rw [hbk, Option.none_bind] at h
      exact Option.noConfusion h
    | some b =>
      rw [hbk] at h
      simp only [Option.some_bind] at h
      unfold Bucket.Find at h
      cases hf : b.list.find? (fun item => item.1 == k) with
      | none => rw [hf] at h; simp at h
      | some item =>
        rw [hf] at h
        simp only [Option.map_some'] at h
        exact ⟨b, List.get?_mem hbk, item, List.mem_of_find?_eq_some hf,
          by injection h⟩

/-- Helper: `lookup` after `assocSet` at the stored key. -/
theorem lookup_assocSet_self [BEq K] [LawfulBEq K] (key : K) (v : V) (m : List (K × V)) :
    (assocSet key v m).lookup key = some v := by
  induction m with
  | nil => simp [assocSet, List.lookup]
  | cons e rest ih =>
    rcases e with ⟨k', v'⟩
    by_cases he : (k' == key) = true
    · have hk : k' = key := eq_of_beq he
      subst hk
      simp [assocSet, List.lookup]
    · have he' : (key == k') = false := by
        rw [beq_eq_false_iff_ne]
        rw [Bool.not_eq_true, beq_eq_false_iff_ne] at he
        exact fun hh => he hh.symm
      simp [assocSet, he, List.lookup, he', ih]

/-- Helper: `lookup` after `assocSet` at a different key. -/
theorem lookup_assocSet_ne [BEq K] [LawfulBEq K] (key key' : K) (v : V) (m : List (K × V))
    (hne : ¬ key' = key) : (assocSet key v m).lookup key' = m.lookup key' := by
  have hb : (key' == key) = false := beq_eq_false_iff_ne.mpr hne
  induction m with
  | nil => simp [assocSet, List.lookup, hb]
  | cons e rest ih =>
    rcases e with ⟨k', v'⟩
    by_cases he : (k' == key) = true
    · have hk : k' = key := eq_of_beq he
      subst hk
      simp [assocSet, List.lookup, hb]
    · simp [assocSet, he, List.lookup, ih]

/-- Helper: `SetEvictable(frame, true)` on an in-range, tracked frame
succeeds and leaves the frame evictable, touching neither the history nor
the other scalar fields. -/
theorem setEvictable_true_of_tracked (r : LRUKReplacer) (f : Nat)
    (hf : f < r.replacerSize) (ht : (r.history.lookup f).isSome = true) :
    ∃ r', r.SetEvictable f true = some r' ∧ r'.evictable.lookup f = some true ∧
      r'.history = r.history ∧ r'.replacerSize = r.replacerSize ∧
      r'.currentTimestamp = r.currentTimestamp ∧ r'.k = r.k := by
  have hle : ¬ r.replacerSize ≤ f := Nat.not_le.mpr hf
  obtain ⟨hv, hvv⟩ := Option.isSome_iff_exists.mp ht
  cases hev : (r.evictable.lookup f).getD false with
  | true =>
    have hlk : r.evictable.lookup f = some true := by
      cases hl : r.evictable.lookup f with
      | none => rw [hl] at hev; simp at hev
      | some bb => rw [hl] at hev; simp at hev; rw [hev]
    refine ⟨r, ?_, hlk, rfl, rfl, rfl, rfl⟩
    simp [LRUKReplacer.SetEvictable, hle, hvv, hev]
  | false =>
    refine ⟨{ r with evictable := assocSet f true r.evictable, currSize := r.currSize + 1 },
      ?_, ?_, rfl, rfl, rfl, rfl⟩
    · simp [LRUKReplacer.SetEvictable, hle, hvv, hev]
    · exact lookup_assocSet_self f true r.evictable

/-- C1: inserting the thirteen distinct keys of S4/S5 and iterating from
`Begin()` to `End()` does yield them in ascending order — but after removing
all of them, `IsEmpty()` is `false` and `GetRootPageId()` is 8 (not
`INVALID_PAGE_ID`): once the root has become internal, the delete path can
never return the tree to the empty state (an internal root is demoted only
at size 0, which merges never reach, and internal underflow is unhandled).
The round-trip claim fails on the code. -/
theorem c1_remove_all_does_not_empty_the_tree :
    s5Tree.map BPlusTree.iterateKeys = some [1, 2, 3, 4, 5, 6, 7, 8, 9, 10, 11, 12, 13] ∧
    s6Tree.map (fun t => (t.IsEmpty, t.GetRootPageId)) = some (false, 8) :=
  ⟨rfl, rfl⟩

/-- C2: after the S6 removals, page 3 is a non-root internal node of size 1,
strictly below the internal `min_size` 3, yet `CoalesceOrRedistribute` on it
returns the state unchanged: the delete path performs no redistribute or
merge for internal nodes (the source's internal branch only unpins). -/
theorem c2_internal_underflow_is_not_repaired :
    (s6Tree.bind (fun t => t.getPage 3)).map
        (fun n => (n.IsLeafPage, n.IsRootPage, n.GetSize)) = some (false, false, 1) ∧
    1 < internalMinSize 4 ∧
    s6Tree.bind (fun t => BPlusTree.CoalesceOrRedistribute t 10 3) = s6Tree :=
  ⟨rfl, by decide, rfl⟩

/-- C4: after the S6 removals (a legal sequence of `Insert`/`Remove`
operations), page 1 is a leaf with parent 3 (hence not the root) of size 0,
violating `min_size ≤ size` (leaf `min_size` for `max_size = 4` is 2). -/
theorem c4_nonroot_leaf_below_min_size :
    (s6Tree.bind (fun t => t.getPage 1)).map
        (fun n => (n.IsLeafPage, n.GetParentPageId, n.GetSize)) = some (true, 3, 0) ∧
    0 < leafMinSize 4 :=
  ⟨rfl, by decide⟩

/-- C8 counterexample: removing an untracked (hence non-evictable) frame
from a fresh replacer returns normally with the state unchanged — the
source returns silently before its assertion, so `Remove` does **not** fail
hard when the frame is not currently tracked. -/
theorem c8_remove_of_untracked_frame_is_silent :
    (LRUKReplacer.init 3 2).Remove 0 = some (LRUKReplacer.init 3 2) ∧
    ((LRUKReplacer.init 3 2).evictable.lookup 0).getD false = false :=
  ⟨rfl, rfl⟩

/-- C8 amended: for a frame id within `replacer_size_`, `Remove` is a
silent no-op when the frame is untracked; it fails hard (assertion) when
the frame is tracked but not evictable; and when the frame is evictable it
drops the frame's history and evictable flag and decrements `curr_size_`. -/
theorem c8_remove_fails_hard_only_when_tracked (r : LRUKReplacer) (f : Nat)
    (hf : f < r.replacerSize) :
    ((r.history.lookup f).isNone = true → r.Remove f = some r) ∧
    ((r.history.lookup f).isSome = true →
      (r.evictable.lookup f).getD false = false → r.Remove f = none) ∧
    ((r.history.lookup f).isSome = true →
      (r.evictable.lookup f).getD false = true →
      r.Remove f = some
        { r with history := r.history.eraseP (fun entry => entry.1 == f)
                 evictable := r.evictable.eraseP (fun entry => entry.1 == f)
                 currSize := r.currSize - 1 }) := by
  have hle : ¬ r.replacerSize ≤ f := Nat.not_le.mpr hf
  refine ⟨fun h1 => ?_, fun h1 h2 => ?_, fun h1 h2 => ?_⟩
  · simp [LRUKReplacer.Remove, hle, h1]
  · obtain ⟨v, hv⟩ := Option.isSome_iff_exists.mp h1
    simp [LRUKReplacer.Remove, hle, hv, h2]
  · obtain ⟨v, hv⟩ := Option.isSome_iff_exists.mp h1
    simp [LRUKReplacer.Remove, hle, hv, h2]

/-- Witness for `c8_remove_fails_hard_only_when_tracked` at a concrete
replacer: one tracked, evictable frame 0. -/
theorem c8_remove_amended_witness :
    (0 : Nat) < smallReplacer.replacerSize ∧
    ((smallReplacer.history.lookup 0).isSome = true →
      (smallReplacer.evictable.lookup 0).getD false = true →
      smallReplacer.Remove 0 = some
        { smallReplacer with
            history := smallReplacer.history.eraseP (fun entry => entry.1 == 0)
            evictable := smallReplacer.evictable.eraseP (fun entry => entry.1 == 0)
            currSize := smallReplacer.currSize - 1 }) :=
  ⟨by decide, (c8_remove_fails_hard_only_when_tracked smallReplacer 0 (by decide)).2.2⟩

/-- C5: the extendible-hash split behaves as specified.  (i) For any table
and any bucket `b` at arena index `bi`, `RedistributeBucket` increments the
bucket count, increments the bucket's local depth, allocates a sibling
bucket at the same depth that receives exactly the items whose hash has the
new split bit (`1 << (local_depth - 1)`) set (the others stay), and
repoints exactly the directory slots that aliased the old bucket and whose
index has the split bit set.  (ii) One `Insert` retry step on a full bucket
whose key is absent doubles the directory (upper half duplicating the
lower), increments `global_depth` when `local_depth == global_depth`, and
retries after the split.  (iii) Concretely, S1 ends with `global_depth 1`,
2 buckets of local depth 1, bucket 0 = `[(2,"b")]`, bucket 1 =
`[(1,"a"),(3,"c")]`. -/
theorem c5_full_bucket_split_behavior :
    (∀ (K V : Type) (hash : K → Nat) (t : ExtendibleHashTable K V)
        (bi : Nat) (b : Bucket K V), t.buckets.get? bi = some b →
      (ExtendibleHashTable.RedistributeBucket hash t bi).numBuckets = t.numBuckets + 1 ∧
      (ExtendibleHashTable.RedistributeBucket hash t bi).buckets.get? bi =
        some { b with depth := b.depth + 1
                      list := b.list.filter (fun item => hash item.1 &&& (1 <<< b.depth) == 0) } ∧
      (ExtendibleHashTable.RedistributeBucket hash t bi).buckets.get? t.buckets.length =
        some { size := t.bucketSize, depth := b.depth + 1
               list := b.list.filter (fun item => !(hash item.1 &&& (1 <<< b.depth) == 0)) } ∧
      (∀ i d, t.dir.get? i = some d →
        (ExtendibleHashTable.RedistributeBucket hash t bi).dir.get? i =
          some (if d = bi ∧ ¬(i &&& (1 <<< b.depth) = 0) then t.buckets.length else d))) ∧
    (∀ (K V : Type) (inst : BEq K) (hash : K → Nat) (fuel : Nat)
        (t : ExtendibleHashTable K V) (key : K) (value : V) (bi : Nat) (b : Bucket K V),
      t.dir.get? (ExtendibleHashTable.IndexOf hash t key) = some bi →
      t.buckets.get? bi = some b →
      (b.Insert key value).1 = false →
      b.depth = t.globalDepth →
      ExtendibleHashTable.Insert hash (fuel + 1) t key value =
        ExtendibleHashTable.Insert hash fuel
          (ExtendibleHashTable.RedistributeBucket hash
            { t with globalDepth := t.globalDepth + 1, dir := t.dir ++ t.dir } bi)
          key value) ∧
    s1Table.map (fun t => (t.GetGlobalDepth, t.GetNumBuckets, t.GetLocalDepth 0,
        t.GetLocalDepth 1, (t.bucketAt 0).map (·.list), (t.bucketAt 1).map (·.list))) =
      some (1, 2, some 1, some 1, some [(2, "b")], some [(1, "a"), (3, "c")]) := by
  refine ⟨?_, ?_, by rfl⟩
  · intro K V hash t bi b hb
    have hbi : bi < t.buckets.length := by
      rcases List.get?_eq_some.mp hb with ⟨h, _⟩
      exact h
    have hred : ExtendibleHashTable.RedistributeBucket hash t bi =
        { t with
          buckets := (t.buckets.set bi
              { b with depth := b.depth + 1
                       list := b.list.filter
                         (fun item => hash item.1 &&& (1 <<< b.depth) == 0) }) ++
            [{ size := t.bucketSize, depth := b.depth + 1
               list := b.list.filter
                 (fun item => !(hash item.1 &&& (1 <<< b.depth) == 0)) }]
          dir := t.dir.enum.map (fun p =>
            if p.2 == bi && !(p.1 &&& (1 <<< b.depth) == 0) then t.buckets.length else p.2)
          numBuckets := t.numBuckets + 1 } := by
      unfold ExtendibleHashTable.RedistributeBucket
      rw [hb]
      rfl
    rw [hred]
    refine ⟨rfl, ?_, ?_, ?_⟩
    · rw [List.get?_append (by simpa using hbi), List.get?_set_eq_of_lt _ (by simpa using hbi)]
    · exact get?_set_concat t.buckets bi _ _
    · intro i d hd
      simp only [List.get?_map, List.enum_get?, hd, Option.map_some]
      by_cases h1 : d = bi <;> by_cases h2 : i &&& (1 <<< b.depth) = 0 <;>
        simp [h1, h2]
  · intro K V inst hash fuel t key value bi b h1 h2 h3 h4
    conv_lhs => rw [ExtendibleHashTable.Insert]
    simp only [h1, h2, h3, h4, beq_self_eq_true, if_true, Bool.false_eq_true, if_false]

/-- Witness for `c5_full_bucket_split_behavior` at the S1 state just before
the third insert: both quantified parts instantiated on `s1Full`, bucket 0,
key 3. -/
theorem c5_split_witness :
    s1Full.buckets.get? 0 =
      some { size := 2, depth := 0, list := [(1, "a"), (2, "b")] } ∧
    ((ExtendibleHashTable.RedistributeBucket id s1Full 0).numBuckets =
        s1Full.numBuckets + 1 ∧
      (ExtendibleHashTable.RedistributeBucket id s1Full 0).buckets.get? 0 =
        some { size := 2, depth := 0 + 1
               list := [(1, "a"), (2, "b")].filter (fun item => id item.1 &&& (1 <<< 0) == 0) } ∧
      (ExtendibleHashTable.RedistributeBucket id s1Full 0).buckets.get? s1Full.buckets.length =
        some { size := s1Full.bucketSize, depth := 0 + 1
               list := [(1, "a"), (2, "b")].filter
                 (fun item => !(id item.1 &&& (1 <<< 0) == 0)) } ∧
      (∀ i d, s1Full.dir.get? i = some d →
        (ExtendibleHashTable.RedistributeBucket id s1Full 0).dir.get? i =
          some (if d = 0 ∧ ¬(i &&& (1 <<< 0) = 0) then s1Full.buckets.length else d))) ∧
    ExtendibleHashTable.Insert id (1 + 1) s1Full 3 "c" =
      ExtendibleHashTable.Insert id 1
        (ExtendibleHashTable.RedistributeBucket id
          { s1Full with globalDepth := s1Full.globalDepth + 1, dir := s1Full.dir ++ s1Full.dir } 0)
        3 "c" := by
  refine ⟨by rfl, ?_, ?_⟩
  · exact c5_full_bucket_split_behavior.1 Nat String id s1Full 0
      { size := 2, depth := 0, list := [(1, "a"), (2, "b")] } (by rfl)
  · exact c5_full_bucket_split_behavior.2.1 Nat String (inferInstance : BEq Nat) id 1 s1Full 3 "c" 0
      { size := 2, depth := 0, list := [(1, "a"), (2, "b")] } (by rfl) (by rfl) (by rfl) (by rfl)

/-- C7: `UnpinPgImp(page_id, is_dirty)` returns `false` exactly when the
page is not resident or its pin count is already 0, and then changes no
pool state; on success it decrements the pin count, ORs the dirty bit with
`is_dirty` (never clearing it), marks the frame evictable when the pin
count reaches 0, and returns `true`. -/
theorem c7_unpin_page_contract (s : BufferPoolManagerInstance) (pid : Int) (d : Bool)
    (hwf : BPMWF s) :
    ∃ res s', s.UnpinPgImp pid d = some (res, s') ∧
      (res = false ↔
        ExtendibleHashTable.Find pageIdHash s.pageTable pid = none ∨
        (∃ f p, ExtendibleHashTable.Find pageIdHash s.pageTable pid = some f ∧
          s.pages.get? f = some p ∧ p.pinCount = 0)) ∧
      (res = false → s' = s) ∧
      (res = true →
        ∃ f p, ExtendibleHashTable.Find pageIdHash s.pageTable pid = some f ∧
          s.pages.get? f = some p ∧ 0 < p.pinCount ∧
          s'.pages = s.pages.set f
            { p with pinCount := p.pinCount - 1, isDirty := p.isDirty || d } ∧
          s'.pageTable = s.pageTable ∧ s'.freeList = s.freeList ∧
          s'.disk = s.disk ∧ s'.nextPageId = s.nextPageId ∧ s'.poolSize = s.poolSize ∧
          (p.pinCount ≠ 1 → s'.replacer = s.replacer) ∧
          (p.pinCount = 1 →
            s.replacer.SetEvictable f true = some s'.replacer ∧
            s'.replacer.evictable.lookup f = some true)) := by
  obtain ⟨hlen, hrsize, htab⟩ := hwf
  cases hfind : ExtendibleHashTable.Find pageIdHash s.pageTable pid with
  | none =>
    refine ⟨false, s, ?_, ?_, fun _ => rfl, fun hres => Bool.noConfusion hres⟩
    · simp [BufferPoolManagerInstance.UnpinPgImp, hfind]
    · exact ⟨fun _ => Or.inl rfl, fun _ => rfl⟩
  | some f =>
    obtain ⟨b, hbmem, item, hitem, hval⟩ := extFind_mem _ _ _ _ hfind
    obtain ⟨hflt, htracked⟩ := hval ▸ htab b hbmem item hitem
    have hflen : f < s.pages.length := hlen ▸ hflt
    obtain ⟨p, hp⟩ : ∃ p, s.pages.get? f = some p :=
      ⟨s.pages.get ⟨f, hflen⟩, List.get?_eq_get hflen⟩
    have hp' : s.pages[f]? = some p := by rw [← List.get?_eq_getElem?]; exact hp
    cases hpin : p.pinCount with
    | zero =>
      refine ⟨false, s, ?_, ?_, fun _ => rfl, fun hres => Bool.noConfusion hres⟩
      · simp [BufferPoolManagerInstance.UnpinPgImp, hfind, hp', hpin]
      · exact ⟨fun _ => Or.inr ⟨f, p, rfl, hp, hpin⟩, fun _ => rfl⟩
    | succ n =>
      have hiff : (true = false) ↔ ((some f : Option Nat) = none ∨
          (∃ f' p', (some f : Option Nat) = some f' ∧
            s.pages.get? f' = some p' ∧ p'.pinCount = 0)) := by
        constructor
        · intro hcontra; exact Bool.noConfusion hcontra
        · rintro (hnone | ⟨f', p', hf', hp', hpin'⟩)
          · exact Option.noConfusion hnone
          · injection hf' with hf'
            subst hf'
            rw [hp] at hp'
            injection hp' with hp'
            subst hp'
            omega
      cases n with
      | zero =>
        -- pin count 1 → 0: the frame is marked evictable
        obtain ⟨r', hr', hrev, hrh, hrs, hrt, hrk⟩ :=
          setEvictable_true_of_tracked s.replacer f (hrsize ▸ hflt) htracked
        refine ⟨true,
          { s with
              pages := s.pages.set f { p with pinCount := 0, isDirty := p.isDirty || d },
              replacer := r' }, ?_, hiff, fun hres => Bool.noConfusion hres, ?_⟩
        · simp [BufferPoolManagerInstance.UnpinPgImp, hfind, hp', hpin, hr']
        · intro _
          refine ⟨f, p, rfl, hp, by omega, by simp [hpin], rfl, rfl, rfl, rfl, rfl,
            fun hne => absurd (by omega : p.pinCount = 1) hne,
            fun _ => ⟨hr', hrev⟩⟩
      | succ m =>
        -- pin count ≥ 2: the replacer is untouched
        refine ⟨true,
          { s with
              pages := s.pages.set f { p with pinCount := m + 1, isDirty := p.isDirty || d } },
          ?_, hiff, fun hres => Bool.noConfusion hres, ?_⟩
        · simp [BufferPoolManagerInstance.UnpinPgImp, hfind, hp', hpin]
        · intro _
          refine ⟨f, p, rfl, hp, by omega, by simp [hpin], rfl, rfl, rfl, rfl, rfl,
            fun _ => rfl, fun heq => absurd heq (by omega)⟩

/-- Witness for `c7_unpin_page_contract`: unpinning page 5 (pin count 1)
of the one-frame pool `smallBPM` with `is_dirty = true`. -/
theorem c7_unpin_witness :
    BPMWF smallBPM ∧
    (∃ res s', smallBPM.UnpinPgImp 5 true = some (res, s') ∧
      (res = false ↔
        ExtendibleHashTable.Find pageIdHash smallBPM.pageTable 5 = none ∨
        (∃ f p, ExtendibleHashTable.Find pageIdHash smallBPM.pageTable 5 = some f ∧
          smallBPM.pages.get? f = some p ∧ p.pinCount = 0)) ∧
      (res = false → s' = smallBPM) ∧
      (res = true →
        ∃ f p, ExtendibleHashTable.Find pageIdHash smallBPM.pageTable 5 = some f ∧
          smallBPM.pages.get? f = some p ∧ 0 < p.pinCount ∧
          s'.pages = smallBPM.pages.set f
            { p with pinCount := p.pinCount - 1, isDirty := p.isDirty || true } ∧
          s'.pageTable = smallBPM.pageTable ∧ s'.freeList = smallBPM.freeList ∧
          s'.disk = smallBPM.disk ∧ s'.nextPageId = smallBPM.nextPageId ∧
          s'.poolSize = smallBPM.poolSize ∧
          (p.pinCount ≠ 1 → s'.replacer = smallBPM.replacer) ∧
          (p.pinCount = 1 →
            smallBPM.replacer.SetEvictable f true = some s'.replacer ∧
            s'.replacer.evictable.lookup f = some true))) :=
  ⟨by decide, c7_unpin_page_contract smallBPM 5 true (by decide)⟩

/-- Helper: the frames produced by `FlushAllPgsImp`'s loop — every frame
holding a valid page has its dirty bit cleared, nothing else changes. -/
theorem flushAllAux_fst (ps : List Page) (d : List (Int × Nat)) :
    (BufferPoolManagerInstance.flushAllAux ps d).1 =
      ps.map (fun p => if p.pageId == -1 then p else { p with isDirty := false }) := by
  induction ps generalizing d with
  | nil => rfl
  | cons p rest ih =>
    by_cases hp : p.pageId = -1 <;>
      simp [BufferPoolManagerInstance.flushAllAux, hp, ih]

/-- Helper: the disk produced by `FlushAllPgsImp`'s loop is a left fold of
unconditional writes of the valid frames. -/
theorem flushAllAux_snd (ps : List Page) (d : List (Int × Nat)) :
    (BufferPoolManagerInstance.flushAllAux ps d).2 =
      ps.foldl (fun acc p =>
        if p.pageId == -1 then acc
        else BufferPoolManagerInstance.diskWrite acc p.pageId p.data) d := by
  induction ps generalizing d with
  | nil => rfl
  | cons p rest ih =>
    by_cases hp : p.pageId = -1 <;>
      simp [BufferPoolManagerInstance.flushAllAux, hp, ih]

/-- Helper: the write fold leaves other keys' disk contents alone. -/
theorem foldl_write_lookup_of_ne (ps : List Page) (d : List (Int × Nat)) (k : Int)
    (hk : ∀ p ∈ ps, ¬ p.pageId = -1 → ¬ p.pageId = k) :
    (ps.foldl (fun acc p =>
        if p.pageId == -1 then acc
        else BufferPoolManagerInstance.diskWrite acc p.pageId p.data) d).lookup k =
      d.lookup k := by
  induction ps generalizing d with
  | nil => rfl
  | cons p rest ih =>
    by_cases hp : (p.pageId == -1) = true
    · simp only [List.foldl_cons, hp, if_true]
      exact ih d (fun q hq => hk q (List.mem_cons_of_mem p hq))
    · simp only [List.foldl_cons, hp, if_false]
      rw [ih _ (fun q hq => hk q (List.mem_cons_of_mem p hq))]
      exact lookup_assocSet_ne p.pageId k p.data d
        (fun hh => hk p (List.mem_cons_self p rest) (by simpa using hp) hh.symm)

/-- Helper: after the write fold, every valid frame's bytes are on disk
(provided resident page ids are distinct). -/
theorem foldl_write_lookup_self (ps : List Page) (d : List (Int × Nat)) (p : Page)
    (hp : p ∈ ps) (hvalid : ¬ p.pageId = -1)
    (hnd : ((ps.filter (fun q => !(q.pageId == -1))).map (·.pageId)).Nodup) :
    (ps.foldl (fun acc q =>
        if q.pageId == -1 then acc
        else BufferPoolManagerInstance.diskWrite acc q.pageId q.data) d).lookup p.pageId =
      some p.data := by
  induction ps generalizing d with
  | nil => cases hp
  | cons q rest ih =>
    rcases List.mem_cons.mp hp with hq | hrest
    · subst hq
      have hq' : (p.pageId == -1) = false := by simpa using hvalid
      simp only [List.foldl_cons, hq', if_false, Bool.false_eq_true]
      have hnd' := hnd
      rw [List.filter_cons] at hnd'
      simp only [hq', Bool.not_false, if_true, List.map_cons] at hnd'
      have hni := List.nodup_cons.mp hnd'
      rw [foldl_write_lookup_of_ne rest _ p.pageId (fun r hr hrv hre => hni.1 ?_)]
      · exact lookup_assocSet_self p.pageId p.data d
      · exact hre ▸ List.mem_map_of_mem (·.pageId) (List.mem_filter.mpr ⟨hr, by simpa using hrv⟩)
    · have hnd' : ((rest.filter (fun r => !(r.pageId == -1))).map (·.pageId)).Nodup := by
        rw [List.filter_cons] at hnd
        by_cases hq : (q.pageId == -1) = true
        · simpa [hq] using hnd
        · simp only [hq, Bool.not_false, if_true, List.map_cons] at hnd
          exact (List.nodup_cons.mp (by simpa using hnd)).2
      by_cases hq : (q.pageId == -1) = true <;>
        simp only [List.foldl_cons, hq, if_true, if_false, Bool.false_eq_true] <;>
        exact ih _ hrest hnd'

/-- C9: `FlushPgImp` fails exactly on `INVALID_PAGE_ID` or a non-resident
page; on success it writes the frame's bytes to disk unconditionally (even
when clean), clears the dirty bit, returns `true`, and touches neither pin
counts nor the replacer.  `FlushAllPgsImp` writes every frame holding a
valid page regardless of its dirty bit, clears the dirty bits, and leaves
pin counts, the page table, the replacer and the free list unchanged. -/
theorem c9_flush_contract (s : BufferPoolManagerInstance) (pid : Int)
    (hwf : BPMWF s)
    (hnd : ((s.pages.filter (fun q => !(q.pageId == -1))).map (·.pageId)).Nodup) :
    (∃ res s', s.FlushPgImp pid = some (res, s') ∧
      (res = false ↔ pid = -1 ∨
        ExtendibleHashTable.Find pageIdHash s.pageTable pid = none) ∧
      (res = false → s' = s) ∧
      (res = true →
        ∃ f p, ExtendibleHashTable.Find pageIdHash s.pageTable pid = some f ∧
          s.pages.get? f = some p ∧
          s' = { s with pages := s.pages.set f { p with isDirty := false }
                        disk := BufferPoolManagerInstance.diskWrite s.disk pid p.data })) ∧
    (s.FlushAllPgsImp.pages =
        s.pages.map (fun p => if p.pageId == -1 then p else { p with isDirty := false }) ∧
      s.FlushAllPgsImp.replacer = s.replacer ∧
      s.FlushAllPgsImp.pageTable = s.pageTable ∧
      s.FlushAllPgsImp.freeList = s.freeList ∧
      s.FlushAllPgsImp.pages.map (·.pinCount) = s.pages.map (·.pinCount) ∧
      (∀ p ∈ s.pages, ¬ p.pageId = -1 →
        s.FlushAllPgsImp.disk.lookup p.pageId = some p.data)) := by
  obtain ⟨hlen, hrsize, htab⟩ := hwf
  constructor
  · by_cases hinv : pid = -1
    · refine ⟨false, s, ?_, ⟨fun _ => Or.inl hinv, fun _ => rfl⟩, fun _ => rfl,
        fun hres => Bool.noConfusion hres⟩
      simp [BufferPoolManagerInstance.FlushPgImp, hinv]
    · cases hfind : ExtendibleHashTable.Find pageIdHash s.pageTable pid with
      | none =>
        refine ⟨false, s, ?_, ⟨fun _ => Or.inr rfl, fun _ => rfl⟩, fun _ => rfl,
          fun hres => Bool.noConfusion hres⟩
        simp [BufferPoolManagerInstance.FlushPgImp, hinv, hfind]
      | some f =>
        obtain ⟨b, hbmem, item, hitem, hval⟩ := extFind_mem _ _ _ _ hfind
        obtain ⟨hflt, _⟩ := hval ▸ htab b hbmem item hitem
        have hflen : f < s.pages.length := hlen ▸ hflt
        obtain ⟨p, hp⟩ : ∃ p, s.pages.get? f = some p :=
          ⟨s.pages.get ⟨f, hflen⟩, List.get?_eq_get hflen⟩
        have hp' : s.pages[f]? = some p := by rw [← List.get?_eq_getElem?]; exact hp
        refine ⟨true,
          { s with pages := s.pages.set f { p with isDirty := false }
                   disk := BufferPoolManagerInstance.diskWrite s.disk pid p.data },
          ?_, ?_, fun hres => Bool.noConfusion hres,
          fun _ => ⟨f, p, rfl, hp, rfl⟩⟩
        · simp [BufferPoolManagerInstance.FlushPgImp, hinv, hfind, hp']
        · constructor
          · intro hcontra; exact Bool.noConfusion hcontra
          · rintro (h1 | h2)
            · exact absurd h1 hinv
            · exact Option.noConfusion h2
  · refine ⟨?_, rfl, rfl, rfl, ?_, ?_⟩
    · exact flushAllAux_fst s.pages s.disk
    · rw [BufferPoolManagerInstance.FlushAllPgsImp, flushAllAux_fst]
      simp only [List.map_map]
      apply List.map_congr_left
      intro p _
      by_cases hp : p.pageId = -1 <;> simp [hp]
    · intro p hp hpv
      rw [BufferPoolManagerInstance.FlushAllPgsImp]
      simp only
      rw [flushAllAux_snd]
      exact foldl_write_lookup_self s.pages s.disk p hp hpv hnd

/-- Witness for `c9_flush_contract`: flushing the (clean) page 5 of the
one-frame pool `smallBPM`. -/
theorem c9_flush_witness :
    BPMWF smallBPM ∧
    ((smallBPM.pages.filter (fun q => !(q.pageId == -1))).map (·.pageId)).Nodup ∧
    ((∃ res s', smallBPM.FlushPgImp 5 = some (res, s') ∧
      (res = false ↔ (5 : Int) = -1 ∨
        ExtendibleHashTable.Find pageIdHash smallBPM.pageTable 5 = none) ∧
      (res = false → s' = smallBPM) ∧
      (res = true →
        ∃ f p, ExtendibleHashTable.Find pageIdHash smallBPM.pageTable 5 = some f ∧
          smallBPM.pages.get? f = some p ∧
          s' = { smallBPM with
                   pages := smallBPM.pages.set f { p with isDirty := false }
                   disk := BufferPoolManagerInstance.diskWrite smallBPM.disk 5 p.data })) ∧
    (smallBPM.FlushAllPgsImp.pages =
        smallBPM.pages.map
          (fun p => if p.pageId == -1 then p else { p with isDirty := false }) ∧
      smallBPM.FlushAllPgsImp.replacer = smallBPM.replacer ∧
      smallBPM.FlushAllPgsImp.pageTable = smallBPM.pageTable ∧
      smallBPM.FlushAllPgsImp.freeList = smallBPM.freeList ∧
      smallBPM.FlushAllPgsImp.pages.map (·.pinCount) = smallBPM.pages.map (·.pinCount) ∧
      (∀ p ∈ smallBPM.pages, ¬ p.pageId = -1 →
        smallBPM.FlushAllPgsImp.disk.lookup p.pageId = some p.data))) :=
  ⟨by decide, by decide, c9_flush_contract smallBPM 5 (by decide) (by decide)⟩

/-- Helper: with unique keys, membership determines `lookup`. -/
theorem lookup_eq_of_mem_of_nodup [BEq K] [LawfulBEq K] (m : List (K × V)) (key : K) (v : V)
    (hnd : (m.map Prod.fst).Nodup) (hm : (key, v) ∈ m) : m.lookup key = some v := by
  induction m with
  | nil => cases hm
  | cons e rest ih =>
    rcases List.mem_cons.mp hm with he | hrest
    · rw [← he]
      simp [List.lookup]
    · rcases e with ⟨k', v'⟩
      have hne : ¬ key = k' := by
        intro hk
        subst hk
        exact ((List.nodup_cons.mp (by simpa using hnd)).1)
          (List.mem_map_of_mem Prod.fst hrest)
      simp only [List.lookup, beq_eq_false_iff_ne.mpr hne]
      exact ih (by simpa using (List.nodup_cons.mp (by simpa using hnd)).2) hrest

/-- Helper: the default head of a nonempty list is a member. -/
theorem headD_mem_of_ne_nil (h : List Nat) (hne : h ≠ []) : h.headD 0 ∈ h := by
  cases h with
  | nil => exact absurd rfl hne
  | cons a t => exact List.mem_cons_self a t

/-- Helper: without wrap-around, the `size_t` subtraction of `Evict` is the
plain difference. -/
theorem kDistance_eq_sub (T front : Nat) (hle : front ≤ T) (hT : T < usizeMod) :
    kDistance T front = T - front := by
  unfold kDistance
  have h1 : T + usizeMod - front = usizeMod + (T - front) := by omega
  rw [h1, Nat.add_mod_left]
  exact Nat.mod_eq_of_lt (by omega)

/-- Helper: the preference relation is reflexive. -/
theorem evictPrefer_refl (k T : Nat) (h : List Nat) : EvictPrefer k T h h :=
  Or.inr ⟨rfl, le_refl _⟩

/-- Helper: a preferred history has a distance at least as large. -/
theorem dist_le_of_prefer {k T : Nat} {hc h' : List Nat}
    (hp : EvictPrefer k T hc h') :
    backwardKDistance k T h' ≤ backwardKDistance k T hc := by
  rcases hp with hlt | ⟨heq, _⟩
  · exact le_of_lt hlt
  · exact le_of_eq heq

/-- Helper: distance of a short history is `⊤`. -/
theorem dist_top_of_short (k T : Nat) (h : List Nat) (hh : h.length < k) :
    backwardKDistance k T h = ⊤ := by simp [backwardKDistance, hh]

/-- Helper: distance of a full history is the finite difference. -/
theorem dist_coe_of_long (k T : Nat) (h : List Nat) (hh : ¬ h.length < k) :
    backwardKDistance k T h = ((T - h.headD 0 : Nat) : ℕ∞) := by
  simp [backwardKDistance, hh]

/-- Helper: a Bool cannot be both true and false. -/
theorem bool_true_false {b : Bool} {C : Prop} (h1 : b = true) (h2 : b = false) : C :=
  absurd h2 (by rw [h1]; exact fun h => Bool.noConfusion h)

/-- Helper: one iteration of `Evict`'s scan loop preserves the loop
invariant. -/
theorem evictStep_preserves_inv (k T : Nat) (hist : List (Nat × List Nat))
    (ev : List (Nat × Bool)) (processed : List (Nat × List Nat))
    (c : LRUKReplacer.EvictCand) (e : Nat × List Nat)
    (hte : e.2 ≠ [] ∧ ∀ ts ∈ e.2, ts ≤ T)
    (htp : ∀ e' ∈ processed, e'.2 ≠ [] ∧ ∀ ts ∈ e'.2, ts ≤ T)
    (hT : T < usizeMod)
    (hlk : ∀ f h, (f, h) ∈ processed → hist.lookup f = some h)
    (hinv : EvictLoopInv k T ev processed c) :
    EvictLoopInv k T ev (processed ++ [e]) (LRUKReplacer.evictStep k T hist ev c e) := by
  obtain ⟨hnone, hsome⟩ := hinv
  rcases e with ⟨f0, h0⟩
  have hfront0 : h0.headD 0 ≤ T := hte.2 (h0.headD 0) (headD_mem_of_ne_nil h0 hte.1)
  unfold LRUKReplacer.evictStep
  by_cases hev0 : (ev.lookup f0).getD false = true
  case neg =>
    -- the frame is not evictable: skipped, candidate unchanged
    have hev0' : (ev.lookup f0).getD false = false := by simpa using hev0
    rw [if_pos (by simp [hev0'])]
    refine ⟨fun hf => ⟨(hnone hf).1, fun e' he' => ?_⟩, fun cf hcf => ?_⟩
    · rcases List.mem_append.mp he' with h | h
      · exact (hnone hf).2 e' h
      · simp only [List.mem_singleton] at h
        rw [h]
        exact hev0'
    · obtain ⟨hc, hmem, hevc, hiff, hearl, hmax, hpref⟩ := hsome cf hcf
      refine ⟨hc, List.mem_append_left _ hmem, hevc, hiff, hearl, hmax,
        fun e' he' hev' => ?_⟩
      rcases List.mem_append.mp he' with h | h
      · exact hpref e' h hev'
      · simp only [List.mem_singleton] at h
        rw [h] at hev'
        exact absurd hev' (by simp [hev0'])
  case pos =>
    rw [if_neg (by simp [hev0])]
    have hself : (f0, h0) ∈ processed ++ [(f0, h0)] :=
      List.mem_append_right _ (List.mem_singleton.mpr rfl)
    by_cases hinf0 : h0.length < k
    · -- fewer than k accesses: infinite distance
      rw [if_pos hinf0]
      have hd0 : backwardKDistance k T h0 = ⊤ := dist_top_of_short k T h0 hinf0
      by_cases hcinf : c.hasInf = true
      · rw [if_neg (by simp [hcinf])]
        by_cases hlt : h0.headD 0 < c.earliest
        · -- younger oldest timestamp: new +inf candidate
          rw [if_pos hlt]
          refine ⟨fun hf => Option.noConfusion hf, fun cf hcf => ?_⟩
          injection hcf with hcf
          subst hcf
          refine ⟨h0, hself, hev0, ⟨fun _ => hinf0, fun _ => hcinf⟩,
            fun _ => rfl, fun hcontra => bool_true_false hcinf hcontra,
            fun e' he' hev' => ?_⟩
          rcases List.mem_append.mp he' with h | h
          · -- previously processed: go through the old candidate
            cases hcfold : c.frame with
            | none => exact absurd ((hnone hcfold).2 e' h) (by simp [hev'])
            | some cf0 =>
              obtain ⟨hc0, hmem0, _, hiff0, hearl0, _, hpref0⟩ := hsome cf0 hcfold
              have hdc0 : backwardKDistance k T hc0 = ⊤ :=
                dist_top_of_short k T hc0 (hiff0.mp hcinf)
              rcases hpref0 e' h hev' with hl | ⟨heq, hle⟩
              · exact Or.inl (by rw [hd0]; rw [hdc0] at hl; exact hl)
              · refine Or.inr ⟨by rw [hd0, heq, hdc0], ?_⟩
                have : c.earliest = hc0.headD 0 := hearl0 hcinf
                exact le_trans (le_of_lt (this ▸ hlt)) hle
          · simp only [List.mem_singleton] at h
            rw [h]
            exact evictPrefer_refl k T h0
        · -- not younger: candidate unchanged
          rw [if_neg hlt]
          refine ⟨fun hf => absurd (hnone hf).1 (by simp [hcinf]), fun cf hcf => ?_⟩
          obtain ⟨hc, hmem, hevc, hiff, hearl, hmax, hpref⟩ := hsome cf hcf
          refine ⟨hc, List.mem_append_left _ hmem, hevc, hiff, hearl, hmax,
            fun e' he' hev' => ?_⟩
          rcases List.mem_append.mp he' with h | h
          · exact hpref e' h hev'
          · simp only [List.mem_singleton] at h
            rw [h]
            have hdc : backwardKDistance k T hc = ⊤ :=
              dist_top_of_short k T hc (hiff.mp hcinf)
            refine Or.inr ⟨by rw [hd0, hdc], ?_⟩
            rw [hearl hcinf] at hlt
            exact Nat.le_of_not_lt hlt
      · -- first +inf frame seen: it becomes the candidate
        rw [if_pos (by simp [hcinf])]
        refine ⟨fun hf => Option.noConfusion hf, fun cf hcf => ?_⟩
        injection hcf with hcf
        subst hcf
        refine ⟨h0, hself, hev0, by simpa using hinf0, fun _ => rfl,
          fun hcontra => Bool.noConfusion hcontra, fun e' he' hev' => ?_⟩
        rcases List.mem_append.mp he' with h | h
        · cases hcfold : c.frame with
          | none => exact absurd ((hnone hcfold).2 e' h) (by simp [hev'])
          | some cf0 =>
            obtain ⟨hc0, hmem0, _, hiff0, _, _, hpref0⟩ := hsome cf0 hcfold
            have hlong0 : ¬ hc0.length < k := fun hs => hcinf (hiff0.mpr hs)
            have hdc0 := dist_coe_of_long k T hc0 hlong0
            have hde' := dist_le_of_prefer (hpref0 e' h hev')
            refine Or.inl ?_
            rw [hd0]
            exact lt_of_le_of_lt hde' (by rw [hdc0]; exact ENat.coe_lt_top _)
        · simp only [List.mem_singleton] at h
          rw [h]
          exact evictPrefer_refl k T h0
    · -- k accesses recorded: finite distance
      rw [if_neg hinf0]
      have hd0 : backwardKDistance k T h0 = ((T - h0.headD 0 : Nat) : ℕ∞) :=
        dist_coe_of_long k T h0 hinf0
      have hkd0 : kDistance T (h0.headD 0) = T - h0.headD 0 :=
        kDistance_eq_sub T (h0.headD 0) hfront0 hT
      by_cases hcinf : c.hasInf = true
      · -- a +inf candidate always beats a finite frame
        rw [if_pos hcinf]
        refine ⟨fun hf => absurd (hnone hf).1 (by simp [hcinf]), fun cf hcf => ?_⟩
        obtain ⟨hc, hmem, hevc, hiff, hearl, hmax, hpref⟩ := hsome cf hcf
        refine ⟨hc, List.mem_append_left _ hmem, hevc, hiff, hearl, hmax,
          fun e' he' hev' => ?_⟩
        rcases List.mem_append.mp he' with h | h
        · exact hpref e' h hev'
        · simp only [List.mem_singleton] at h
          rw [h]
          have hdc : backwardKDistance k T hc = ⊤ :=
            dist_top_of_short k T hc (hiff.mp hcinf)
          exact Or.inl (by rw [hd0, hdc]; exact ENat.coe_lt_top _)
      · rw [if_neg hcinf]
        cases hcf : c.frame with
        | none =>
          -- no candidate yet: this frame becomes it
          rw [if_pos (by simp only [Option.isNone_none, Bool.true_or])]
          refine ⟨fun hf => Option.noConfusion hf, fun cf hcf' => ?_⟩
          injection hcf' with hcf'
          subst hcf'
          refine ⟨h0, hself, hev0, ⟨fun h => absurd h hcinf, fun h => absurd h hinf0⟩,
            fun hcontra => absurd hcontra hcinf, fun _ => rfl,
            fun e' he' hev' => ?_⟩
          rcases List.mem_append.mp he' with h | h
          · exact absurd ((hnone hcf).2 e' h) (by simp [hev'])
          · simp only [List.mem_singleton] at h
            rw [h]
            exact evictPrefer_refl k T h0
        | some cf0 =>
          obtain ⟨hc0, hmem0, hevc0, hiff0, _, hmax0, hpref0⟩ := hsome cf0 hcf
          have hlong0 : ¬ hc0.length < k := fun hs => hcinf (hiff0.mpr hs)
          have hfrontc : hc0.headD 0 ≤ T :=
            (htp (cf0, hc0) hmem0).2 (hc0.headD 0)
              (headD_mem_of_ne_nil hc0 (htp (cf0, hc0) hmem0).1)
          have hdc0 : backwardKDistance k T hc0 = ((T - hc0.headD 0 : Nat) : ℕ∞) :=
            dist_coe_of_long k T hc0 hlong0
          have hmax0' : c.maxKDist = T - hc0.headD 0 := by
            rw [hmax0 (by simpa using hcinf), kDistance_eq_sub T (hc0.headD 0) hfrontc hT]
          by_cases hlt2 : c.maxKDist < kDistance T (h0.headD 0)
          · -- strictly larger distance: new candidate
            rw [if_pos (by
              simp only [Option.isNone_some, Bool.false_or, decide_eq_true_eq]
              exact hlt2)]
            refine ⟨fun hf => Option.noConfusion hf, fun cf hcf' => ?_⟩
            injection hcf' with hcf'
            subst hcf'
            refine ⟨h0, hself, hev0, ⟨fun h => absurd h hcinf, fun h => absurd h hinf0⟩,
              fun hcontra => absurd hcontra hcinf, fun _ => rfl,
              fun e' he' hev' => ?_⟩
            have hltd : backwardKDistance k T hc0 < backwardKDistance k T h0 := by
              rw [hd0, hdc0]
              exact ENat.coe_lt_coe.mpr (by rw [← hmax0', ← hkd0]; exact hlt2)
            rcases List.mem_append.mp he' with h | h
            · exact Or.inl (lt_of_le_of_lt (dist_le_of_prefer (hpref0 e' h hev')) hltd)
            · simp only [List.mem_singleton] at h
              rw [h]
              exact evictPrefer_refl k T h0
          · rw [if_neg (by
              simp only [Option.isNone_some, Bool.false_or, decide_eq_true_eq]
              exact hlt2)]
            have hlkc : hist.lookup cf0 = some hc0 := hlk cf0 hc0 hmem0
            by_cases htieq : kDistance T (h0.headD 0) = c.maxKDist
            · by_cases htlt : h0.headD 0 < hc0.headD 0
              · -- equal distance, younger oldest timestamp: switch candidate
                rw [if_pos (by
                  simp only [Option.getD_some, hlkc, Bool.and_eq_true, decide_eq_true_eq,
                    beq_iff_eq]
                  exact ⟨htieq, htlt⟩)]
                refine ⟨fun hf => Option.noConfusion hf, fun cf hcf' => ?_⟩
                injection hcf' with hcf'
                subst hcf'
                have hdeq : backwardKDistance k T hc0 = backwardKDistance k T h0 := by
                  rw [hd0, hdc0]
                  congr 1
                  rw [← hkd0, htieq, hmax0']
                refine ⟨h0, hself, hev0, ⟨fun h => absurd h hcinf, fun h => absurd h hinf0⟩,
                  fun hcontra => absurd hcontra hcinf,
                  fun _ => by rw [htieq], fun e' he' hev' => ?_⟩
                rcases List.mem_append.mp he' with h | h
                · rcases hpref0 e' h hev' with hl | ⟨heq, hle⟩
                  · exact Or.inl (by rw [← hdeq]; exact hl)
                  · exact Or.inr ⟨by rw [← hdeq]; exact heq,
                      le_trans (le_of_lt htlt) hle⟩
                · simp only [List.mem_singleton] at h
                  rw [h]
                  exact evictPrefer_refl k T h0
              · -- tie lost (or equal): candidate unchanged
                rw [if_neg (by
                  simp only [Option.getD_some, hlkc, Bool.and_eq_true, decide_eq_true_eq]
                  exact fun hand => htlt hand.2)]
                refine ⟨fun hf => absurd hf (by
                  rw [hcf]; exact fun h => Option.noConfusion h), fun cf hcf' => ?_⟩
                rw [hcf] at hcf'
                injection hcf' with hcf'
                subst hcf'
                refine ⟨hc0, List.mem_append_left _ hmem0, hevc0, hiff0,
                  fun hcontra => absurd hcontra hcinf,
                  fun _ => hmax0 (by simpa using hcinf), fun e' he' hev' => ?_⟩
                rcases List.mem_append.mp he' with h | h
                · exact hpref0 e' h hev'
                · simp only [List.mem_singleton] at h
                  rw [h]
                  refine Or.inr ⟨?_, Nat.le_of_not_lt htlt⟩
                  rw [hd0, hdc0]
                  congr 1
                  rw [← hkd0, htieq, hmax0']
            · -- strictly smaller distance: candidate unchanged
              have hlt3 : kDistance T (h0.headD 0) < c.maxKDist :=
                Nat.lt_of_le_of_ne (Nat.le_of_not_lt hlt2) htieq
              rw [if_neg (by
                simp only [Bool.and_eq_true, decide_eq_true_eq, beq_iff_eq]
                exact fun hand => htieq hand.1)]
              refine ⟨fun hf => absurd hf (by
                rw [hcf]; exact fun h => Option.noConfusion h), fun cf hcf' => ?_⟩
              rw [hcf] at hcf'
              injection hcf' with hcf'
              subst hcf'
              refine ⟨hc0, List.mem_append_left _ hmem0, hevc0, hiff0,
                fun hcontra => absurd hcontra hcinf,
                fun _ => hmax0 (by simpa using hcinf), fun e' he' hev' => ?_⟩
              rcases List.mem_append.mp he' with h | h
              · exact hpref0 e' h hev'
              · simp only [List.mem_singleton] at h
                rw [h]
                refine Or.inl ?_
                rw [hd0, hdc0]
                exact ENat.coe_lt_coe.mpr (by rw [← hkd0, ← hmax0']; exact hlt3)

/-- Helper: `Evict`'s scan loop establishes the invariant over the whole
history. -/
theorem evict_foldl_inv (k T : Nat) (hist : List (Nat × List Nat)) (ev : List (Nat × Bool))
    (hts : ∀ e ∈ hist, e.2 ≠ [] ∧ ∀ ts ∈ e.2, ts ≤ T)
    (hT : T < usizeMod)
    (hnd : (hist.map Prod.fst).Nodup) :
    ∀ (rest processed : List (Nat × List Nat)) (c : LRUKReplacer.EvictCand),
      hist = processed ++ rest →
      EvictLoopInv k T ev processed c →
      EvictLoopInv k T ev hist (rest.foldl (LRUKReplacer.evictStep k T hist ev) c) := by
  intro rest
  induction rest with
  | nil =>
    intro processed c hdec hinv
    rw [List.foldl_nil, hdec, List.append_nil]
    exact hinv
  | cons e rest' ih =>
    intro processed c hdec hinv
    rw [List.foldl_cons]
    have hmem : e ∈ hist := by
      rw [hdec]
      exact List.mem_append_right _ (List.mem_cons_self _ _)
    have hstep := evictStep_preserves_inv k T hist ev processed c e
      (hts e hmem)
      (fun e' he' => hts e' (by rw [hdec]; exact List.mem_append_left _ he'))
      hT
      (fun f h hm => lookup_eq_of_mem_of_nodup hist f h hnd
        (by rw [hdec]; exact List.mem_append_left _ hm))
      hinv
    exact ih (processed ++ [e]) _ (by rw [hdec]; simp) hstep

/-- C6: whenever `Evict` returns a frame, that frame is evictable and —
for every state whose histories are nonempty with timestamps not beyond
`current_timestamp_` (which the counter guarantees) and whose map keys are
unique — it realises the largest backward k-distance among all evictable
frames (`+∞` for frames with fewer than k recorded accesses), ties broken
by the smallest oldest recorded timestamp.  And concretely (S3): with
`k = 2` and the access sequence `0,1,2,0,1`, all evictable, `Evict`
returns frame 2. -/
theorem c6_evict_selects_largest_backward_k_distance :
    (∀ (r : LRUKReplacer) (fid : Nat) (r' : LRUKReplacer),
      (∀ e ∈ r.history, e.2 ≠ [] ∧ ∀ ts ∈ e.2, ts ≤ r.currentTimestamp) →
      r.currentTimestamp < usizeMod →
      (r.history.map Prod.fst).Nodup →
      r.Evict = some (fid, r') →
      ∃ hf, (fid, hf) ∈ r.history ∧ (r.evictable.lookup fid).getD false = true ∧
        ∀ e ∈ r.history, (r.evictable.lookup e.1).getD false = true →
          EvictPrefer r.k r.currentTimestamp hf e.2) ∧
    (s3Replacer.bind LRUKReplacer.Evict).map (·.1) = some 2 := by
  refine ⟨?_, by rfl⟩
  intro r fid r' hts hT hnd hev
  by_cases hsz : (r.currSize == 0) = true
  · unfold LRUKReplacer.Evict at hev
    rw [if_pos hsz] at hev
    exact Option.noConfusion hev
  · cases hfr : (r.history.foldl
        (LRUKReplacer.evictStep r.k r.currentTimestamp r.history r.evictable)
        { frame := none, maxKDist := 0, hasInf := false,
          earliest := usizeMod - 1 }).frame with
    | none =>
      unfold LRUKReplacer.Evict at hev
      rw [if_neg hsz] at hev
      simp only [hfr] at hev
      exact Option.noConfusion hev
    | some fid' =>
      unfold LRUKReplacer.Evict at hev
      rw [if_neg hsz] at hev
      simp only [hfr] at hev
      injection hev with hpair
      have hfid : fid' = fid := congrArg Prod.fst hpair
      subst hfid
      have hinv := evict_foldl_inv r.k r.currentTimestamp r.history r.evictable hts hT hnd
        r.history []
        { frame := none, maxKDist := 0, hasInf := false, earliest := usizeMod - 1 }
        (by simp)
        ⟨fun _ => ⟨rfl, fun e he => absurd he (List.not_mem_nil _)⟩,
         fun cf hcf => Option.noConfusion hcf⟩
      obtain ⟨hf, hmem, hevf, _, _, _, hpref⟩ := hinv.2 fid' hfr
      exact ⟨hf, hmem, hevf, hpref⟩

/-- Witness for the quantified part of
`c6_evict_selects_largest_backward_k_distance`, applied at the S3 replacer
state (the state `s3Replacer` evaluates to). -/
theorem c6_evict_witness :
    (∀ e ∈ (LRUKReplacer.mk 3 2 5 3 [(0, [0, 3]), (1, [1, 4]), (2, [2])]
        [(0, true), (1, true), (2, true)]).history,
      e.2 ≠ [] ∧ ∀ ts ∈ e.2, ts ≤ 5) ∧
    (5 : Nat) < usizeMod ∧
    ((LRUKReplacer.mk 3 2 5 3 [(0, [0, 3]), (1, [1, 4]), (2, [2])]
        [(0, true), (1, true), (2, true)]).history.map Prod.fst).Nodup ∧
    (∃ hf, (2, hf) ∈ [(0, [0, 3]), (1, [1, 4]), (2, [2])] ∧
      (([(0, true), (1, true), (2, true)] : List (Nat × Bool)).lookup 2).getD false = true ∧
      ∀ e ∈ [(0, [0, 3]), (1, [1, 4]), (2, [2])],
        (([(0, true), (1, true), (2, true)] : List (Nat × Bool)).lookup e.1).getD false = true →
          EvictPrefer 2 5 hf e.2) :=
  ⟨by decide, by decide, by decide,
   c6_evict_selects_largest_backward_k_distance.1
     (LRUKReplacer.mk 3 2 5 3 [(0, [0, 3]), (1, [1, 4]), (2, [2])]
       [(0, true), (1, true), (2, true)]) 2
     (LRUKReplacer.mk 3 2 5 2 [(0, [0, 3]), (1, [1, 4])] [(0, true), (1, true)])
     (by decide) (by decide) (by decide) (by rfl)⟩

/-- C10 counterexample: `exhaustedIterator` (valid `page_id` 1, slot index 1
past the single item of its leaf) is at End and `operator++` leaves it
unchanged, but it does **not** compare equal to `End()`, whose `page_id` is
`INVALID_PAGE_ID`. -/
theorem c10_at_end_iterator_differs_from_End :
    exhaustedIterator.IsEnd = true ∧
    exhaustedIterator.increment oneLeafStore = exhaustedIterator ∧
    IndexIterator.eq exhaustedIterator IndexIterator.endIterator = false :=
  ⟨rfl, rfl, rfl⟩

/-- C10 amended: advancing an iterator that is at End is a no-op and it
remains at End; it compares equal to `End()` exactly when its
`(page_id, index)` pair is `(INVALID_PAGE_ID, 0)` (equality considers only
that pair, so an iterator exhausted inside a valid leaf is not equal to
`End()`). -/
theorem c10_advance_at_end_is_noop (t : BPlusTree) (it : IndexIterator)
    (h : it.IsEnd = true) :
    it.increment t = it ∧ (it.increment t).IsEnd = true ∧
    IndexIterator.eq it IndexIterator.endIterator = (it.pageId == -1 && it.index == 0) := by
  have h1 : it.increment t = it := by
    unfold IndexIterator.increment
    simp [h]
  exact ⟨h1, by rw [h1, h], rfl⟩

/-! ### Sorted-leaf lemmas (toward the `Insert` contract) -/

open BPlusTree

/-- Helper: inversion for sortedness of a cons. -/
theorem itemsSorted_cons {α : Type} (a : Nat × α) (rest : List (Nat × α))
    (h : itemsSorted (a :: rest) = true) :
    itemsSorted rest = true ∧ ∀ b ∈ rest, a.1 < b.1 := by
  induction rest generalizing a with
  | nil => exact ⟨rfl, by simp⟩
  | cons b rest' ih =>
    unfold itemsSorted at h
    rw [Bool.and_eq_true] at h
    obtain ⟨hab, hrest⟩ := h
    have hab' : a.1 < b.1 := of_decide_eq_true hab
    obtain ⟨_, hball⟩ := ih b hrest
    refine ⟨hrest, fun c hc => ?_⟩
    rcases List.mem_cons.mp hc with hcb | hc'
    · rw [hcb]; exact hab'
    · exact lt_trans hab' (hball c hc')

/-- Helper: introduction for sortedness of a cons. -/
theorem itemsSorted_cons_intro {α : Type} (a : Nat × α) (rest : List (Nat × α))
    (hrest : itemsSorted rest = true) (hall : ∀ b ∈ rest, a.1 < b.1) :
    itemsSorted (a :: rest) = true := by
  cases rest with
  | nil => rfl
  | cons b rest' =>
    unfold itemsSorted
    rw [Bool.and_eq_true]
    exact ⟨decide_eq_true (hall b (List.mem_cons_self b rest')), hrest⟩

/-- Helper: the duplicate flag of the insert-position scan detects exactly
the keys present in a sorted leaf. -/
theorem leafFindPos_dup_iff (key : Nat) :
    ∀ (items : List (Nat × Nat)), itemsSorted items = true →
      ((leafFindPos key items).2 = true ↔ key ∈ items.map Prod.fst) := by
  intro items
  induction items with
  | nil => intro _; simp [leafFindPos]
  | cons a rest ih =>
    intro hs
    obtain ⟨hrest, hall⟩ := itemsSorted_cons a rest hs
    rcases a with ⟨k, v⟩
    unfold leafFindPos
    by_cases h1 : key = k
    · simp [h1]
    · rw [if_neg (by simpa using h1)]
      by_cases h2 : key < k
      · rw [if_pos h2]
        simp only [List.map_cons, List.mem_cons]
        constructor
        · intro hcontra; cases hcontra
        · rintro (hk | hk)
          · exact absurd hk h1
          · obtain ⟨b, hb, hbk⟩ := List.mem_map.mp hk
            exact absurd (hbk ▸ hall b hb) (by omega)
      · rw [if_neg h2]
        simp only [List.map_cons, List.mem_cons]
        rw [show ((leafFindPos key rest).1 + 1, (leafFindPos key rest).2).2 =
          (leafFindPos key rest).2 from rfl, ih hrest]
        constructor
        · exact Or.inr
        · rintro (hk | hk)
          · exact absurd hk h1
          · exact hk

/-- Helper: the insert position never exceeds the list length. -/
theorem leafFindPos_le (key : Nat) :
    ∀ (items : List (Nat × Nat)), (leafFindPos key items).1 ≤ items.length := by
  intro items
  induction items with
  | nil => simp [leafFindPos]
  | cons a rest ih =>
    rcases a with ⟨k, v⟩
    unfold leafFindPos
    by_cases h1 : key = k
    · simp [h1]
    · rw [if_neg (by simpa using h1)]
      by_cases h2 : key < k
      · simp [h2]
      · rw [if_neg h2]
        simpa using ih

/-- Helper: inserting an absent key at the scanned position keeps a sorted
leaf sorted. -/
theorem insertIdx_sorted (key v : Nat) :
    ∀ (items : List (Nat × Nat)), itemsSorted items = true →
      (leafFindPos key items).2 = false →
      itemsSorted (items.insertIdx (leafFindPos key items).1 (key, v)) = true := by
  intro items
  induction items with
  | nil => intro _ _; rfl
  | cons a rest ih =>
    intro hs hdup
    obtain ⟨hrest, hall⟩ := itemsSorted_cons a rest hs
    rcases a with ⟨k, w⟩
    unfold leafFindPos at hdup ⊢
    by_cases h1 : key = k
    · rw [if_pos (by simpa using h1)] at hdup; cases hdup
    · rw [if_neg (by simpa using h1)] at hdup ⊢
      by_cases h2 : key < k
      · rw [if_pos h2] at hdup ⊢
        refine itemsSorted_cons_intro (key, v) ((k, w) :: rest) hs ?_
        intro b hb
        rcases List.mem_cons.mp hb with hbk | hb'
        · rw [hbk]; exact h2
        · exact lt_trans h2 (hall b hb')
      · rw [if_neg h2] at hdup ⊢
        simp only [List.insertIdx_succ_cons]
        have hdup' : (leafFindPos key rest).2 = false := hdup
        refine itemsSorted_cons_intro (k, w) _ (ih hrest hdup') ?_
        intro b hb
        rw [List.mem_insertIdx (leafFindPos_le key rest)] at hb
        rcases hb with hbk | hb'
        · rw [hbk]; omega
        · exact hall b hb'

/-- Helper: a sorted leaf scan misses absent keys. -/
theorem leafGetValue_not_mem (key : Nat) :
    ∀ (items : List (Nat × Nat)), itemsSorted items = true →
      key ∉ items.map Prod.fst → leafGetValue key items = [] := by
  intro items
  induction items with
  | nil => intro _ _; rfl
  | cons a rest ih =>
    intro hs hnm
    obtain ⟨hrest, _⟩ := itemsSorted_cons a rest hs
    rcases a with ⟨k, w⟩
    simp only [List.map_cons, List.mem_cons, not_or] at hnm
    unfold leafGetValue
    rw [if_neg (by simpa using hnm.1)]
    by_cases h2 : key < k
    · rw [if_pos h2]
    · rw [if_neg h2]
      exact ih hrest hnm.2

/-- Helper: a sorted leaf scan returns the stored value of a present key. -/
theorem leafGetValue_mem (key v : Nat) :
    ∀ (items : List (Nat × Nat)), itemsSorted items = true →
      (key, v) ∈ items → leafGetValue key items = [v] := by
  intro items
  induction items with
  | nil => intro _ hm; cases hm
  | cons a rest ih =>
    intro hs hm
    obtain ⟨hrest, hall⟩ := itemsSorted_cons a rest hs
    rcases a with ⟨k, w⟩
    rcases List.mem_cons.mp hm with hma | hm'
    · injection hma with h1 h2
      unfold leafGetValue
      rw [if_pos (by simpa using h1), h2]
    · have hgt : k < key := hall (key, v) hm'
      have hne : key ≠ k := by omega
      unfold leafGetValue
      rw [if_neg (by simpa using hne), if_neg (by omega)]
      exact ih hrest hm'

/-! ### Checker unfolding equations and fuel lemmas -/

/-- Helper: one-step unfolding of `checkTree` at positive fuel. -/
theorem checkTree_succ (t : BPlusTree) (fuel : Nat) (pid parent : Int)
    (lo hi : Option Nat) :
    checkTree t (fuel + 1) pid parent lo hi =
      match t.getPage pid with
      | some (.leaf p m items _) =>
        if p == parent && m == t.leafMaxSize && itemsSorted items &&
            items.all (fun item => geLB lo item.1 && ltUB hi item.1) then
          some (items, [pid], [pid])
        else none
      | some (.internal p m entries) =>
        if p == parent && m == t.internalMaxSize then
          match entries with
          | [] => none
          | (_, c0) :: rest =>
            (checkChildren t fuel pid c0 rest lo hi).map
              (fun r => (r.1, r.2.1, pid :: r.2.2))
        else none
      | none => none := rfl

/-- Helper: `checkTree` at zero fuel fails. -/
theorem checkTree_zero (t : BPlusTree) (pid parent : Int) (lo hi : Option Nat) :
    checkTree t 0 pid parent lo hi = none := rfl

/-- Helper: `checkTree` at a stored leaf. -/
theorem checkTree_leaf (t : BPlusTree) (f : Nat) {pid parent : Int}
    {lo hi : Option Nat} {p : Int} {m : Nat} {items : List (Nat × Nat)} {next : Int}
    (hp : t.getPage pid = some (.leaf p m items next)) :
    checkTree t (f + 1) pid parent lo hi =
      if p == parent && m == t.leafMaxSize && itemsSorted items &&
          items.all (fun item => geLB lo item.1 && ltUB hi item.1) then
        some (items, [pid], [pid])
      else none := by
  rw [checkTree_succ, hp]

/-- Helper: `checkTree` at a stored internal node with a child list. -/
theorem checkTree_internal (t : BPlusTree) (f : Nat) {pid parent : Int}
    {lo hi : Option Nat} {p : Int} {m k0 : Nat} {c0 : Int} {rest : List (Nat × Int)}
    (hp : t.getPage pid = some (.internal p m ((k0, c0) :: rest))) :
    checkTree t (f + 1) pid parent lo hi =
      if p == parent && m == t.internalMaxSize then
        (checkChildren t f pid c0 rest lo hi).map
          (fun r => (r.1, r.2.1, pid :: r.2.2))
      else none := by
  rw [checkTree_succ, hp]

/-- Helper: `checkTree` at an internal node with an empty entry list fails. -/
theorem checkTree_internal_nil (t : BPlusTree) (f : Nat) {pid parent : Int}
    {lo hi : Option Nat} {p : Int} {m : Nat}
    (hp : t.getPage pid = some (.internal p m [])) :
    checkTree t (f + 1) pid parent lo hi = none := by
  rw [checkTree_succ, hp]
  show (if p == parent && m == t.internalMaxSize then
      (none : Option (List (Nat × Nat) × List Int × List Int)) else none) = none
  exact ite_self none

/-- Helper: `checkTree` at a missing page. -/
theorem checkTree_missing (t : BPlusTree) (f : Nat) {pid parent : Int}
    {lo hi : Option Nat} (hp : t.getPage pid = none) :
    checkTree t (f + 1) pid parent lo hi = none := by
  rw [checkTree_succ, hp]

/-- Helper: a child-list walk with no separators checks the single child. -/
theorem checkChildren_nil (t : BPlusTree) (fuel : Nat) (P c0 : Int)
    (lo hi : Option Nat) :
    checkChildren t fuel P c0 [] lo hi = checkTree t fuel c0 P lo hi := rfl

/-- Helper: one-step unfolding of the child-list walk. -/
theorem checkChildren_cons (t : BPlusTree) (fuel : Nat) (P c0 c1 : Int) (k : Nat)
    (rest : List (Nat × Int)) (lo hi : Option Nat) :
    checkChildren t fuel P c0 ((k, c1) :: rest) lo hi =
      if ltLB lo k && ltUB hi k then
        (checkTree t fuel c0 P lo (some k)).bind (fun r =>
          (checkChildren t fuel P c1 rest (some k) hi).map (fun r' =>
            (r.1 ++ r'.1, r.2.1 ++ r'.2.1, r.2.2 ++ r'.2.2)))
      else none := rfl

/-- Helper: the child-list walk fails at zero fuel. -/
theorem checkChildren_zero (t : BPlusTree) (P c0 : Int) (entries : List (Nat × Int))
    (lo hi : Option Nat) :
    checkChildren t 0 P c0 entries lo hi = none := by
  cases entries with
  | nil => rfl
  | cons e rest =>
    rcases e with ⟨k, c1⟩
    rw [checkChildren_cons, checkTree_zero]
    simp

/-- Helper: checker success is preserved when the fuel grows by one. -/
theorem check_mono (t : BPlusTree) :
    ∀ fuel : Nat,
      (∀ pid parent lo hi r, checkTree t fuel pid parent lo hi = some r →
        checkTree t (fuel + 1) pid parent lo hi = some r) ∧
      (∀ P c0 entries lo hi r, checkChildren t fuel P c0 entries lo hi = some r →
        checkChildren t (fuel + 1) P c0 entries lo hi = some r) := by
  intro fuel
  induction fuel with
  | zero =>
    constructor
    · intro pid parent lo hi r h
      rw [checkTree_zero] at h; cases h
    · intro P c0 entries lo hi r h
      rw [checkChildren_zero] at h; cases h
  | succ n ih =>
    obtain ⟨ihT, ihK⟩ := ih
    have hT : ∀ pid parent lo hi r, checkTree t (n + 1) pid parent lo hi = some r →
        checkTree t (n + 2) pid parent lo hi = some r := by
      intro pid parent lo hi r h
      cases hp : t.getPage pid with
      | none => rw [checkTree_missing t n hp] at h; cases h
      | some node =>
        cases node with
        | leaf p m items next =>
          rw [checkTree_leaf t n hp] at h
          rw [checkTree_leaf t (n + 1) hp]
          exact h
        | internal p m entries =>
          cases entries with
          | nil => rw [checkTree_internal_nil t n hp] at h; cases h
          | cons e rest =>
            rcases e with ⟨k0, c0⟩
            rw [checkTree_internal t n hp] at h
            rw [checkTree_internal t (n + 1) hp]
            by_cases hg : (p == parent && m == t.internalMaxSize) = true
            · rw [if_pos hg] at h ⊢
              cases hc : checkChildren t n pid c0 rest lo hi with
              | none => rw [hc] at h; cases h
              | some rr =>
                rw [hc] at h
                rw [ihK pid c0 rest lo hi rr hc]
                exact h
            · rw [if_neg hg] at h; cases h
    refine ⟨hT, ?_⟩
    intro P c0 entries lo hi r h
    revert h
    induction entries generalizing c0 lo r with
    | nil =>
      intro h
      rw [checkChildren_nil] at h ⊢
      exact hT c0 P lo hi r h
    | cons e rest ihe =>
      rcases e with ⟨k, c1⟩
      intro h
      rw [checkChildren_cons] at h ⊢
      by_cases hg : (ltLB lo k && ltUB hi k) = true
      · rw [if_pos hg] at h ⊢
        cases hc : checkTree t (n + 1) c0 P lo (some k) with
        | none => rw [hc] at h; cases h
        | some r1 =>
          rw [hc] at h
          rw [hT c0 P lo (some k) r1 hc]
          simp only [Option.some_bind] at h ⊢
          cases hc2 : checkChildren t (n + 1) P c1 rest (some k) hi with
          | none => rw [hc2] at h; cases h
          | some r2 =>
            rw [hc2] at h
            rw [ihe c1 (some k) r2 hc2]
            exact h
      · rw [if_neg hg] at h; cases h

/-- Helper: checker success is preserved at any larger fuel. -/
theorem checkTree_mono_le (t : BPlusTree) {f g : Nat} (hfg : f ≤ g)
    {pid parent : Int} {lo hi : Option Nat} {r : List (Nat × Nat) × List Int × List Int}
    (h : checkTree t f pid parent lo hi = some r) :
    checkTree t g pid parent lo hi = some r := by
  induction g, hfg using Nat.le_induction with
  | base => exact h
  | succ m hm ih => exact (check_mono t m).1 pid parent lo hi r ih

/-- Helper: child-walk success is preserved at any larger fuel. -/
theorem checkChildren_mono_le (t : BPlusTree) {f g : Nat} (hfg : f ≤ g)
    {P c0 : Int} {entries : List (Nat × Int)} {lo hi : Option Nat}
    {r : List (Nat × Nat) × List Int × List Int}
    (h : checkChildren t f P c0 entries lo hi = some r) :
    checkChildren t g P c0 entries lo hi = some r := by
  induction g, hfg using Nat.le_induction with
  | base => exact h
  | succ m hm ih => exact (check_mono t m).2 P c0 entries lo hi r ih

/-- Helper: transitivity of the optional strict upper bound. -/
theorem ltUB_weaken {hi : Option Nat} {k b : Nat}
    (h1 : ltUB (some k) b = true) (h2 : ltUB hi k = true) : ltUB hi b = true := by
  cases hi with
  | none => rfl
  | some h =>
    simp only [ltUB, decide_eq_true_eq] at h1 h2 ⊢
    omega

/-- Helper: an optional lower bound weakens through a separator. -/
theorem geLB_weaken {lo : Option Nat} {k b : Nat}
    (h1 : geLB (some k) b = true) (h2 : ltLB lo k = true) : geLB lo b = true := by
  cases lo with
  | none => rfl
  | some l =>
    simp only [geLB, ltLB, decide_eq_true_eq] at h1 h2 ⊢
    omega

/-- Helper: `flatLeaves` distributes over append. -/
theorem flatLeaves_append (t : BPlusTree) (ls1 ls2 : List Int) :
    flatLeaves t (ls1 ++ ls2) = flatLeaves t ls1 ++ flatLeaves t ls2 := by
  induction ls1 with
  | nil => rfl
  | cons l rest ih =>
    simp only [flatLeaves, List.foldr_cons, List.cons_append] at ih ⊢
    rw [ih]
    simp [List.append_assoc]

/-- Helper: structural facts delivered by a successful check — key bounds,
the node-list head, storedness, leaf shape, and contents as the in-order
concatenation of leaf items. -/
theorem check_facts (t : BPlusTree) :
    ∀ fuel : Nat,
      (∀ pid parent lo hi cs ls ns,
        checkTree t fuel pid parent lo hi = some (cs, ls, ns) →
        (∀ b ∈ cs, geLB lo b.1 = true ∧ ltUB hi b.1 = true) ∧
        (∃ tail, ns = pid :: tail) ∧
        (∀ n ∈ ns, ∃ node, t.getPage n = some node) ∧
        (∀ l ∈ ls, l ∈ ns) ∧
        (∀ l ∈ ls, ∃ p items next,
          t.getPage l = some (.leaf p t.leafMaxSize items next) ∧
          itemsSorted items = true) ∧
        cs = flatLeaves t ls ∧ ls ≠ []) ∧
      (∀ P c0 entries lo hi cs ls ns,
        checkChildren t fuel P c0 entries lo hi = some (cs, ls, ns) →
        (∀ b ∈ cs, geLB lo b.1 = true ∧ ltUB hi b.1 = true) ∧
        (∀ n ∈ ns, ∃ node, t.getPage n = some node) ∧
        (∀ l ∈ ls, l ∈ ns) ∧
        (∀ l ∈ ls, ∃ p items next,
          t.getPage l = some (.leaf p t.leafMaxSize items next) ∧
          itemsSorted items = true) ∧
        cs = flatLeaves t ls ∧ ls ≠ []) := by
  intro fuel
  induction fuel with
  | zero =>
    constructor
    · intro pid parent lo hi cs ls ns h
      rw [checkTree_zero] at h; cases h
    · intro P c0 entries lo hi cs ls ns h
      rw [checkChildren_zero] at h; cases h
  | succ n ih =>
    obtain ⟨ihT, ihK⟩ := ih
    have hT : ∀ pid parent lo hi cs ls ns,
        checkTree t (n + 1) pid parent lo hi = some (cs, ls, ns) →
        (∀ b ∈ cs, geLB lo b.1 = true ∧ ltUB hi b.1 = true) ∧
        (∃ tail, ns = pid :: tail) ∧
        (∀ n ∈ ns, ∃ node, t.getPage n = some node) ∧
        (∀ l ∈ ls, l ∈ ns) ∧
        (∀ l ∈ ls, ∃ p items next,
          t.getPage l = some (.leaf p t.leafMaxSize items next) ∧
          itemsSorted items = true) ∧
        cs = flatLeaves t ls ∧ ls ≠ [] := by
      intro pid parent lo hi cs ls ns h
      cases hp : t.getPage pid with
      | none => rw [checkTree_missing t n hp] at h; cases h
      | some node =>
        cases node with
        | leaf p m items next =>
          rw [checkTree_leaf t n hp] at h
          by_cases hg : (p == parent && m == t.leafMaxSize && itemsSorted items &&
              items.all (fun item => geLB lo item.1 && ltUB hi item.1)) = true
          · rw [if_pos hg] at h
            injection h with h'
            injection h' with h1 h'
            injection h' with h2 h3
            subst h1; subst h2; subst h3
            simp only [Bool.and_eq_true, beq_iff_eq, List.all_eq_true] at hg
            obtain ⟨⟨⟨hpp, hm⟩, hsort⟩, hall⟩ := hg
            refine ⟨?_, ⟨[], rfl⟩, ?_, ?_, ?_, ?_, by simp⟩
            · exact fun b hb => hall b hb
            · intro q hq
              rw [List.mem_singleton] at hq
              exact ⟨_, hq ▸ hp⟩
            · intro l hl; exact hl
            · intro l hl
              rw [List.mem_singleton] at hl
              subst hl
              exact ⟨p, items, next, by rw [hp, hm], hsort⟩
            · simp only [flatLeaves, List.foldr_cons, List.foldr_nil,
                List.append_nil, leafItemsAt, hp]
          · rw [if_neg hg] at h; cases h
        | internal p m entries =>
          cases entries with
          | nil => rw [checkTree_internal_nil t n hp] at h; cases h
          | cons e rest =>
            rcases e with ⟨k0, c0⟩
            rw [checkTree_internal t n hp] at h
            by_cases hg : (p == parent && m == t.internalMaxSize) = true
            · rw [if_pos hg] at h
              cases hc : checkChildren t n pid c0 rest lo hi with
              | none => rw [hc] at h; cases h
              | some rr =>
                rw [hc] at h
                rcases rr with ⟨cs', ls', ns'⟩
                injection h with h'
                injection h' with h1 h'
                injection h' with h2 h3
                subst h1; subst h2; subst h3
                obtain ⟨hb, hst, hlsns, hshape, hflat, hne⟩ :=
                  ihK pid c0 rest lo hi cs' ls' ns' hc
                refine ⟨hb, ⟨ns', rfl⟩, ?_, ?_, hshape, hflat, hne⟩
                · intro q hq
                  rcases List.mem_cons.mp hq with hq1 | hq2
                  · exact ⟨_, hq1 ▸ hp⟩
                  · exact hst q hq2
                · intro l hl
                  exact List.mem_cons_of_mem _ (hlsns l hl)
            · rw [if_neg hg] at h; cases h
    refine ⟨hT, ?_⟩
    intro P c0 entries lo hi cs ls ns h
    revert h
    induction entries generalizing c0 lo cs ls ns with
    | nil =>
      intro h
      rw [checkChildren_nil] at h
      obtain ⟨hb, _, hst, hlsns, hshape, hflat, hne⟩ := hT c0 P lo hi cs ls ns h
      exact ⟨hb, hst, hlsns, hshape, hflat, hne⟩
    | cons e rest ihe =>
      rcases e with ⟨k, c1⟩
      intro h
      rw [checkChildren_cons] at h
      by_cases hg : (ltLB lo k && ltUB hi k) = true
      · rw [if_pos hg] at h
        rw [Bool.and_eq_true] at hg
        cases hc : checkTree t (n + 1) c0 P lo (some k) with
        | none => rw [hc] at h; cases h
        | some r1 =>
          rw [hc] at h
          simp only [Option.some_bind] at h
          cases hc2 : checkChildren t (n + 1) P c1 rest (some k) hi with
          | none => rw [hc2] at h; cases h
          | some r2 =>
            rw [hc2] at h
            rcases r1 with ⟨cs1, ls1, ns1⟩
            rcases r2 with ⟨cs2, ls2, ns2⟩
            injection h with h'
            injection h' with h1 h'
            injection h' with h2 h3
            subst h1; subst h2; subst h3
            obtain ⟨hb1, _, hst1, hlsns1, hshape1, hflat1, hne1⟩ :=
              hT c0 P lo (some k) cs1 ls1 ns1 hc
            obtain ⟨hb2, hst2, hlsns2, hshape2, hflat2, hne2⟩ :=
              ihe c1 (some k) cs2 ls2 ns2 hc2
            refine ⟨?_, ?_, ?_, ?_, ?_, ?_⟩
            · intro b hb
              rcases List.mem_append.mp hb with hb' | hb'
              · obtain ⟨hbl, hbu⟩ := hb1 b hb'
                exact ⟨hbl, ltUB_weaken hbu hg.2⟩
              · obtain ⟨hbl, hbu⟩ := hb2 b hb'
                exact ⟨geLB_weaken hbl hg.1, hbu⟩
            · intro q hq
              rcases List.mem_append.mp hq with hq' | hq'
              · exact hst1 q hq'
              · exact hst2 q hq'
            · intro l hl
              rcases List.mem_append.mp hl with hl' | hl'
              · exact List.mem_append_left _ (hlsns1 l hl')
              · exact List.mem_append_right _ (hlsns2 l hl')
            · intro l hl
              rcases List.mem_append.mp hl with hl' | hl'
              · exact hshape1 l hl'
              · exact hshape2 l hl'
            · rw [flatLeaves_append, hflat1, hflat2]
            · intro hcontra
              exact hne1 (List.append_eq_nil.mp hcontra).1
      · rw [if_neg hg] at h; cases h

/-! ### Page-store lemmas -/

/-- Helper: a successful association-list lookup exhibits a member. -/
theorem lookup_mem {K V : Type} [BEq K] [LawfulBEq K] (l : List (K × V)) (k : K) (v : V)
    (h : l.lookup k = some v) : (k, v) ∈ l := by
  induction l with
  | nil => cases h
  | cons e rest ih =>
    rcases e with ⟨k', v'⟩
    by_cases hk : (k == k') = true
    · rw [List.lookup_cons, hk] at h
      injection h with h'
      rw [eq_of_beq hk, h']
      exact List.mem_cons_self _ _
    · have hk' : (k == k') = false := by simpa using hk
      rw [List.lookup_cons, hk'] at h
      exact List.mem_cons_of_mem _ (ih h)

/-- Helper: lookup across an append searches the left list first. -/
theorem lookup_append {K V : Type} [BEq K] [LawfulBEq K] (l1 l2 : List (K × V)) (k : K) :
    (l1 ++ l2).lookup k =
      match l1.lookup k with
      | some v => some v
      | none => l2.lookup k := by
  induction l1 with
  | nil => simp [List.lookup]
  | cons e rest ih =>
    rcases e with ⟨k', v'⟩
    by_cases hk : (k == k') = true
    · simp [List.lookup_cons, hk]
    · have hk' : (k == k') = false := by simpa using hk
      simp only [List.cons_append, List.lookup_cons, hk']
      exact ih

/-- Helper: reading back the page just written. -/
theorem getPage_setPage_self (t : BPlusTree) (pid : Int) (n : BPlusTreePage) :
    (t.setPage pid n).getPage pid = some n :=
  lookup_assocSet_self pid n t.pages

/-- Helper: writing one page leaves the others untouched. -/
theorem getPage_setPage_ne (t : BPlusTree) (pid q : Int) (n : BPlusTreePage)
    (hne : ¬ q = pid) : (t.setPage pid n).getPage q = t.getPage q :=
  lookup_assocSet_ne pid q n t.pages hne

/-- Helper: reading the freshly allocated page. -/
theorem getPage_newPage_self (t : BPlusTree) (n : BPlusTreePage)
    (hfresh : t.getPage t.nextPageId = none) :
    (t.newPage n).2.getPage t.nextPageId = some n := by
  show (t.pages ++ [(t.nextPageId, n)]).lookup t.nextPageId = some n
  rw [lookup_append]
  rw [show t.pages.lookup t.nextPageId = none from hfresh]
  simp [List.lookup]

/-- Helper: allocation leaves existing pages untouched. -/
theorem getPage_newPage_ne (t : BPlusTree) (n : BPlusTreePage) (q : Int)
    (hne : ¬ q = t.nextPageId) : (t.newPage n).2.getPage q = t.getPage q := by
  show (t.pages ++ [(t.nextPageId, n)]).lookup q = t.pages.lookup q
  rw [lookup_append]
  cases hq : t.pages.lookup q with
  | some v => rfl
  | none =>
    have hk' : (q == t.nextPageId) = false := by simpa using hne
    simp [List.lookup, hk']

/-- Helper: a stored page id is below the allocation counter. -/
theorem getPage_lt_next (t : BPlusTree) (q : Int) (node : BPlusTreePage)
    (hst : ∀ e ∈ t.pages, 0 ≤ e.1 ∧ e.1 < t.nextPageId)
    (h : t.getPage q = some node) : 0 ≤ q ∧ q < t.nextPageId :=
  hst (q, node) (lookup_mem t.pages q node h)

/-- Helper: fuel `ns.length` always suffices for a successful check. -/
theorem check_fuelbound (t : BPlusTree) :
    ∀ fuel : Nat,
      (∀ pid parent lo hi cs ls ns,
        checkTree t fuel pid parent lo hi = some (cs, ls, ns) →
        ∀ g, ns.length ≤ g → checkTree t g pid parent lo hi = some (cs, ls, ns)) ∧
      (∀ P c0 entries lo hi cs ls ns,
        checkChildren t fuel P c0 entries lo hi = some (cs, ls, ns) →
        ∀ g, ns.length ≤ g → checkChildren t g P c0 entries lo hi = some (cs, ls, ns)) := by
  intro fuel
  induction fuel with
  | zero =>
    constructor
    · intro pid parent lo hi cs ls ns h
      rw [checkTree_zero] at h; cases h
    · intro P c0 entries lo hi cs ls ns h
      rw [checkChildren_zero] at h; cases h
  | succ n ih =>
    obtain ⟨ihT, ihK⟩ := ih
    have hT : ∀ pid parent lo hi cs ls ns,
        checkTree t (n + 1) pid parent lo hi = some (cs, ls, ns) →
        ∀ g, ns.length ≤ g → checkTree t g pid parent lo hi = some (cs, ls, ns) := by
      intro pid parent lo hi cs ls ns h g hg
      cases hp : t.getPage pid with
      | none => rw [checkTree_missing t n hp] at h; cases h
      | some node =>
        cases node with
        | leaf p m items next =>
          rw [checkTree_leaf t n hp] at h
          by_cases hcond : (p == parent && m == t.leafMaxSize && itemsSorted items &&
              items.all (fun item => geLB lo item.1 && ltUB hi item.1)) = true
          · rw [if_pos hcond] at h
            injection h with h'
            injection h' with h1 h'
            injection h' with h2 h3
            subst h1; subst h2; subst h3
            have hg1 : 1 ≤ g := le_trans (by simp) hg
            obtain ⟨g', rfl⟩ : ∃ g', g = g' + 1 := ⟨g - 1, by omega⟩
            rw [checkTree_leaf t g' hp, if_pos hcond]
          · rw [if_neg hcond] at h; cases h
        | internal p m entries =>
          cases entries with
          | nil => rw [checkTree_internal_nil t n hp] at h; cases h
          | cons e rest =>
            rcases e with ⟨k0, c0⟩
            rw [checkTree_internal t n hp] at h
            by_cases hgd : (p == parent && m == t.internalMaxSize) = true
            · rw [if_pos hgd] at h
              cases hc : checkChildren t n pid c0 rest lo hi with
              | none => rw [hc] at h; cases h
              | some rr =>
                rw [hc] at h
                rcases rr with ⟨cs', ls', ns'⟩
                injection h with h'
                injection h' with h1 h'
                injection h' with h2 h3
                subst h1; subst h2; subst h3
                have hg1 : ns'.length + 1 ≤ g := by
                  simpa using hg
                obtain ⟨g', rfl⟩ : ∃ g', g = g' + 1 := ⟨g - 1, by omega⟩
                rw [checkTree_internal t g' hp, if_pos hgd]
                rw [ihK pid c0 rest lo hi cs' ls' ns' hc g' (by omega)]
                rfl
            · rw [if_neg hgd] at h; cases h
    refine ⟨hT, ?_⟩
    intro P c0 entries lo hi cs ls ns h
    revert h
    induction entries generalizing c0 lo cs ls ns with
    | nil =>
      intro h g hg
      rw [checkChildren_nil] at h ⊢
      exact hT c0 P lo hi cs ls ns h g hg
    | cons e rest ihe =>
      rcases e with ⟨k, c1⟩
      intro h g hg
      rw [checkChildren_cons] at h ⊢
      by_cases hgd : (ltLB lo k && ltUB hi k) = true
      · rw [if_pos hgd] at h ⊢
        cases hc : checkTree t (n + 1) c0 P lo (some k) with
        | none => rw [hc] at h; cases h
        | some r1 =>
          rw [hc] at h
          simp only [Option.some_bind] at h
          cases hc2 : checkChildren t (n + 1) P c1 rest (some k) hi with
          | none => rw [hc2] at h; cases h
          | some r2 =>
            rw [hc2] at h
            rcases r1 with ⟨cs1, ls1, ns1⟩
            rcases r2 with ⟨cs2, ls2, ns2⟩
            injection h with h'
            injection h' with h1 h'
            injection h' with h2 h3
            subst h1; subst h2; subst h3
            have hl1 : ns1.length ≤ g := by
              have := hg; simp only [List.length_append] at this; omega
            have hl2 : ns2.length ≤ g := by
              have := hg; simp only [List.length_append] at this; omega
            rw [hT c0 P lo (some k) cs1 ls1 ns1 hc g hl1]
            simp only [Option.some_bind]
            rw [ihe c1 (some k) cs2 ls2 ns2 hc2 g hl2]
            rfl
      · rw [if_neg hgd] at h; cases h

/-- Helper: a check only reads the pages it returns — any store agreeing on
them (with the same fanout parameters) validates identically. -/
theorem check_frame (t t2 : BPlusTree)
    (hleaf : t2.leafMaxSize = t.leafMaxSize)
    (hint : t2.internalMaxSize = t.internalMaxSize) :
    ∀ fuel : Nat,
      (∀ pid parent lo hi cs ls ns,
        checkTree t fuel pid parent lo hi = some (cs, ls, ns) →
        (∀ q ∈ ns, t2.getPage q = t.getPage q) →
        checkTree t2 fuel pid parent lo hi = some (cs, ls, ns)) ∧
      (∀ P c0 entries lo hi cs ls ns,
        checkChildren t fuel P c0 entries lo hi = some (cs, ls, ns) →
        (∀ q ∈ ns, t2.getPage q = t.getPage q) →
        checkChildren t2 fuel P c0 entries lo hi = some (cs, ls, ns)) := by
  intro fuel
  induction fuel with
  | zero =>
    constructor
    · intro pid parent lo hi cs ls ns h
      rw [checkTree_zero] at h; cases h
    · intro P c0 entries lo hi cs ls ns h
      rw [checkChildren_zero] at h; cases h
  | succ n ih =>
    obtain ⟨ihT, ihK⟩ := ih
    have hT : ∀ pid parent lo hi cs ls ns,
        checkTree t (n + 1) pid parent lo hi = some (cs, ls, ns) →
        (∀ q ∈ ns, t2.getPage q = t.getPage q) →
        checkTree t2 (n + 1) pid parent lo hi = some (cs, ls, ns) := by
      intro pid parent lo hi cs ls ns h hag
      cases hp : t.getPage pid with
      | none => rw [checkTree_missing t n hp] at h; cases h
      | some node =>
        cases node with
        | leaf p m items next =>
          rw [checkTree_leaf t n hp] at h
          by_cases hcond : (p == parent && m == t.leafMaxSize && itemsSorted items &&
              items.all (fun item => geLB lo item.1 && ltUB hi item.1)) = true
          · rw [if_pos hcond] at h
            injection h with h'
            injection h' with h1 h'
            injection h' with h2 h3
            subst h1; subst h2; subst h3
            have hp2 : t2.getPage pid = some (.leaf p m items next) := by
              rw [hag pid (List.mem_singleton_self pid)]; exact hp
            rw [checkTree_leaf t2 n hp2, hleaf, if_pos hcond]
          · rw [if_neg hcond] at h; cases h
        | internal p m entries =>
          cases entries with
          | nil => rw [checkTree_internal_nil t n hp] at h; cases h
          | cons e rest =>
            rcases e with ⟨k0, c0⟩
            rw [checkTree_internal t n hp] at h
            by_cases hgd : (p == parent && m == t.internalMaxSize) = true
            · rw [if_pos hgd] at h
              cases hc : checkChildren t n pid c0 rest lo hi with
              | none => rw [hc] at h; cases h
              | some rr =>
                rw [hc] at h
                rcases rr with ⟨cs', ls', ns'⟩
                injection h with h'
                injection h' with h1 h'
                injection h' with h2 h3
                subst h1; subst h2; subst h3
                have hp2 : t2.getPage pid = some (.internal p m ((k0, c0) :: rest)) := by
                  rw [hag pid (List.mem_cons_self _ _)]; exact hp
                rw [checkTree_internal t2 n hp2, hint, if_pos hgd]
                rw [ihK pid c0 rest lo hi cs' ls' ns' hc
                  (fun q hq => hag q (List.mem_cons_of_mem _ hq))]
                rfl
            · rw [if_neg hgd] at h; cases h
    refine ⟨hT, ?_⟩
    intro P c0 entries lo hi cs ls ns h
    revert h
    induction entries generalizing c0 lo cs ls ns with
    | nil =>
      intro h hag
      rw [checkChildren_nil] at h ⊢
      exact hT c0 P lo hi cs ls ns h hag
    | cons e rest ihe =>
      rcases e with ⟨k, c1⟩
      intro h hag
      rw [checkChildren_cons] at h ⊢
      by_cases hgd : (ltLB lo k && ltUB hi k) = true
      · rw [if_pos hgd] at h ⊢
        cases hc : checkTree t (n + 1) c0 P lo (some k) with
        | none => rw [hc] at h; cases h
        | some r1 =>
          rw [hc] at h
          simp only [Option.some_bind] at h
          cases hc2 : checkChildren t (n + 1) P c1 rest (some k) hi with
          | none => rw [hc2] at h; cases h
          | some r2 =>
            rw [hc2] at h
            rcases r1 with ⟨cs1, ls1, ns1⟩
            rcases r2 with ⟨cs2, ls2, ns2⟩
            injection h with h'
            injection h' with h1 h'
            injection h' with h2 h3
            subst h1; subst h2; subst h3
            rw [hT c0 P lo (some k) cs1 ls1 ns1 hc
              (fun q hq => hag q (List.mem_append_left _ hq))]
            simp only [Option.some_bind]
            rw [ihe c1 (some k) cs2 ls2 ns2 hc2
              (fun q hq => hag q (List.mem_append_right _ hq))]
            rfl
      · rw [if_neg hgd] at h; cases h

/-- Helper: an optional strict lower bound weakens through a separator. -/
theorem ltLB_weaken {lo : Option Nat} {k1 k : Nat}
    (h1 : ltLB lo k1 = true) (h2 : ltLB (some k1) k = true) : ltLB lo k = true := by
  cases lo with
  | none => rfl
  | some l =>
    simp only [ltLB, decide_eq_true_eq] at h1 h2 ⊢
    omega

/-- Helper: a strict lower bound on `b` by `a` is a strict upper bound on
`a` by `b`. -/
theorem ltLB_to_ltUB {a b : Nat} (h : ltLB (some a) b = true) :
    ltUB (some b) a = true := by
  simp only [ltLB, decide_eq_true_eq] at h
  simp only [ltUB, decide_eq_true_eq]
  exact h

/-- Helper: rewriting the root of a checked subtree with a new parent id
revalidates it under that parent. -/
theorem check_reparent (t : BPlusTree) {pid : Int} (q : Int) {node : BPlusTreePage}
    (hp : t.getPage pid = some node) :
    ∀ fuel parent (lo hi : Option Nat) cs ls ns,
      checkTree t fuel pid parent lo hi = some (cs, ls, ns) → ns.Nodup →
      checkTree (t.setPage pid (node.SetParentPageId q)) fuel pid q lo hi
        = some (cs, ls, ns) := by
  intro fuel parent lo hi cs ls ns h hnd
  cases fuel with
  | zero => rw [checkTree_zero] at h; cases h
  | succ n =>
    cases node with
    | leaf p m items next =>
      rw [checkTree_leaf t n hp] at h
      by_cases hcond : (p == parent && m == t.leafMaxSize && itemsSorted items &&
          items.all (fun item => geLB lo item.1 && ltUB hi item.1)) = true
      · rw [if_pos hcond] at h
        injection h with h'
        injection h' with h1 h'
        injection h' with h2 h3
        subst h1; subst h2; subst h3
        have hp2 : (t.setPage pid ((BPlusTreePage.leaf p m items next).SetParentPageId q)).getPage pid
            = some (.leaf q m items next) := getPage_setPage_self t pid _
        rw [checkTree_leaf _ n hp2]
        simp only [Bool.and_eq_true] at hcond
        obtain ⟨⟨⟨_, hm⟩, hs⟩, ha⟩ := hcond
        rw [show (t.setPage pid ((BPlusTreePage.leaf p m items next).SetParentPageId q)).leafMaxSize
          = t.leafMaxSize from rfl]
        have hcond2 : (q == q && m == t.leafMaxSize && itemsSorted items &&
            items.all (fun item => geLB lo item.1 && ltUB hi item.1)) = true := by
          simp only [Bool.and_eq_true, beq_self_eq_true, true_and]
          exact ⟨⟨hm, hs⟩, ha⟩
        rw [if_pos hcond2]
      · rw [if_neg hcond] at h; cases h
    | internal p m entries =>
      cases entries with
      | nil => rw [checkTree_internal_nil t n hp] at h; cases h
      | cons e rest =>
        rcases e with ⟨k0, c0⟩
        rw [checkTree_internal t n hp] at h
        by_cases hgd : (p == parent && m == t.internalMaxSize) = true
        · rw [if_pos hgd] at h
          cases hc : checkChildren t n pid c0 rest lo hi with
          | none => rw [hc] at h; cases h
          | some rr =>
            rw [hc] at h
            rcases rr with ⟨cs', ls', ns'⟩
            injection h with h'
            injection h' with h1 h'
            injection h' with h2 h3
            subst h1; subst h2; subst h3
            have hnotin : pid ∉ ns' := (List.nodup_cons.mp hnd).1
            have hp2 : (t.setPage pid ((BPlusTreePage.internal p m ((k0, c0) :: rest)).SetParentPageId q)).getPage pid
                = some (.internal q m ((k0, c0) :: rest)) := getPage_setPage_self t pid _
            rw [checkTree_internal _ n hp2]
            simp only [Bool.and_eq_true] at hgd
            rw [show (t.setPage pid ((BPlusTreePage.internal p m ((k0, c0) :: rest)).SetParentPageId q)).internalMaxSize
              = t.internalMaxSize from rfl]
            have hgd2 : (q == q && m == t.internalMaxSize) = true := by
              simp only [Bool.and_eq_true, beq_self_eq_true, true_and]
              exact hgd.2
            rw [if_pos hgd2]
            rw [(check_frame t
              (t.setPage pid ((BPlusTreePage.internal p m ((k0, c0) :: rest)).SetParentPageId q))
              rfl rfl n).2 pid c0 rest lo hi cs' ls' ns' hc
              (fun x hx => getPage_setPage_ne t pid x _
                (fun hxe => hnotin (hxe ▸ hx)))]
            rfl
        · rw [if_neg hgd] at h; cases h

/-- Helper: joining two child-list walks around a separator. -/
theorem checkChildren_append (t : BPlusTree) (fuel : Nat) (P : Int) :
    ∀ (xs : List (Nat × Int)) (c0 c : Int) (k : Nat) (ys : List (Nat × Int))
      (lo hi : Option Nat) r1 r2,
      checkChildren t fuel P c0 xs lo (some k) = some r1 →
      checkChildren t fuel P c ys (some k) hi = some r2 →
      ltLB lo k = true → ltUB hi k = true →
      checkChildren t fuel P c0 (xs ++ (k, c) :: ys) lo hi =
        some (r1.1 ++ r2.1, r1.2.1 ++ r2.2.1, r1.2.2 ++ r2.2.2) := by
  intro xs
  induction xs with
  | nil =>
    intro c0 c k ys lo hi r1 r2 h1 h2 hlb hub
    rw [checkChildren_nil] at h1
    rw [List.nil_append, checkChildren_cons, if_pos (by rw [hlb, hub]; rfl), h1]
    simp only [Option.some_bind]
    rw [h2]
    rfl
  | cons e xs' ih =>
    intro c0 c k ys lo hi r1 r2 h1 h2 hlb hub
    rcases e with ⟨k1, c1⟩
    rw [checkChildren_cons] at h1
    by_cases hgd : (ltLB lo k1 && ltUB (some k) k1) = true
    · rw [if_pos hgd] at h1
      rw [Bool.and_eq_true] at hgd
      cases hc : checkTree t fuel c0 P lo (some k1) with
      | none => rw [hc] at h1; cases h1
      | some ra =>
        rw [hc] at h1
        simp only [Option.some_bind] at h1
        cases hc2 : checkChildren t fuel P c1 xs' (some k1) (some k) with
        | none => rw [hc2] at h1; cases h1
        | some rb =>
          rw [hc2] at h1
          injection h1 with h1'
          subst h1'
          rw [List.cons_append, checkChildren_cons]
          rw [if_pos (by rw [hgd.1, ltUB_weaken hgd.2 hub]; rfl), hc]
          simp only [Option.some_bind]
          rw [ih c1 c k ys (some k1) hi rb r2 hc2 h2 hgd.2 hub]
          simp only [Option.map_some']
          simp [List.append_assoc]
    · rw [if_neg hgd] at h1; cases h1

/-- Helper: splitting a child-list walk at a separator. -/
theorem checkChildren_split (t : BPlusTree) (fuel : Nat) (P : Int) :
    ∀ (xs : List (Nat × Int)) (c0 c : Int) (k : Nat) (ys : List (Nat × Int))
      (lo hi : Option Nat) r,
      checkChildren t fuel P c0 (xs ++ (k, c) :: ys) lo hi = some r →
      ∃ r1 r2, checkChildren t fuel P c0 xs lo (some k) = some r1 ∧
        checkChildren t fuel P c ys (some k) hi = some r2 ∧
        r = (r1.1 ++ r2.1, r1.2.1 ++ r2.2.1, r1.2.2 ++ r2.2.2) ∧
        ltLB lo k = true ∧ ltUB hi k = true := by
  intro xs
  induction xs with
  | nil =>
    intro c0 c k ys lo hi r h
    rw [List.nil_append, checkChildren_cons] at h
    by_cases hgd : (ltLB lo k && ltUB hi k) = true
    · rw [if_pos hgd] at h
      rw [Bool.and_eq_true] at hgd
      cases hc : checkTree t fuel c0 P lo (some k) with
      | none => rw [hc] at h; cases h
      | some r1 =>
        rw [hc] at h
        simp only [Option.some_bind] at h
        cases hc2 : checkChildren t fuel P c ys (some k) hi with
        | none => rw [hc2] at h; cases h
        | some r2 =>
          rw [hc2] at h
          injection h with h'
          exact ⟨r1, r2, by rw [checkChildren_nil]; exact hc, rfl, h'.symm, hgd.1, hgd.2⟩
    · rw [if_neg hgd] at h; cases h
  | cons e xs' ih =>
    intro c0 c k ys lo hi r h
    rcases e with ⟨k1, c1⟩
    rw [List.cons_append, checkChildren_cons] at h
    by_cases hgd : (ltLB lo k1 && ltUB hi k1) = true
    · rw [if_pos hgd] at h
      rw [Bool.and_eq_true] at hgd
      cases hc : checkTree t fuel c0 P lo (some k1) with
      | none => rw [hc] at h; cases h
      | some ra =>
        rw [hc] at h
        simp only [Option.some_bind] at h
        cases hc2 : checkChildren t fuel P c1 (xs' ++ (k, c) :: ys) (some k1) hi with
        | none => rw [hc2] at h; cases h
        | some rr =>
          rw [hc2] at h
          injection h with h'
          subst h'
          obtain ⟨rb, r2, hb, h2, hrr, hlb', hub'⟩ := ih c1 c k ys (some k1) hi rr hc2
          refine ⟨(ra.1 ++ rb.1, ra.2.1 ++ rb.2.1, ra.2.2 ++ rb.2.2), r2, ?_, h2, ?_,
            ltLB_weaken hgd.1 hlb', hub'⟩
          · rw [checkChildren_cons, if_pos (by
              rw [hgd.1, ltLB_to_ltUB hlb']
              rfl), hc]
            simp only [Option.some_bind]
            rw [hb]
            rfl
          · rw [hrr]
            simp [List.append_assoc]
    · rw [if_neg hgd] at h; cases h

/-! ### Fuel-free checking: the `checksAs` interface -/

/-- Helper: frame rule at the `checksAs` level. -/
theorem checksAs_frame {t t2 : BPlusTree} {pid parent : Int} {lo hi : Option Nat}
    {cs : List (Nat × Nat)} {ls ns : List Int}
    (h : checksAs t pid parent lo hi (cs, ls, ns))
    (hleaf : t2.leafMaxSize = t.leafMaxSize)
    (hint : t2.internalMaxSize = t.internalMaxSize)
    (hag : ∀ q ∈ ns, t2.getPage q = t.getPage q) :
    checksAs t2 pid parent lo hi (cs, ls, ns) := by
  obtain ⟨f, hf⟩ := h
  exact ⟨f, (check_frame t t2 hleaf hint f).1 pid parent lo hi cs ls ns hf hag⟩

/-- Helper: frame rule for child-list walks at the `checksAs` level. -/
theorem childrenCheckAs_frame {t t2 : BPlusTree} {P c0 : Int}
    {entries : List (Nat × Int)} {lo hi : Option Nat}
    {cs : List (Nat × Nat)} {ls ns : List Int}
    (h : childrenCheckAs t P c0 entries lo hi (cs, ls, ns))
    (hleaf : t2.leafMaxSize = t.leafMaxSize)
    (hint : t2.internalMaxSize = t.internalMaxSize)
    (hag : ∀ q ∈ ns, t2.getPage q = t.getPage q) :
    childrenCheckAs t2 P c0 entries lo hi (cs, ls, ns) := by
  obtain ⟨f, hf⟩ := h
  exact ⟨f, (check_frame t t2 hleaf hint f).2 P c0 entries lo hi cs ls ns hf hag⟩

/-- Helper: reparenting rule at the `checksAs` level. -/
theorem checksAs_reparent {t : BPlusTree} {pid : Int} (q : Int) {node : BPlusTreePage}
    (hp : t.getPage pid = some node) {parent : Int} {lo hi : Option Nat}
    {cs : List (Nat × Nat)} {ls ns : List Int}
    (h : checksAs t pid parent lo hi (cs, ls, ns)) (hnd : ns.Nodup) :
    checksAs (t.setPage pid (node.SetParentPageId q)) pid q lo hi (cs, ls, ns) := by
  obtain ⟨f, hf⟩ := h
  exact ⟨f, check_reparent t q hp f parent lo hi cs ls ns hf hnd⟩

/-- Helper: a single-child walk is the child's own check. -/
theorem childrenCheckAs_nil {t : BPlusTree} {P c0 : Int} {lo hi : Option Nat}
    {r : List (Nat × Nat) × List Int × List Int} :
    childrenCheckAs t P c0 [] lo hi r ↔ checksAs t c0 P lo hi r := by
  constructor
  · rintro ⟨f, hf⟩; rw [checkChildren_nil] at hf; exact ⟨f, hf⟩
  · rintro ⟨f, hf⟩; exact ⟨f, by rw [checkChildren_nil]; exact hf⟩

/-- Helper: joining two child-list walks at the `checksAs` level. -/
theorem childrenCheckAs_append {t : BPlusTree} {P c0 c : Int} {k : Nat}
    {xs ys : List (Nat × Int)} {lo hi : Option Nat}
    {r1 r2 : List (Nat × Nat) × List Int × List Int}
    (h1 : childrenCheckAs t P c0 xs lo (some k) r1)
    (h2 : childrenCheckAs t P c ys (some k) hi r2)
    (hlb : ltLB lo k = true) (hub : ltUB hi k = true) :
    childrenCheckAs t P c0 (xs ++ (k, c) :: ys) lo hi
      (r1.1 ++ r2.1, r1.2.1 ++ r2.2.1, r1.2.2 ++ r2.2.2) := by
  obtain ⟨f1, hf1⟩ := h1
  obtain ⟨f2, hf2⟩ := h2
  refine ⟨max f1 f2, ?_⟩
  exact checkChildren_append t (max f1 f2) P xs c0 c k ys lo hi r1 r2
    (checkChildren_mono_le t (le_max_left f1 f2) hf1)
    (checkChildren_mono_le t (le_max_right f1 f2) hf2) hlb hub

/-- Helper: splitting a child-list walk at the `checksAs` level. -/
theorem childrenCheckAs_split {t : BPlusTree} {P c0 c : Int} {k : Nat}
    {xs ys : List (Nat × Int)} {lo hi : Option Nat}
    {r : List (Nat × Nat) × List Int × List Int}
    (h : childrenCheckAs t P c0 (xs ++ (k, c) :: ys) lo hi r) :
    ∃ r1 r2, childrenCheckAs t P c0 xs lo (some k) r1 ∧
      childrenCheckAs t P c ys (some k) hi r2 ∧
      r = (r1.1 ++ r2.1, r1.2.1 ++ r2.2.1, r1.2.2 ++ r2.2.2) ∧
      ltLB lo k = true ∧ ltUB hi k = true := by
  obtain ⟨f, hf⟩ := h
  obtain ⟨r1, r2, h1, h2, hr, hlb, hub⟩ :=
    checkChildren_split t f P xs c0 c k ys lo hi r hf
  exact ⟨r1, r2, ⟨f, h1⟩, ⟨f, h2⟩, hr, hlb, hub⟩

/-- Helper: structural facts at the `checksAs` level. -/
theorem checksAs_facts {t : BPlusTree} {pid parent : Int} {lo hi : Option Nat}
    {cs : List (Nat × Nat)} {ls ns : List Int}
    (h : checksAs t pid parent lo hi (cs, ls, ns)) :
    (∀ b ∈ cs, geLB lo b.1 = true ∧ ltUB hi b.1 = true) ∧
    (∃ tail, ns = pid :: tail) ∧
    (∀ n ∈ ns, ∃ node, t.getPage n = some node) ∧
    (∀ l ∈ ls, l ∈ ns) ∧
    (∀ l ∈ ls, ∃ p items next,
      t.getPage l = some (.leaf p t.leafMaxSize items next) ∧
      itemsSorted items = true) ∧
    cs = flatLeaves t ls ∧ ls ≠ [] := by
  obtain ⟨f, hf⟩ := h
  exact (check_facts t f).1 pid parent lo hi cs ls ns hf

/-- Helper: structural facts for child-list walks at the `checksAs` level. -/
theorem childrenCheckAs_facts {t : BPlusTree} {P c0 : Int}
    {entries : List (Nat × Int)} {lo hi : Option Nat}
    {cs : List (Nat × Nat)} {ls ns : List Int}
    (h : childrenCheckAs t P c0 entries lo hi (cs, ls, ns)) :
    (∀ b ∈ cs, geLB lo b.1 = true ∧ ltUB hi b.1 = true) ∧
    (∀ n ∈ ns, ∃ node, t.getPage n = some node) ∧
    (∀ l ∈ ls, l ∈ ns) ∧
    (∀ l ∈ ls, ∃ p items next,
      t.getPage l = some (.leaf p t.leafMaxSize items next) ∧
      itemsSorted items = true) ∧
    cs = flatLeaves t ls ∧ ls ≠ [] := by
  obtain ⟨f, hf⟩ := h
  exact (check_facts t f).2 P c0 entries lo hi cs ls ns hf

/-- Helper: introducing the check of a stored leaf. -/
theorem checksAs_leaf_intro {t : BPlusTree} {pid parent : Int} {lo hi : Option Nat}
    {p : Int} {items : List (Nat × Nat)} {next : Int}
    (hp : t.getPage pid = some (.leaf p t.leafMaxSize items next))
    (hpp : p = parent) (hsort : itemsSorted items = true)
    (hbounds : ∀ b ∈ items, geLB lo b.1 = true ∧ ltUB hi b.1 = true) :
    checksAs t pid parent lo hi (items, [pid], [pid]) := by
  refine ⟨1, ?_⟩
  rw [checkTree_leaf t 0 hp]
  rw [if_pos ?_]
  subst hpp
  simp only [Bool.and_eq_true, beq_self_eq_true, true_and, List.all_eq_true]
  refine ⟨hsort, fun b hb => ?_⟩
  obtain ⟨h1, h2⟩ := hbounds b hb
  rw [h1, h2]
  exact ⟨rfl, rfl⟩

/-- Helper: introducing the check of a stored internal node from its
child-list walk. -/
theorem checksAs_internal_intro {t : BPlusTree} {pid parent : Int}
    {lo hi : Option Nat} {p : Int} {k0 : Nat} {c0 : Int} {rest : List (Nat × Int)}
    {cs : List (Nat × Nat)} {ls ns : List Int}
    (hp : t.getPage pid = some (.internal p t.internalMaxSize ((k0, c0) :: rest)))
    (hpp : p = parent)
    (hkids : childrenCheckAs t pid c0 rest lo hi (cs, ls, ns)) :
    checksAs t pid parent lo hi (cs, ls, pid :: ns) := by
  obtain ⟨f, hf⟩ := hkids
  refine ⟨f + 1, ?_⟩
  rw [checkTree_internal t f hp]
  subst hpp
  rw [if_pos (by simp), hf]
  rfl

/-! ### Leaf-chain lemmas -/

/-- Helper: the chain test on a singleton. -/
theorem chainOK_single_iff (t : BPlusTree) (x : Int) :
    chainOK t [x] = true ↔ linkView t x = some (-1) := by
  unfold chainOK linkView
  cases t.getPage x with
  | none => simp
  | some node =>
    cases node with
    | leaf p m items next => simp
    | internal p m entries => simp

/-- Helper: the chain test on two or more leaves. -/
theorem chainOK_cons₂_iff (t : BPlusTree) (x y : Int) (rest : List Int) :
    chainOK t (x :: y :: rest) = true ↔
      linkView t x = some y ∧ chainOK t (y :: rest) = true := by
  show (_ && _) = true ↔ _
  rw [Bool.and_eq_true]
  unfold linkView
  cases t.getPage x with
  | none => simp
  | some node =>
    cases node with
    | leaf p m items next => simp
    | internal p m entries => simp

/-- Helper: the chain only reads the linked leaves' next pointers. -/
theorem chainOK_congr (t t2 : BPlusTree) :
    ∀ ls : List Int, (∀ l ∈ ls, linkView t2 l = linkView t l) →
      chainOK t2 ls = chainOK t ls := by
  intro ls
  induction ls with
  | nil => intro _; rfl
  | cons x xs ih =>
    intro hag
    cases xs with
    | nil =>
      have hx : linkView t2 x = linkView t x := hag x (by simp)
      by_cases h1 : chainOK t2 [x] = true
      · have h2 : chainOK t [x] = true := (chainOK_single_iff t x).mpr
          (by rw [← hx]; exact (chainOK_single_iff t2 x).mp h1)
        rw [h1, h2]
      · have h2 : ¬ chainOK t [x] = true := by
          intro hc
          exact h1 ((chainOK_single_iff t2 x).mpr
            (by rw [hx]; exact (chainOK_single_iff t x).mp hc))
        rw [Bool.not_eq_true] at h1 h2
        rw [h1, h2]
    | cons y rest =>
      have hx : linkView t2 x = linkView t x := hag x (by simp)
      have htail : chainOK t2 (y :: rest) = chainOK t (y :: rest) :=
        ih (fun l hl => hag l (List.mem_cons_of_mem _ hl))
      show (_ && _) = (_ && _)
      unfold linkView at hx
      cases hp2 : t2.getPage x with
      | none =>
        rw [hp2] at hx
        cases hp : t.getPage x with
        | none => rw [htail]
        | some node =>
          cases node with
          | leaf p m items next => rw [hp] at hx; cases hx
          | internal p m entries => rw [htail]
      | some node2 =>
        cases node2 with
        | leaf p2 m2 items2 next2 =>
          rw [hp2] at hx
          cases hp : t.getPage x with
          | none => rw [hp] at hx; cases hx
          | some node =>
            cases node with
            | leaf p m items next =>
              rw [hp] at hx
              injection hx with hx'
              rw [hx', htail]
            | internal p m entries => rw [hp] at hx; cases hx
        | internal p2 m2 entries2 =>
          rw [hp2] at hx
          cases hp : t.getPage x with
          | none => rw [htail]
          | some node =>
            cases node with
            | leaf p m items next => rw [hp] at hx; cases hx
            | internal p m entries => rw [htail]

/-- Helper: a chained leaf's next pointer is the following leaf (or `-1`
at the end of the list). -/
theorem chain_next (t : BPlusTree) : ∀ (A : List Int) (l : Int) (B : List Int),
    chainOK t (A ++ l :: B) = true →
    linkView t l = some (match B with | [] => -1 | b :: _ => b) := by
  intro A
  induction A with
  | nil =>
    intro l B h
    rw [List.nil_append] at h
    cases B with
    | nil => exact (chainOK_single_iff t l).mp h
    | cons b B' => exact ((chainOK_cons₂_iff t l b B').mp h).1
  | cons a A' ih =>
    intro l B h
    rw [List.cons_append] at h
    have : chainOK t (A' ++ l :: B) = true := by
      cases hA : A' ++ l :: B with
      | nil => exact absurd hA (by simp)
      | cons z zs =>
        rw [hA] at h
        exact ((chainOK_cons₂_iff t a z zs).mp h).2
    exact ih l B this

/-- Helper: replacing one chained leaf by itself plus a fresh successor
keeps the chain linked, provided the other leaves' next pointers are
untouched. -/
theorem chain_insert2 (t t2 : BPlusTree) :
    ∀ (A : List Int) (l nid : Int) (B : List Int),
      (∀ x ∈ A, linkView t2 x = linkView t x) →
      (∀ x ∈ B, linkView t2 x = linkView t x) →
      chainOK t (A ++ l :: B) = true →
      linkView t2 l = some nid →
      linkView t2 nid = some (match B with | [] => -1 | b :: _ => b) →
      chainOK t2 (A ++ l :: nid :: B) = true := by
  intro A
  induction A with
  | nil =>
    intro l nid B hA hB hchain hl hn
    rw [List.nil_append] at hchain ⊢
    rw [chainOK_cons₂_iff]
    refine ⟨hl, ?_⟩
    cases B with
    | nil => exact (chainOK_single_iff t2 nid).mpr hn
    | cons b B' =>
      rw [chainOK_cons₂_iff]
      refine ⟨hn, ?_⟩
      have hold : chainOK t (b :: B') = true :=
        ((chainOK_cons₂_iff t l b B').mp hchain).2
      rw [chainOK_congr t t2 (b :: B') (fun x hx => hB x hx)]
      exact hold
  | cons a A' ih =>
    intro l nid B hA hB hchain hl hn
    rw [List.cons_append] at hchain ⊢
    have haA : linkView t2 a = linkView t a := hA a (by simp)
    cases hA' : A' with
    | nil =>
      subst hA'
      rw [List.nil_append] at hchain ⊢
      obtain ⟨hal, hrest⟩ := (chainOK_cons₂_iff t a l B).mp hchain
      rw [chainOK_cons₂_iff]
      exact ⟨by rw [haA]; exact hal,
        ih l nid B (fun x hx => absurd hx (by simp)) hB hrest hl hn⟩
    | cons a' A'' =>
      subst hA'
      rw [List.cons_append] at hchain ⊢
      obtain ⟨hal, hrest⟩ := (chainOK_cons₂_iff t a a' _).mp hchain
      rw [chainOK_cons₂_iff]
      refine ⟨by rw [haA]; exact hal, ?_⟩
      have hres := ih l nid B (fun x hx => hA x (List.mem_cons_of_mem _ hx)) hB
        (by rw [List.cons_append]; exact hrest) hl hn
      rw [List.cons_append] at hres
      exact hres

/-! ### Zipper lemmas -/

/-- Helper: filling a slot and walking the entries to its right. -/
theorem slot_right_run {t : BPlusTree} {P : Int} {lo phi hi : Option Nat}
    {post : List (Nat × Int)} {CBs : List (Nat × Nat)} {LBs NBs : List Int}
    (hr : RightSeg t P lo phi hi post CBs LBs NBs)
    {slotChild : Int} {cs : List (Nat × Nat)} {ls ns : List Int}
    (hf : checksAs t slotChild P lo hi (cs, ls, ns)) :
    childrenCheckAs t P slotChild post lo phi (cs ++ CBs, ls ++ LBs, ns ++ NBs) := by
  cases post with
  | nil =>
    obtain ⟨hphi, hc, hl, hn⟩ := hr
    subst hphi; subst hc; subst hl; subst hn
    rw [List.append_nil, List.append_nil, List.append_nil]
    exact childrenCheckAs_nil.mpr hf
  | cons e post' =>
    rcases e with ⟨k1, c1⟩
    obtain ⟨hhi, hlb, hub, hrun⟩ := hr
    subst hhi
    have happ := childrenCheckAs_append (childrenCheckAs_nil.mpr hf) hrun hlb hub
    rw [List.nil_append] at happ
    exact happ

/-- Helper: filling the slot of a `SlotCtx` validates the whole node `P`. -/
theorem slotCtx_fill {t : BPlusTree} {P pp : Int} {plo phi lo hi : Option Nat}
    {CAs CBs : List (Nat × Nat)} {LAs LBs NAs NBs : List Int} {slotChild : Int}
    (hs : SlotCtx t P pp plo phi lo hi CAs CBs LAs LBs NAs NBs slotChild)
    {cs : List (Nat × Nat)} {ls ns : List Int}
    (hf : checksAs t slotChild P lo hi (cs, ls, ns)) :
    checksAs t P pp plo phi
      (CAs ++ cs ++ CBs, LAs ++ ls ++ LBs, P :: (NAs ++ ns ++ NBs)) := by
  obtain ⟨pitems, hp, hcase⟩ := hs
  rcases hcase with ⟨hk, post, hpe, hlo, hCA, hLA, hNA, hr⟩ |
    ⟨hk, hc, preRest, sk, post, hpe, hlo, hplb, hpub, hleft, _, hr⟩
  · subst hpe; subst hlo; subst hCA; subst hLA; subst hNA
    have hkids := slot_right_run hr hf
    simp only [List.nil_append]
    exact checksAs_internal_intro hp rfl hkids
  · subst hpe; subst hlo
    have hright := slot_right_run hr hf
    have hkids := childrenCheckAs_append hleft hright hplb hpub
    have := checksAs_internal_intro hp rfl hkids
    simp only [List.append_assoc] at this ⊢
    exact this

/-- Helper: a validated right segment only reads its own nodes. -/
theorem rightSeg_frame {t t2 : BPlusTree} {P : Int} {lo phi hi : Option Nat}
    {post : List (Nat × Int)} {CBs : List (Nat × Nat)} {LBs NBs : List Int}
    (hr : RightSeg t P lo phi hi post CBs LBs NBs)
    (hleaf : t2.leafMaxSize = t.leafMaxSize)
    (hint : t2.internalMaxSize = t.internalMaxSize)
    (hag : ∀ q ∈ NBs, t2.getPage q = t.getPage q) :
    RightSeg t2 P lo phi hi post CBs LBs NBs := by
  cases post with
  | nil => exact hr
  | cons e post' =>
    rcases e with ⟨k1, c1⟩
    obtain ⟨hhi, hlb, hub, hrun⟩ := hr
    exact ⟨hhi, hlb, hub, childrenCheckAs_frame hrun hleaf hint hag⟩

/-- Helper: a slot context only reads its own nodes (and `P`). -/
theorem slotCtx_frame {t t2 : BPlusTree} {P pp : Int} {plo phi lo hi : Option Nat}
    {CAs CBs : List (Nat × Nat)} {LAs LBs NAs NBs : List Int} {slotChild : Int}
    (hs : SlotCtx t P pp plo phi lo hi CAs CBs LAs LBs NAs NBs slotChild)
    (hleaf : t2.leafMaxSize = t.leafMaxSize)
    (hint : t2.internalMaxSize = t.internalMaxSize)
    (hP : t2.getPage P = t.getPage P)
    (hagA : ∀ q ∈ NAs, t2.getPage q = t.getPage q)
    (hagB : ∀ q ∈ NBs, t2.getPage q = t.getPage q) :
    SlotCtx t2 P pp plo phi lo hi CAs CBs LAs LBs NAs NBs slotChild := by
  obtain ⟨pitems, hp, hcase⟩ := hs
  refine ⟨pitems, by rw [hP, hint]; exact hp, ?_⟩
  rcases hcase with ⟨hk, post, hpe, hlo, hCA, hLA, hNA, hr⟩ |
    ⟨hk, hc, preRest, sk, post, hpe, hlo, hplb, hpub, hleft, hnotin, hr⟩
  · exact Or.inl ⟨hk, post, hpe, hlo, hCA, hLA, hNA,
      rightSeg_frame hr hleaf hint hagB⟩
  · exact Or.inr ⟨hk, hc, preRest, sk, post, hpe, hlo, hplb, hpub,
      childrenCheckAs_frame hleft hleaf hint hagA, hnotin,
      rightSeg_frame hr hleaf hint hagB⟩

/-- Helper: a zipper context only reads its own nodes. -/
theorem zip_frame {t t2 : BPlusTree}
    (hleaf : t2.leafMaxSize = t.leafMaxSize)
    (hint : t2.internalMaxSize = t.internalMaxSize)
    (hroot : t2.rootPageId = t.rootPageId) :
    ∀ {d : Nat} {pid parent : Int} {lo hi : Option Nat}
      {CA CB : List (Nat × Nat)} {LA LB NA NB : List Int},
      Zip t d pid parent lo hi CA CB LA LB NA NB →
      (∀ q ∈ NA, t2.getPage q = t.getPage q) →
      (∀ q ∈ NB, t2.getPage q = t.getPage q) →
      Zip t2 d pid parent lo hi CA CB LA LB NA NB := by
  intro d pid parent lo hi CA CB LA LB NA NB hz
  induction hz with
  | top =>
    intro _ _
    have := Zip.top (t := t2)
    rw [hroot] at this
    exact this
  | step hz' hs ih =>
    intro hagA hagB
    have hagA' : ∀ q ∈ _, t2.getPage q = t.getPage q :=
      fun q hq => hagA q (List.mem_append_left _ hq)
    have hagB' : ∀ q ∈ _, t2.getPage q = t.getPage q :=
      fun q hq => hagB q (List.mem_append_right _ hq)
    refine Zip.step (ih hagA' hagB') ?_
    refine slotCtx_frame hs hleaf hint ?_ ?_ ?_
    · exact hagA _ (List.mem_append_right _ (List.mem_cons_self _ _))
    · exact fun q hq => hagA q
        (List.mem_append_right _ (List.mem_cons_of_mem _ hq))
    · exact fun q hq => hagB q (List.mem_append_left _ hq)

/-- Helper: filling the slot of a zipper context validates the whole
tree. -/
theorem zip_fill {t : BPlusTree} :
    ∀ {d : Nat} {pid parent : Int} {lo hi : Option Nat}
      {CA CB : List (Nat × Nat)} {LA LB NA NB : List Int},
      Zip t d pid parent lo hi CA CB LA LB NA NB →
      ∀ {cs : List (Nat × Nat)} {ls ns : List Int},
      checksAs t pid parent lo hi (cs, ls, ns) →
      checksAs t t.rootPageId (-1) none none
        (CA ++ cs ++ CB, LA ++ ls ++ LB, NA ++ ns ++ NB) := by
  intro d pid parent lo hi CA CB LA LB NA NB hz
  induction hz with
  | top =>
    intro cs ls ns hf
    simp only [List.nil_append, List.append_nil]
    exact hf
  | step hz' hs ih =>
    intro cs ls ns hf
    have hP := slotCtx_fill hs hf
    have := ih hP
    simp only [List.append_assoc, List.cons_append] at this ⊢
    exact this

/-- Helper: a zipper context at the invalid parent is the trivial root
context (when no stored page has a negative id). -/
theorem zip_root {t : BPlusTree} {d : Nat} {pid : Int} {lo hi : Option Nat}
    {CA CB : List (Nat × Nat)} {LA LB NA NB : List Int}
    (hz : Zip t d pid (-1) lo hi CA CB LA LB NA NB)
    (hpos : ∀ e ∈ t.pages, 0 ≤ e.1) :
    pid = t.rootPageId ∧ d = 0 ∧ lo = none ∧ hi = none ∧
      CA = [] ∧ CB = [] ∧ LA = [] ∧ LB = [] ∧ NA = [] ∧ NB = [] := by
  cases hz with
  | top => exact ⟨rfl, rfl, rfl, rfl, rfl, rfl, rfl, rfl, rfl, rfl⟩
  | step hz' hs =>
    obtain ⟨pitems, hp, _⟩ := hs
    have hmem := lookup_mem t.pages (-1) _ hp
    have := hpos _ hmem
    omega

/-- Helper: the zipper depth is bounded by the left node count. -/
theorem zip_depth_le {t : BPlusTree} :
    ∀ {d : Nat} {pid parent : Int} {lo hi : Option Nat}
      {CA CB : List (Nat × Nat)} {LA LB NA NB : List Int},
      Zip t d pid parent lo hi CA CB LA LB NA NB → d ≤ NA.length := by
  intro d pid parent lo hi CA CB LA LB NA NB hz
  induction hz with
  | top => exact Nat.le_refl 0
  | step hz' hs ih =>
    simp only [List.length_append, List.length_cons]
    omega

/-- Helper: the nodes recorded by a right segment are stored. -/
theorem rightSeg_stored {t : BPlusTree} {P : Int} {lo phi hi : Option Nat}
    {post : List (Nat × Int)} {CBs : List (Nat × Nat)} {LBs NBs : List Int}
    (hr : RightSeg t P lo phi hi post CBs LBs NBs) :
    ∀ q ∈ NBs, ∃ node, t.getPage q = some node := by
  cases post with
  | nil =>
    obtain ⟨_, _, _, hn⟩ := hr
    subst hn
    intro q hq
    cases hq
  | cons e post' =>
    rcases e with ⟨k1, c1⟩
    obtain ⟨_, _, _, hrun⟩ := hr
    exact (childrenCheckAs_facts hrun).2.1

/-- Helper: the nodes recorded by a zipper context are stored. -/
theorem zip_stored {t : BPlusTree} :
    ∀ {d : Nat} {pid parent : Int} {lo hi : Option Nat}
      {CA CB : List (Nat × Nat)} {LA LB NA NB : List Int},
      Zip t d pid parent lo hi CA CB LA LB NA NB →
      (∀ q ∈ NA, ∃ node, t.getPage q = some node) ∧
      (∀ q ∈ NB, ∃ node, t.getPage q = some node) := by
  intro d pid parent lo hi CA CB LA LB NA NB hz
  induction hz with
  | top => exact ⟨fun q hq => absurd hq (by simp), fun q hq => absurd hq (by simp)⟩
  | step hz' hs ih =>
    obtain ⟨ihA, ihB⟩ := ih
    obtain ⟨pitems, hp, hcase⟩ := hs
    constructor
    · intro q hq
      rcases List.mem_append.mp hq with hq' | hq'
      · exact ihA q hq'
      · rcases List.mem_cons.mp hq' with hq'' | hq''
        · exact ⟨_, hq'' ▸ hp⟩
        · rcases hcase with ⟨_, _, _, _, _, _, hNA, _⟩ |
            ⟨_, _, _, _, _, _, _, _, _, hleft, _, _⟩
          · rw [hNA] at hq''; cases hq''
          · exact (childrenCheckAs_facts hleft).2.1 q hq''
    · intro q hq
      rcases List.mem_append.mp hq with hq' | hq'
      · rcases hcase with ⟨_, _, _, _, _, _, _, hr⟩ |
          ⟨_, _, _, _, _, _, _, _, _, _, _, hr⟩
        · exact rightSeg_stored hr q hq'
        · exact rightSeg_stored hr q hq'
      · exact ihB q hq'

/-! ### Descent lemmas -/

/-- Helper: every child root of a validated child-list walk appears in its
node list. -/
theorem childrenCheckAs_children_mem {t : BPlusTree} {P : Int} :
    ∀ {entries : List (Nat × Int)} {c0 : Int} {lo hi : Option Nat}
      {cs : List (Nat × Nat)} {ls ns : List Int},
      childrenCheckAs t P c0 entries lo hi (cs, ls, ns) →
      c0 ∈ ns ∧ ∀ e ∈ entries, e.2 ∈ ns := by
  intro entries
  induction entries with
  | nil =>
    intro c0 lo hi cs ls ns h
    obtain ⟨f, hf⟩ := h
    rw [checkChildren_nil] at hf
    obtain ⟨_, ⟨tail, htail⟩, _⟩ := (check_facts t f).1 c0 P lo hi cs ls ns hf
    exact ⟨htail ▸ List.mem_cons_self _ _, fun e he => absurd he (by simp)⟩
  | cons e rest ih =>
    intro c0 lo hi cs ls ns h
    rcases e with ⟨k, c1⟩
    obtain ⟨f, hf⟩ := h
    rw [checkChildren_cons] at hf
    by_cases hg : (ltLB lo k && ltUB hi k) = true
    · rw [if_pos hg] at hf
      cases hc : checkTree t f c0 P lo (some k) with
      | none => rw [hc] at hf; cases hf
      | some r1 =>
        rw [hc] at hf
        simp only [Option.some_bind] at hf
        cases hc2 : checkChildren t f P c1 rest (some k) hi with
        | none => rw [hc2] at hf; cases hf
        | some r2 =>
          rw [hc2] at hf
          rcases r1 with ⟨cs1, ls1, ns1⟩
          rcases r2 with ⟨cs2, ls2, ns2⟩
          injection hf with hf'
          injection hf' with h1 hf'
          injection hf' with h2 h3
          subst h1; subst h2; subst h3
          obtain ⟨_, ⟨tail, htail⟩, _⟩ := (check_facts t f).1 c0 P lo (some k) cs1 ls1 ns1 hc
          obtain ⟨hc1m, hrestm⟩ := ih ⟨f, hc2⟩
          refine ⟨List.mem_append_left _ (htail ▸ List.mem_cons_self _ _), ?_⟩
          intro e he
          rcases List.mem_cons.mp he with he' | he'
          · rw [he']
            exact List.mem_append_right _ hc1m
          · exact List.mem_append_right _ (hrestm e he')
    · rw [if_neg hg] at hf; cases hf

/-- Helper: one-step unfolding of the leaf descent. -/
theorem findLeafFrom_succ (t : BPlusTree) (key : Nat) (leftMost : Bool)
    (fuel : Nat) (pageId : Int) :
    findLeafFrom t key leftMost (fuel + 1) pageId =
      match t.getPage pageId with
      | none => none
      | some (.leaf ..) => some pageId
      | some (.internal _ _ items) =>
        findLeafFrom t key leftMost fuel
          (if leftMost then ((items.head?.map (·.2)).getD (-1))
           else lookupChild key items) := rfl

/-- Helper: the descent stops at a leaf. -/
theorem findLeafFrom_leaf (t : BPlusTree) (key : Nat) (leftMost : Bool)
    (fuel : Nat) {pageId : Int} {p : Int} {m : Nat} {items : List (Nat × Nat)}
    {next : Int} (hp : t.getPage pageId = some (.leaf p m items next)) :
    findLeafFrom t key leftMost (fuel + 1) pageId = some pageId := by
  rw [findLeafFrom_succ, hp]

/-- Helper: the descent at an internal node follows the chosen child. -/
theorem findLeafFrom_internal (t : BPlusTree) (key : Nat) (fuel : Nat)
    {pageId : Int} {p : Int} {m : Nat} {items : List (Nat × Int)}
    (hp : t.getPage pageId = some (.internal p m items)) :
    findLeafFrom t key false (fuel + 1) pageId =
      findLeafFrom t key false fuel (lookupChild key items) := by
  rw [findLeafFrom_succ, hp]
  rfl

/-- Helper: descending one level of a validated child-list walk: the chosen
child is validated on a range containing the key, the walk's result splits
around it, and the surroundings form the data of a slot context. -/
theorem child_descend (t : BPlusTree) (key : Nat) (P : Int) :
    ∀ (entries : List (Nat × Int)) (c0 : Int) (lo hi : Option Nat)
      (cs : List (Nat × Nat)) (ls ns : List Int),
      childrenCheckAs t P c0 entries lo hi (cs, ls, ns) →
      geLB lo key = true → ltUB hi key = true →
      ∃ (c : Int) (clo chi : Option Nat) (csM : List (Nat × Nat)) (lsM nsM : List Int)
        (CAs CBs : List (Nat × Nat)) (LAs LBs NAs NBs : List Int),
        lookupChildAux key c0 entries = c ∧
        checksAs t c P clo chi (csM, lsM, nsM) ∧
        geLB clo key = true ∧ ltUB chi key = true ∧
        cs = CAs ++ csM ++ CBs ∧ ls = LAs ++ lsM ++ LBs ∧ ns = NAs ++ nsM ++ NBs ∧
        (∀ b ∈ CAs, b.1 < key) ∧ (∀ b ∈ CBs, key < b.1) ∧
        CAs = flatLeaves t LAs ∧ CBs = flatLeaves t LBs ∧
        ((c = c0 ∧ clo = lo ∧ CAs = [] ∧ LAs = [] ∧ NAs = [] ∧
           RightSeg t P clo hi chi entries CBs LBs NBs)
         ∨ (∃ pre sk post, entries = pre ++ (sk, c) :: post ∧
             clo = some sk ∧ ltLB lo sk = true ∧ ltUB hi sk = true ∧
             childrenCheckAs t P c0 pre lo (some sk) (CAs, LAs, NAs) ∧
             RightSeg t P clo hi chi post CBs LBs NBs)) := by
  intro entries
  induction entries with
  | nil =>
    intro c0 lo hi cs ls ns h hlo hhi
    refine ⟨c0, lo, hi, cs, ls, ns, [], [], [], [], [], [], rfl,
      childrenCheckAs_nil.mp h, hlo, hhi, by simp, by simp, by simp,
      by simp, by simp, rfl, rfl,
      Or.inl ⟨rfl, rfl, rfl, rfl, rfl, ⟨rfl, rfl, rfl, rfl⟩⟩⟩
  | cons e rest ih =>
    intro c0 lo hi cs ls ns h hlo hhi
    rcases e with ⟨k1, c1⟩
    obtain ⟨f, hf⟩ := h
    rw [checkChildren_cons] at hf
    by_cases hg : (ltLB lo k1 && ltUB hi k1) = true
    · rw [if_pos hg] at hf
      rw [Bool.and_eq_true] at hg
      cases hc : checkTree t f c0 P lo (some k1) with
      | none => rw [hc] at hf; cases hf
      | some r1 =>
        rw [hc] at hf
        simp only [Option.some_bind] at hf
        cases hc2 : checkChildren t f P c1 rest (some k1) hi with
        | none => rw [hc2] at hf; cases hf
        | some r2 =>
          rw [hc2] at hf
          rcases r1 with ⟨cs1, ls1, ns1⟩
          rcases r2 with ⟨cs2, ls2, ns2⟩
          injection hf with hf'
          injection hf' with h1 hf'
          injection hf' with h2 h3
          subst h1; subst h2; subst h3
          by_cases hcmp : k1 ≤ key
      -- descend into the tail: the chosen child is right of the separator
          · obtain ⟨c, clo, chi, csM, lsM, nsM, CAs', CBs', LAs', LBs', NAs', NBs',
              hlook, hchk, hclo, hchi, hcs, hls, hns, hCAb, hCBb, hflA, hflB, hshape⟩ :=
              ih c1 (some k1) hi cs2 ls2 ns2 ⟨f, hc2⟩
                (by simp only [geLB, decide_eq_true_eq]; exact hcmp) hhi
            have hcs1b : ∀ b ∈ cs1, b.1 < key := by
              intro b hb
              obtain ⟨_, hub⟩ := ((check_facts t f).1 c0 P lo (some k1) cs1 ls1 ns1 hc).1 b hb
              simp only [ltUB, decide_eq_true_eq] at hub
              omega
            have hfl1 : cs1 = flatLeaves t ls1 :=
              ((check_facts t f).1 c0 P lo (some k1) cs1 ls1 ns1 hc).2.2.2.2.2.1
            refine ⟨c, clo, chi, csM, lsM, nsM, cs1 ++ CAs', CBs',
              ls1 ++ LAs', LBs', ns1 ++ NAs', NBs', ?_, hchk, hclo, hchi,
              ?_, ?_, ?_, ?_, hCBb, ?_, hflB, ?_⟩
            · show (if k1 ≤ key then lookupChildAux key c1 rest else c0) = c
              rw [if_pos hcmp]
              exact hlook
            · rw [hcs]; simp [List.append_assoc]
            · rw [hls]; simp [List.append_assoc]
            · rw [hns]; simp [List.append_assoc]
            · intro b hb
              rcases List.mem_append.mp hb with hb' | hb'
              · exact hcs1b b hb'
              · exact hCAb b hb'
            · rw [flatLeaves_append, ← hflA, ← hfl1]
            · right
              rcases hshape with ⟨hcc, hcl, hCA0, hLA0, hNA0, hr⟩ |
                ⟨pre, sk, post, hpe, hcl, hlb, hub, hleft, hr⟩
              · refine ⟨[], k1, rest, by rw [hcc]; simp, hcl, hg.1, hg.2, ?_, ?_⟩
                · rw [hCA0, hLA0, hNA0]
                  simp only [List.append_nil]
                  exact childrenCheckAs_nil.mpr ⟨f, hc⟩
                · exact hr
              · refine ⟨(k1, c1) :: pre, sk, post, by rw [hpe]; simp, hcl,
                  ltLB_weaken hg.1 hlb, hub, ?_, hr⟩
                have hone := childrenCheckAs_append (k := k1) (c := c1)
                  (childrenCheckAs_nil.mpr ⟨f, hc⟩) hleft hg.1 (ltLB_to_ltUB hlb)
                rw [List.nil_append] at hone
                exact hone
      -- stop at the head child: the key is below the first separator
          · have hnle : key < k1 := by omega
            refine ⟨c0, lo, some k1, cs1, ls1, ns1, [], cs2, [], ls2, [], ns2,
              ?_, ⟨f, hc⟩, hlo, by simp only [ltUB, decide_eq_true_eq]; exact hnle,
              by simp, by simp, by simp, by simp, ?_, rfl, ?_, ?_⟩
            · show (if k1 ≤ key then lookupChildAux key c1 rest else c0) = c0
              rw [if_neg hcmp]
            · intro b hb
              obtain ⟨hlb, _⟩ := ((check_facts t f).2 P c1 rest (some k1) hi cs2 ls2 ns2 hc2).1 b hb
              simp only [geLB, decide_eq_true_eq] at hlb
              omega
            · exact ((check_facts t f).2 P c1 rest (some k1) hi cs2 ls2 ns2 hc2).2.2.2.2.1
            · exact Or.inl ⟨rfl, rfl, rfl, rfl, rfl,
                ⟨rfl, hg.1, hg.2, ⟨f, hc2⟩⟩⟩
    · rw [if_neg hg] at hf; cases hf

/-- Helper: a list of distinct stored page ids is no longer than the
store. -/
theorem stored_nodup_length_le (t : BPlusTree) (l : List Int) (hnd : l.Nodup)
    (hst : ∀ q ∈ l, ∃ node, t.getPage q = some node) :
    l.length ≤ t.pages.length := by
  have hsub : l ⊆ t.pages.map Prod.fst := by
    intro q hq
    obtain ⟨node, hnode⟩ := hst q hq
    exact List.mem_map.mpr ⟨(q, node), lookup_mem t.pages q node hnode, rfl⟩
  calc l.length ≤ (t.pages.map Prod.fst).length :=
        (hnd.subperm hsub).length_le
    _ = t.pages.length := List.length_map _ _

/-- Helper: the full descent of `FindLeafPage` through a validated subtree
with a zipper context: it reaches a leaf whose slot refines the context,
the contents split around the leaf with smaller keys left and larger keys
right, and the leaf's range contains the key. -/
theorem descend_aux (t : BPlusTree) (key : Nat) :
    ∀ (n : Nat) (pid parent : Int) (lo hi : Option Nat)
      (cs : List (Nat × Nat)) (ls ns : List Int)
      (d : Nat) (CA CB : List (Nat × Nat)) (LA LB NA NB : List Int),
      ns.length ≤ n →
      checksAs t pid parent lo hi (cs, ls, ns) →
      Zip t d pid parent lo hi CA CB LA LB NA NB →
      (NA ++ ns ++ NB).Nodup →
      geLB lo key = true → ltUB hi key = true →
      ∃ (lid lp : Int) (litems : List (Nat × Nat)) (lnext : Int)
        (llo lhi : Option Nat) (d' : Nat)
        (X Y : List (Nat × Nat)) (XL YL XN YN : List Int),
        (∀ f, ns.length ≤ f → findLeafFrom t key false f pid = some lid) ∧
        t.getPage lid = some (.leaf lp t.leafMaxSize litems lnext) ∧
        itemsSorted litems = true ∧
        checksAs t lid lp llo lhi (litems, [lid], [lid]) ∧
        Zip t d' lid lp llo lhi (CA ++ X) (Y ++ CB) (LA ++ XL) (YL ++ LB)
          (NA ++ XN) (YN ++ NB) ∧
        geLB llo key = true ∧ ltUB lhi key = true ∧
        cs = X ++ litems ++ Y ∧ ls = XL ++ lid :: YL ∧ ns = XN ++ lid :: YN ∧
        (∀ b ∈ X, b.1 < key) ∧ (∀ b ∈ Y, key < b.1) ∧
        X = flatLeaves t XL ∧ Y = flatLeaves t YL := by
  intro n
  induction n with
  | zero =>
    intro pid parent lo hi cs ls ns d CA CB LA LB NA NB hlen hchk hz hnd hlo hhi
    obtain ⟨_, ⟨tail, htail⟩, _⟩ := checksAs_facts hchk
    rw [htail] at hlen
    simp at hlen
  | succ n ih =>
    intro pid parent lo hi cs ls ns d CA CB LA LB NA NB hlen hchk hz hnd hlo hhi
    obtain ⟨f, hf⟩ := hchk
    cases f with
    | zero => rw [checkTree_zero] at hf; cases hf
    | succ f' =>
      cases hp : t.getPage pid with
      | none => rw [checkTree_missing t f' hp] at hf; cases hf
      | some node =>
        cases node with
        | leaf p m litems lnext =>
          rw [checkTree_leaf t f' hp] at hf
          by_cases hcond : (p == parent && m == t.leafMaxSize && itemsSorted litems &&
              litems.all (fun item => geLB lo item.1 && ltUB hi item.1)) = true
          · rw [if_pos hcond] at hf
            injection hf with hf'
            injection hf' with h1 hf'
            injection hf' with h2 h3
            subst h1; subst h2; subst h3
            simp only [Bool.and_eq_true, beq_iff_eq] at hcond
            obtain ⟨⟨⟨hpp, hm⟩, hsort⟩, hball⟩ := hcond
            subst hpp; subst hm
            have hbounds : ∀ b ∈ litems, geLB lo b.1 = true ∧ ltUB hi b.1 = true := by
              rw [List.all_eq_true] at hball
              intro b hb
              have hb2 := hball b hb
              rw [Bool.and_eq_true] at hb2
              exact hb2
            refine ⟨pid, p, litems, lnext, lo, hi, d, [], [], [], [], [], [],
              ?_, hp, hsort, checksAs_leaf_intro hp rfl hsort hbounds,
              ?_, hlo, hhi, by simp, by simp, by simp, by simp, by simp, rfl, rfl⟩
            · intro g hg
              obtain ⟨g', rfl⟩ : ∃ g', g = g' + 1 := ⟨g - 1, by
                simp only [List.length_singleton] at hg; omega⟩
              exact findLeafFrom_leaf t key false g' hp
            · simpa using hz
          · rw [if_neg hcond] at hf; cases hf
        | internal p m entries =>
          cases entries with
          | nil => rw [checkTree_internal_nil t f' hp] at hf; cases hf
          | cons e restAll =>
            rcases e with ⟨hk, hc⟩
            rw [checkTree_internal t f' hp] at hf
            by_cases hgd : (p == parent && m == t.internalMaxSize) = true
            · rw [if_pos hgd] at hf
              cases hkc : checkChildren t f' pid hc restAll lo hi with
              | none => rw [hkc] at hf; cases hf
              | some rr =>
                rw [hkc] at hf
                rcases rr with ⟨csK, lsK, nsK⟩
                injection hf with hf'
                injection hf' with h1 hf'
                injection hf' with h2 h3
                subst h1; subst h2; subst h3
                simp only [Bool.and_eq_true, beq_iff_eq] at hgd
                obtain ⟨hpp, hm⟩ := hgd
                subst hpp; subst hm
                obtain ⟨c, clo, chi, csM, lsM, nsM, CAs, CBs, LAs, LBs, NAs, NBs,
                  hlook, hchkM, hclo, hchi, hcsK, hlsK, hnsK, hCAb, hCBb,
                  hflCA, hflCB, hshape⟩ :=
                  child_descend t key pid restAll hc lo hi csK lsK nsK ⟨f', hkc⟩ hlo hhi
                have hndK : nsK.Nodup := by
                  have h0 := hnd
                  rw [List.nodup_append] at h0
                  have h2 := h0.1
                  rw [List.nodup_append] at h2
                  exact (List.nodup_cons.mp h2.2.1).2
                -- the slot context around the chosen child
                have hslot : SlotCtx t pid p lo hi clo chi CAs CBs LAs LBs NAs NBs c := by
                  rcases hshape with ⟨hcc, hcl, hCA0, hLA0, hNA0, hr⟩ |
                    ⟨pre, sk, post, hpe, hcl, hlb, hub, hleft, hr⟩
                  · exact ⟨(hk, hc) :: restAll, hp, Or.inl
                      ⟨hk, restAll, by rw [hcc], hcl, hCA0, hLA0, hNA0, hr⟩⟩
                  · refine ⟨(hk, hc) :: restAll, hp, Or.inr
                      ⟨hk, hc, pre, sk, post, by rw [hpe]; simp, hcl, hlb, hub, hleft, ?_, hr⟩⟩
                    -- the chosen child id does not occur before its slot
                    obtain ⟨_, ⟨tailM, htailM⟩, _⟩ := checksAs_facts hchkM
                    have hcM : c ∈ nsM := htailM ▸ List.mem_cons_self _ _
                    have hkidsnd : (NAs ++ nsM ++ NBs).Nodup := hnsK ▸ hndK
                    have hcnotA : c ∉ NAs := by
                      rw [List.nodup_append] at hkidsnd
                      have h2 := hkidsnd.1
                      rw [List.nodup_append] at h2
                      intro hcA
                      exact h2.2.2 hcA hcM
                    obtain ⟨hc0m, hprem⟩ := childrenCheckAs_children_mem hleft
                    intro hmem
                    rcases List.mem_map.mp hmem with ⟨e, he, he2⟩
                    rcases List.mem_cons.mp he with he' | he'
                    · apply hcnotA
                      rw [← he2, he']
                      exact hc0m
                    · apply hcnotA
                      rw [← he2]
                      exact hprem e he'
                -- recurse into the chosen child
                have hndNew : ((NA ++ pid :: NAs) ++ nsM ++ (NBs ++ NB)).Nodup := by
                  have h := hnd
                  rw [hnsK] at h
                  simpa [List.append_assoc, List.cons_append] using h
                have hlenK : nsK.length ≤ n := by
                  simp only [List.length_cons] at hlen; omega
                have hlenM : nsM.length ≤ n := by
                  rw [hnsK] at hlenK
                  simp only [List.length_append] at hlenK; omega
                obtain ⟨lid, lp, litems, lnext, llo, lhi, d', X, Y, XL, YL, XN, YN,
                  hfind, hleafpg, hsortL, hleafchk, hzip', hllo, hlhi,
                  hcseq, hlseq, hnseq, hXb, hYb, hXfl, hYfl⟩ :=
                  ih c pid clo chi csM lsM nsM (d + 1) (CA ++ CAs) (CBs ++ CB)
                    (LA ++ LAs) (LBs ++ LB) (NA ++ pid :: NAs) (NBs ++ NB)
                    hlenM hchkM (Zip.step hz hslot) hndNew hclo hchi
                refine ⟨lid, lp, litems, lnext, llo, lhi, d',
                  CAs ++ X, Y ++ CBs, LAs ++ XL, YL ++ LBs,
                  pid :: (NAs ++ XN), YN ++ NBs,
                  ?_, hleafpg, hsortL, hleafchk, ?_, hllo, hlhi, ?_, ?_, ?_, ?_, ?_,
                  ?_, ?_⟩
                · intro g hg
                  obtain ⟨g', rfl⟩ : ∃ g', g = g' + 1 := ⟨g - 1, by
                    simp only [List.length_cons] at hg; omega⟩
                  rw [findLeafFrom_internal t key g' hp]
                  have hlc : lookupChild key ((hk, hc) :: restAll) = c := hlook
                  rw [hlc]
                  apply hfind
                  have hg2 : nsK.length ≤ g' := by
                    simp only [List.length_cons] at hg; omega
                  rw [hnsK] at hg2
                  simp only [List.length_append] at hg2
                  omega
                · have h := hzip'
                  simp only [List.append_assoc, List.cons_append] at h ⊢
                  exact h
                · rw [hcsK, hcseq]
                  simp [List.append_assoc]
                · rw [hlsK, hlseq]
                  simp [List.append_assoc]
                · rw [hnsK, hnseq]
                  simp [List.append_assoc]
                · intro b hb
                  rcases List.mem_append.mp hb with hb' | hb'
                  · exact hCAb b hb'
                  · exact hXb b hb'
                · intro b hb
                  rcases List.mem_append.mp hb with hb' | hb'
                  · exact hYb b hb'
                  · exact hCBb b hb'
                · rw [flatLeaves_append, ← hflCA, ← hXfl]
                · rw [flatLeaves_append, ← hflCB, ← hYfl]
            · rw [if_neg hgd] at hf; cases hf

/-! ### Store-evolution lemmas -/

/-- Helper: rewriting an entry with its stored value is the identity. -/
theorem assocSet_lookup_self {K V : Type} [BEq K] [LawfulBEq K]
    (l : List (K × V)) (k : K) (v : V) (h : l.lookup k = some v) :
    assocSet k v l = l := by
  induction l with
  | nil => cases h
  | cons e rest ih =>
    rcases e with ⟨k', v'⟩
    by_cases hk : (k == k') = true
    · rw [List.lookup_cons, hk] at h
      injection h with h'
      unfold assocSet
      rw [if_pos (by rw [eq_of_beq hk]; exact beq_self_eq_true k'), h']
    · have hk' : (k == k') = false := by simpa using hk
      rw [List.lookup_cons, hk'] at h
      unfold assocSet
      rw [if_neg (by rw [show (k' == k) = false from
        beq_eq_false_iff_ne.mpr (fun he => by
          rw [he] at hk'; rw [beq_self_eq_true] at hk'; cases hk')]; exact
        Bool.false_ne_true), ih h]

/-- Helper: members of an updated association list. -/
theorem mem_assocSet {K V : Type} [BEq K] [LawfulBEq K]
    (l : List (K × V)) (k : K) (v : V) :
    ∀ e ∈ assocSet k v l, e = (k, v) ∨ e ∈ l := by
  induction l with
  | nil =>
    intro e he
    rcases List.mem_singleton.mp he with rfl
    exact Or.inl rfl
  | cons e0 rest ih =>
    rcases e0 with ⟨k', v'⟩
    intro e he
    unfold assocSet at he
    by_cases hk : (k' == k) = true
    · rw [if_pos hk] at he
      rcases List.mem_cons.mp he with he' | he'
      · rw [he', eq_of_beq hk]
        exact Or.inl rfl
      · exact Or.inr (List.mem_cons_of_mem _ he')
    · rw [if_neg hk] at he
      rcases List.mem_cons.mp he with he' | he'
      · exact Or.inr (he' ▸ List.mem_cons_self _ _)
      · rcases ih e he' with h | h
        · exact Or.inl h
        · exact Or.inr (List.mem_cons_of_mem _ h)

/-- Helper: updating a stored entry keeps the list length. -/
theorem length_assocSet_of_lookup {K V : Type} [BEq K] [LawfulBEq K]
    (l : List (K × V)) (k : K) (v w : V) (h : l.lookup k = some w) :
    (assocSet k v l).length = l.length := by
  induction l with
  | nil => cases h
  | cons e rest ih =>
    rcases e with ⟨k', v'⟩
    unfold assocSet
    by_cases hk : (k' == k) = true
    · rw [if_pos hk]
      rfl
    · rw [if_neg hk]
      have hk2 : (k == k') = false := by
        rcases hbk : k == k' with _ | _
        · rfl
        · rw [eq_of_beq hbk] at hk
          rw [beq_self_eq_true] at hk
          cases hk rfl
      rw [List.lookup_cons, hk2] at h
      simp only [List.length_cons, ih h]

/-- Helper: page ids at or above the allocation counter are unmapped. -/
theorem getPage_none_of_ge (t : BPlusTree) (q : Int)
    (hb : ∀ e ∈ t.pages, 0 ≤ e.1 ∧ e.1 < t.nextPageId)
    (hq : t.nextPageId ≤ q) : t.getPage q = none := by
  cases hl : t.getPage q with
  | none => rfl
  | some node =>
    have := hb _ (lookup_mem t.pages q node hl)
    omega

/-- Helper: `SetParentPageId` with the recorded parent is the identity. -/
theorem setParent_self (node : BPlusTreePage) (q : Int)
    (h : node.GetParentPageId = q) : node.SetParentPageId q = node := by
  cases node with
  | leaf p m items next =>
    simp only [BPlusTreePage.GetParentPageId] at h
    rw [BPlusTreePage.SetParentPageId, h]
  | internal p m items =>
    simp only [BPlusTreePage.GetParentPageId] at h
    rw [BPlusTreePage.SetParentPageId, h]

/-- Helper: `updateParentId` on a stored page is a `setPage`. -/
theorem updateParentId_eq_setPage (t : BPlusTree) (c q : Int)
    (node : BPlusTreePage) (hp : t.getPage c = some node) :
    t.updateParentId c q = t.setPage c (node.SetParentPageId q) := by
  unfold BPlusTree.updateParentId
  rw [hp]

/-- Helper: re-recording the current parent is a no-op. -/
theorem updateParentId_noop (t : BPlusTree) (c q : Int)
    (node : BPlusTreePage) (hp : t.getPage c = some node)
    (hq : node.GetParentPageId = q) :
    t.updateParentId c q = t := by
  rw [updateParentId_eq_setPage t c q node hp, setParent_self node q hq]
  show { t with pages := assocSet c node t.pages } = t
  rw [assocSet_lookup_self t.pages c node hp]

/-- Helper: `insertIdx` splits as take, element, drop. -/
theorem insertIdx_eq_take_cons_drop {α : Type} (a : α) :
    ∀ (l : List α) (n : Nat), n ≤ l.length →
      l.insertIdx n a = l.take n ++ a :: l.drop n := by
  intro l
  induction l with
  | nil =>
    intro n hn
    obtain rfl : n = 0 := by simpa using hn
    rfl
  | cons x rest ih =>
    intro n hn
    cases n with
    | zero => rfl
    | succ n' =>
      rw [List.insertIdx_succ_cons, ih n' (by simpa using hn)]
      rfl

/-- Helper: keys before the insert position are below the key. -/
theorem leafFindPos_take (key : Nat) :
    ∀ (items : List (Nat × Nat)),
      ∀ b ∈ items.take (leafFindPos key items).1, b.1 < key := by
  intro items
  induction items with
  | nil => intro b hb; cases hb
  | cons a rest ih =>
    rcases a with ⟨k, v⟩
    intro b hb
    unfold leafFindPos at hb
    by_cases h1 : key = k
    · rw [if_pos (by simpa using h1)] at hb
      cases hb
    · rw [if_neg (by simpa using h1)] at hb
      by_cases h2 : key < k
      · rw [if_pos h2] at hb
        cases hb
      · rw [if_neg h2] at hb
        simp only [List.take_succ_cons] at hb
        rcases List.mem_cons.mp hb with hb' | hb'
        · rw [hb']; omega
        · exact ih b hb'

/-- Helper: keys at and after the insert position of an absent key exceed
the key. -/
theorem leafFindPos_drop (key : Nat) :
    ∀ (items : List (Nat × Nat)), itemsSorted items = true →
      (leafFindPos key items).2 = false →
      ∀ b ∈ items.drop (leafFindPos key items).1, key < b.1 := by
  intro items
  induction items with
  | nil => intro _ _ b hb; cases hb
  | cons a rest ih =>
    rcases a with ⟨k, v⟩
    intro hs hdup b hb
    obtain ⟨hrest, hall⟩ := itemsSorted_cons (k, v) rest hs
    unfold leafFindPos at hdup hb
    by_cases h1 : key = k
    · rw [if_pos (by simpa using h1)] at hdup
      cases hdup
    · rw [if_neg (by simpa using h1)] at hdup hb
      by_cases h2 : key < k
      · rw [if_pos h2] at hb
        simp only [List.drop_zero] at hb
        rcases List.mem_cons.mp hb with hb' | hb'
        · rw [hb']; exact h2
        · exact lt_trans h2 (hall b hb')
      · rw [if_neg h2] at hdup hb
        simp only [List.drop_succ_cons] at hb
        exact ih hrest hdup b hb

/-- Helper: `treeContents` reads off a canonical check. -/
theorem treeContents_eq (t : BPlusTree) (cs : List (Nat × Nat)) (ls ns : List Int)
    (hroot : ¬ t.rootPageId = -1) (hchk : treeCheck t = some (cs, ls, ns)) :
    treeContents t = cs := by
  unfold treeContents
  rw [if_neg (by simpa using hroot), hchk]
  rfl

/-- Helper: a fuel-free whole-tree check with distinct nodes gives the
canonical `treeCheck`. -/
theorem treeCheck_of_checksAs (t : BPlusTree) (cs : List (Nat × Nat)) (ls ns : List Int)
    (h : checksAs t t.rootPageId (-1) none none (cs, ls, ns)) (hnd : ns.Nodup) :
    treeCheck t = some (cs, ls, ns) := by
  obtain ⟨f, hf⟩ := h
  have hst := ((check_facts t f).1 _ _ _ _ _ _ _ hf).2.2.1
  have hlen := stored_nodup_length_le t ns hnd hst
  exact (check_fuelbound t f).1 _ _ _ _ _ _ _ hf _ (by omega)

/-! ### Helpers for the upward split propagation -/

/-- Helper: a validated subtree's root records the passed parent. -/
theorem checksAs_parent_rec {t : BPlusTree} {pid parent : Int} {lo hi : Option Nat}
    {cs : List (Nat × Nat)} {ls ns : List Int}
    (h : checksAs t pid parent lo hi (cs, ls, ns)) :
    ∃ node, t.getPage pid = some node ∧ node.GetParentPageId = parent := by
  obtain ⟨f, hf⟩ := h
  cases f with
  | zero => rw [checkTree_zero] at hf; cases hf
  | succ f' =>
    cases hp : t.getPage pid with
    | none => rw [checkTree_missing t f' hp] at hf; cases hf
    | some node =>
      cases node with
      | leaf p m items next =>
        rw [checkTree_leaf t f' hp] at hf
        by_cases hcond : (p == parent && m == t.leafMaxSize && itemsSorted items &&
            items.all (fun item => geLB lo item.1 && ltUB hi item.1)) = true
        · refine ⟨_, rfl, ?_⟩
          simp only [Bool.and_eq_true, beq_iff_eq] at hcond
          exact hcond.1.1.1
        · rw [if_neg hcond] at hf; cases hf
      | internal p m entries =>
        cases entries with
        | nil => rw [checkTree_internal_nil t f' hp] at hf; cases hf
        | cons e rest =>
          rcases e with ⟨k0, c0⟩
          rw [checkTree_internal t f' hp] at hf
          by_cases hgd : (p == parent && m == t.internalMaxSize) = true
          · refine ⟨_, rfl, ?_⟩
            simp only [Bool.and_eq_true, beq_iff_eq] at hgd
            exact hgd.1
          · rw [if_neg hgd] at hf; cases hf

/-- Helper: a right segment relaxes to any lower bound below its first
separator. -/
theorem rightSeg_mono {t : BPlusTree} {P : Int} {lo lo' phi hi : Option Nat}
    {post : List (Nat × Int)} {CBs : List (Nat × Nat)} {LBs NBs : List Int}
    (hr : RightSeg t P lo phi hi post CBs LBs NBs)
    (hkey : ∀ k1, hi = some k1 → ltLB lo' k1 = true) :
    RightSeg t P lo' phi hi post CBs LBs NBs := by
  cases post with
  | nil => exact hr
  | cons e post' =>
    rcases e with ⟨k1, c1⟩
    obtain ⟨hhi, _, hub, hrun⟩ := hr
    exact ⟨hhi, hkey k1 hhi, hub, hrun⟩

/-- Helper: index of the first satisfying element after a clean prefix. -/
theorem findIdx?_eq_length {α : Type} (p : α → Bool) :
    ∀ (A : List α) (x : α) (B : List α) (i : Nat),
      (∀ a ∈ A, p a = false) → p x = true →
      List.findIdx? p (A ++ x :: B) i = some (i + A.length) := by
  intro A
  induction A with
  | nil =>
    intro x B i _ hx
    rw [List.nil_append, List.findIdx?_cons, if_pos hx]
    simp
  | cons a A' ih =>
    intro x B i hA hx
    rw [List.cons_append, List.findIdx?_cons,
      if_neg (by rw [hA a (List.mem_cons_self _ _)]; exact Bool.false_ne_true)]
    rw [ih x B (i + 1) (fun b hb => hA b (List.mem_cons_of_mem _ hb)) hx]
    congr 1
    simp only [List.length_cons]
    omega

/-- Helper: the leaf-chain view ignores a parent-pointer update. -/
theorem linkView_updateParent (t : BPlusTree) (c q : Int) :
    ∀ x, linkView (t.updateParentId c q) x = linkView t x := by
  intro x
  unfold BPlusTree.updateParentId
  cases hp : t.getPage c with
  | none => rfl
  | some node =>
    by_cases hx : x = c
    · subst hx
      unfold linkView
      rw [getPage_setPage_self, hp]
      cases node with
      | leaf p m items next => rfl
      | internal p m items => rfl
    · unfold linkView
      rw [getPage_setPage_ne t c x _ hx]

/-- Helper: the leaf-chain view ignores rewriting an internal page. -/
theorem linkView_setPage_internal (t : BPlusTree) (P p p' : Int) (m m' : Nat)
    (items : List (Nat × Int)) (items' : List (Nat × Int))
    (hp : t.getPage P = some (.internal p m items)) :
    ∀ x, linkView (t.setPage P (.internal p' m' items')) x = linkView t x := by
  intro x
  by_cases hx : x = P
  · subst hx
    unfold linkView
    rw [getPage_setPage_self, hp]
  · unfold linkView
    rw [getPage_setPage_ne t P x _ hx]

/-- Helper: the leaf-chain view ignores allocating an internal page. -/
theorem linkView_newPage_internal (t : BPlusTree) (p' : Int) (m' : Nat)
    (items' : List (Nat × Int))
    (hb : ∀ e ∈ t.pages, 0 ≤ e.1 ∧ e.1 < t.nextPageId) :
    ∀ x, linkView ((t.newPage (.internal p' m' items')).2) x = linkView t x := by
  intro x
  by_cases hx : x = t.nextPageId
  · subst hx
    unfold linkView
    rw [getPage_newPage_self t _ (getPage_none_of_ge t _ hb (le_refl _)),
      getPage_none_of_ge t _ hb (le_refl _)]
  · unfold linkView
    rw [getPage_newPage_ne t _ x hx]

/-- Helper: page-id bounds survive a parent-pointer update. -/
theorem bound_updateParentId (t : BPlusTree) (c q : Int)
    (hb : ∀ e ∈ t.pages, 0 ≤ e.1 ∧ e.1 < t.nextPageId) :
    ∀ e ∈ (t.updateParentId c q).pages, 0 ≤ e.1 ∧ e.1 < (t.updateParentId c q).nextPageId := by
  unfold BPlusTree.updateParentId
  cases hp : t.getPage c with
  | none => exact hb
  | some node =>
    intro e he
    rcases mem_assocSet t.pages c _ e he with he' | he'
    · have := getPage_lt_next t c node hb hp
      rw [he']
      exact this
    · exact hb e he'

/-- Helper: `updateParentId` keeps the allocation counter. -/
theorem nextPageId_updateParent (t : BPlusTree) (c q : Int) :
    (t.updateParentId c q).nextPageId = t.nextPageId := by
  unfold BPlusTree.updateParentId
  cases t.getPage c with
  | none => rfl
  | some node => rfl

/-- Helper: `updateParentId` keeps the root. -/
theorem rootPageId_updateParent (t : BPlusTree) (c q : Int) :
    (t.updateParentId c q).rootPageId = t.rootPageId := by
  unfold BPlusTree.updateParentId
  cases t.getPage c with
  | none => rfl
  | some node => rfl

/-- Helper: `updateParentId` keeps the fanout parameters. -/
theorem maxes_updateParent (t : BPlusTree) (c q : Int) :
    (t.updateParentId c q).leafMaxSize = t.leafMaxSize ∧
    (t.updateParentId c q).internalMaxSize = t.internalMaxSize := by
  unfold BPlusTree.updateParentId
  cases t.getPage c with
  | none => exact ⟨rfl, rfl⟩
  | some node => exact ⟨rfl, rfl⟩

/-- Helper: setting a parent pointer twice equals setting it once. -/
theorem setParent_idem (node : BPlusTreePage) (q : Int) :
    (node.SetParentPageId q).SetParentPageId q = node.SetParentPageId q := by
  cases node with
  | leaf p m items next => rfl
  | internal p m items => rfl

/-- Helper: the page view after the reparenting fold of the internal
split: reparented children carry the new parent id, everything else is
untouched. -/
theorem fold_getPage (N : Int) :
    ∀ (entries : List (Nat × Int)) (t : BPlusTree) (x : Int),
      (entries.foldl (fun acc entry => acc.updateParentId entry.2 N) t).getPage x =
        if x ∈ entries.map (·.2) then (t.getPage x).map (·.SetParentPageId N)
        else t.getPage x := by
  intro entries
  induction entries with
  | nil =>
    intro t x
    rw [if_neg (by simp)]
    rfl
  | cons e rest ih =>
    intro t x
    rw [List.foldl_cons, ih]
    by_cases hx : x ∈ rest.map (·.2)
    · rw [if_pos hx, if_pos (by simp only [List.map_cons, List.mem_cons]; exact Or.inr hx)]
      unfold BPlusTree.updateParentId
      cases hp : t.getPage e.2 with
      | none => rfl
      | some node =>
        by_cases hxe : x = e.2
        · subst hxe
          simp only [getPage_setPage_self, hp, Option.map_some', setParent_idem]
        · rw [getPage_setPage_ne t e.2 x _ hxe]
    · rw [if_neg hx]
      by_cases hxe : x = e.2
      · rw [if_pos (by simp only [List.map_cons, List.mem_cons]; exact Or.inl hxe)]
        subst hxe
        unfold BPlusTree.updateParentId
        cases hp : t.getPage e.2 with
        | none => rw [hp]; rfl
        | some node => simp only [getPage_setPage_self, hp, Option.map_some']
      · rw [if_neg (by simp only [List.map_cons, List.mem_cons]; tauto)]
        unfold BPlusTree.updateParentId
        cases hp : t.getPage e.2 with
        | none => rfl
        | some node => rw [getPage_setPage_ne t e.2 x _ hxe]

/-- Helper: the reparenting fold keeps counters, root, fanout and the
chain view. -/
theorem fold_misc (N : Int) :
    ∀ (entries : List (Nat × Int)) (t : BPlusTree),
      (entries.foldl (fun acc entry => acc.updateParentId entry.2 N) t).nextPageId = t.nextPageId ∧
      (entries.foldl (fun acc entry => acc.updateParentId entry.2 N) t).rootPageId = t.rootPageId ∧
      (entries.foldl (fun acc entry => acc.updateParentId entry.2 N) t).leafMaxSize = t.leafMaxSize ∧
      (entries.foldl (fun acc entry => acc.updateParentId entry.2 N) t).internalMaxSize = t.internalMaxSize ∧
      (∀ x, linkView (entries.foldl (fun acc entry => acc.updateParentId entry.2 N) t) x = linkView t x) ∧
      ((∀ e ∈ t.pages, 0 ≤ e.1 ∧ e.1 < t.nextPageId) →
        ∀ e ∈ (entries.foldl (fun acc entry => acc.updateParentId entry.2 N) t).pages,
          0 ≤ e.1 ∧ e.1 < (entries.foldl (fun acc entry => acc.updateParentId entry.2 N) t).nextPageId) := by
  intro entries
  induction entries with
  | nil =>
    intro t
    exact ⟨rfl, rfl, rfl, rfl, fun x => rfl, fun hb => hb⟩
  | cons e rest ih =>
    intro t
    obtain ⟨h1, h2, h3, h4, h5, h6⟩ := ih (t.updateParentId e.2 N)
    refine ⟨?_, ?_, ?_, ?_, ?_, ?_⟩
    · rw [List.foldl_cons, h1, nextPageId_updateParent]
    · rw [List.foldl_cons, h2, rootPageId_updateParent]
    · rw [List.foldl_cons, h3, (maxes_updateParent t e.2 N).1]
    · rw [List.foldl_cons, h4, (maxes_updateParent t e.2 N).2]
    · intro x
      rw [List.foldl_cons, h5 x, linkView_updateParent]
    · intro hb
      rw [List.foldl_cons]
      exact h6 (bound_updateParentId t e.2 N hb)

/-- Helper: a validated subtree revalidates under a new parent in any
store that reparents its root and keeps its interior. -/
theorem checksAs_reparent_frame {t tF : BPlusTree} {pid parent q : Int}
    {lo hi : Option Nat} {cs : List (Nat × Nat)} {ls ns : List Int}
    (h : checksAs t pid parent lo hi (cs, ls, ns)) (hnd : ns.Nodup)
    (hleaf : tF.leafMaxSize = t.leafMaxSize)
    (hint : tF.internalMaxSize = t.internalMaxSize)
    (hpid : tF.getPage pid = (t.getPage pid).map (·.SetParentPageId q))
    (hag : ∀ x ∈ ns, ¬ x = pid → tF.getPage x = t.getPage x) :
    checksAs tF pid q lo hi (cs, ls, ns) := by
  obtain ⟨node, hnode, _⟩ := checksAs_parent_rec h
  have h2 := checksAs_reparent q hnode h hnd
  refine checksAs_frame h2 (by rw [hleaf]; rfl) (by rw [hint]; rfl) ?_
  intro x hx
  by_cases hxe : x = pid
  · subst hxe
    rw [getPage_setPage_self, hpid, hnode]
    rfl
  · rw [getPage_setPage_ne t pid x _ hxe]
    exact hag x hx hxe

/-- Helper: a validated child-list walk revalidates under a new parent in
any store that reparents each child root and keeps the interiors. -/
theorem run_reparent {t tF : BPlusTree} {P N : Int}
    (hleaf : tF.leafMaxSize = t.leafMaxSize)
    (hint : tF.internalMaxSize = t.internalMaxSize) :
    ∀ (entries : List (Nat × Int)) (c0 : Int) (lo hi : Option Nat)
      (cs : List (Nat × Nat)) (ls ns : List Int),
      childrenCheckAs t P c0 entries lo hi (cs, ls, ns) → ns.Nodup →
      (∀ x, (x = c0 ∨ x ∈ entries.map (·.2)) →
        tF.getPage x = (t.getPage x).map (·.SetParentPageId N)) →
      (∀ x ∈ ns, ¬ x = c0 → x ∉ entries.map (·.2) → tF.getPage x = t.getPage x) →
      childrenCheckAs tF N c0 entries lo hi (cs, ls, ns) := by
  intro entries
  induction entries with
  | nil =>
    intro c0 lo hi cs ls ns h hnd hroots hother
    rw [childrenCheckAs_nil] at h ⊢
    exact checksAs_reparent_frame h hnd hleaf hint (hroots c0 (Or.inl rfl))
      (fun x hx hxc => hother x hx hxc (by simp))
  | cons e rest ih =>
    intro c0 lo hi cs ls ns h hnd hroots hother
    rcases e with ⟨k, c1⟩
    obtain ⟨f, hf⟩ := h
    rw [checkChildren_cons] at hf
    by_cases hg : (ltLB lo k && ltUB hi k) = true
    · rw [if_pos hg] at hf
      rw [Bool.and_eq_true] at hg
      cases hc : checkTree t f c0 P lo (some k) with
      | none => rw [hc] at hf; cases hf
      | some r1 =>
        rw [hc] at hf
        simp only [Option.some_bind] at hf
        cases hc2 : checkChildren t f P c1 rest (some k) hi with
        | none => rw [hc2] at hf; cases hf
        | some r2 =>
          rw [hc2] at hf
          rcases r1 with ⟨cs1, ls1, ns1⟩
          rcases r2 with ⟨cs2, ls2, ns2⟩
          injection hf with hf'
          injection hf' with h1 hf'
          injection hf' with h2 h3
          subst h1; subst h2; subst h3
          rw [List.nodup_append] at hnd
          obtain ⟨hnd1, hnd2, hdisj⟩ := hnd
          have hmem2 := childrenCheckAs_children_mem (⟨f, hc2⟩ :
            childrenCheckAs t P c1 rest (some k) hi (cs2, ls2, ns2))
          have hpiece : checksAs tF c0 N lo (some k) (cs1, ls1, ns1) := by
            refine checksAs_reparent_frame ⟨f, hc⟩ hnd1 hleaf hint
              (hroots c0 (Or.inl rfl)) ?_
            intro x hx hxc
            refine hother x (List.mem_append_left _ hx) hxc ?_
            intro hxm
            simp only [List.map_cons, List.mem_cons] at hxm
            rcases hxm with hxm | hxm
            · exact hdisj hx (hxm ▸ hmem2.1)
            · obtain ⟨e', he', he2⟩ := List.mem_map.mp hxm
              exact hdisj hx (he2 ▸ hmem2.2 e' he')
          have hrest : childrenCheckAs tF N c1 rest (some k) hi (cs2, ls2, ns2) := by
            refine ih c1 (some k) hi cs2 ls2 ns2 ⟨f, hc2⟩ hnd2 ?_ ?_
            · intro x hx
              refine hroots x ?_
              simp only [List.map_cons, List.mem_cons]
              tauto
            · intro x hx hxc hxm
              have hc0m : c0 ∈ ns1 := by
                obtain ⟨_, ⟨tail1, htail1⟩, _⟩ := checksAs_facts (⟨f, hc⟩ :
                  checksAs t c0 P lo (some k) (cs1, ls1, ns1))
                exact htail1 ▸ List.mem_cons_self _ _
              refine hother x (List.mem_append_right _ hx) ?_ ?_
              · intro hxe
                exact hdisj (hxe ▸ hc0m) hx
              · intro hxm2
                simp only [List.map_cons, List.mem_cons] at hxm2
                rcases hxm2 with hxm2 | hxm2
                · exact hxc hxm2
                · exact hxm hxm2
          obtain ⟨f1, hf1⟩ := hpiece
          obtain ⟨f2, hf2⟩ := hrest
          refine ⟨max f1 f2, ?_⟩
          rw [checkChildren_cons, if_pos (by rw [hg.1, hg.2]; rfl),
            checkTree_mono_le tF (le_max_left f1 f2) hf1]
          simp only [Option.some_bind]
          rw [checkChildren_mono_le tF (le_max_right f1 f2) hf2]
          rfl
    · rw [if_neg hg] at hf; cases hf


/-- Helper: positional split of a list at an in-range index. -/
theorem list_split_at {α : Type} : ∀ (l : List α) (i : Nat), i < l.length →
    ∃ x, l.get? i = some x ∧ l = l.take i ++ x :: l.drop (i + 1) := by
  intro l
  induction l with
  | nil =>
    intro i h
    exact absurd h (by simp)
  | cons a tl ih =>
    intro i h
    cases i with
    | zero => exact ⟨a, rfl, rfl⟩
    | succ j =>
      obtain ⟨x, h1, h2⟩ := ih j (by simpa using h)
      refine ⟨x, h1, ?_⟩
      show a :: tl = a :: (tl.take j ++ x :: tl.drop (j + 1))
      rw [← h2]

/-- Helper: page-id bounds survive rewriting a stored page. -/
theorem bound_setPage (t : BPlusTree) (pid : Int) (n : BPlusTreePage)
    (hb : ∀ e ∈ t.pages, 0 ≤ e.1 ∧ e.1 < t.nextPageId)
    (hpid : 0 ≤ pid ∧ pid < t.nextPageId) :
    ∀ e ∈ (t.setPage pid n).pages, 0 ≤ e.1 ∧ e.1 < (t.setPage pid n).nextPageId := by
  intro e he
  rcases mem_assocSet t.pages pid n e he with he' | he'
  · rw [he']
    exact hpid
  · exact hb e he'

/-- Helper: page-id bounds survive allocating a page. -/
theorem bound_newPage (t : BPlusTree) (n : BPlusTreePage)
    (hb : ∀ e ∈ t.pages, 0 ≤ e.1 ∧ e.1 < t.nextPageId)
    (hn : 0 ≤ t.nextPageId) :
    ∀ e ∈ ((t.newPage n).2).pages, 0 ≤ e.1 ∧ e.1 < ((t.newPage n).2).nextPageId := by
  show ∀ e ∈ t.pages ++ [(t.nextPageId, n)], 0 ≤ e.1 ∧ e.1 < t.nextPageId + 1
  intro e he
  rcases List.mem_append.mp he with he' | he'
  · have := hb e he'
    exact ⟨this.1, by omega⟩
  · rcases List.mem_singleton.mp he' with rfl
    show 0 ≤ t.nextPageId ∧ t.nextPageId < t.nextPageId + 1
    omega

/-- Helper: one-step unfolding of `InsertIntoParent`. -/
theorem InsertIntoParent_succ (t : BPlusTree) (fuel : Nat)
    (parentId leftId : Int) (key : Nat) (rightId : Int) :
    InsertIntoParent t (fuel + 1) parentId leftId key rightId =
      if parentId == -1 then
        let r := t.newPage (.internal (-1) t.internalMaxSize [(0, leftId), (key, rightId)])
        let t1 := r.2.updateParentId leftId r.1
        let t2 := t1.updateParentId rightId r.1
        some { t2 with rootPageId := r.1 }
      else
        match t.getPage parentId with
        | some (.internal pparent pmax pitems) =>
          let ipos :=
            match pitems.findIdx? (fun entry => entry.2 == leftId) with
            | some i => i + 1
            | none => 0
          let pitems' := pitems.insertIdx ipos (key, rightId)
          let t1 := t.setPage parentId (.internal pparent pmax pitems')
          let t2 := t1.updateParentId rightId parentId
          if pmax < pitems'.length then
            let splitIndex := (pitems'.length + 1) / 2
            let middleKey := ((pitems'.get? splitIndex).map (·.1)).getD 0
            let pivotChild := ((pitems'.get? splitIndex).map (·.2)).getD (-1)
            let newItems := (0, pivotChild) :: pitems'.drop (splitIndex + 1)
            let r := t2.newPage (.internal pparent t.internalMaxSize newItems)
            let t3 := r.2.setPage parentId (.internal pparent pmax (pitems'.take splitIndex))
            let t4 := newItems.foldl (fun acc entry => acc.updateParentId entry.2 r.1) t3
            InsertIntoParent t4 fuel pparent parentId middleKey r.1
          else
            some t2
        | _ => none := rfl

set_option maxHeartbeats 4000000 in
/-- Helper: upward separator propagation of a split: given the zipper
context of the split slot and the two validated sibling subtrees, the
recursion succeeds and produces a fully validated tree containing both. -/
theorem iip_spec :
    ∀ (fuel : Nat) (t1 : BPlusTree) (parentId leftId : Int) (key : Nat) (rightId : Int)
      (d : Nat) (lo hi : Option Nat) (CA CB : List (Nat × Nat)) (LA LB NA NB : List Int)
      (csL csR : List (Nat × Nat)) (lsL lsR nsL nsR : List Int),
      Zip t1 d leftId parentId lo hi CA CB LA LB NA NB →
      checksAs t1 leftId parentId lo (some key) (csL, lsL, nsL) →
      checksAs t1 rightId parentId (some key) hi (csR, lsR, nsR) →
      ltLB lo key = true → ltUB hi key = true →
      (NA ++ (nsL ++ nsR) ++ NB).Nodup →
      (∀ e ∈ t1.pages, 0 ≤ e.1 ∧ e.1 < t1.nextPageId) →
      1 ≤ t1.nextPageId →
      ¬ t1.rootPageId = -1 →
      d < fuel →
      ∃ t2 ns2,
        InsertIntoParent t1 fuel parentId leftId key rightId = some t2 ∧
        t2.leafMaxSize = t1.leafMaxSize ∧
        t2.internalMaxSize = t1.internalMaxSize ∧
        (∀ e ∈ t2.pages, 0 ≤ e.1 ∧ e.1 < t2.nextPageId) ∧
        1 ≤ t2.nextPageId ∧
        ¬ t2.rootPageId = -1 ∧
        checksAs t2 t2.rootPageId (-1) none none
          (CA ++ (csL ++ csR) ++ CB, LA ++ (lsL ++ lsR) ++ LB, ns2) ∧
        ns2.Nodup ∧
        (∀ x, linkView t2 x = linkView t1 x) := by
  intro fuel
  induction fuel with
  | zero =>
    intro t1 parentId leftId key rightId d lo hi CA CB LA LB NA NB
      csL csR lsL lsR nsL nsR hz hL hR hlb hub hnod hbound hnext hroot hd
    omega
  | succ n ih =>
    intro t1 parentId leftId key rightId d lo hi CA CB LA LB NA NB
      csL csR lsL lsR nsL nsR hz hL hR hlb hub hnod hbound hnext hroot hd
    by_cases hp1 : parentId = -1
    · -- new root
      subst hp1
      obtain ⟨hpid, hd0, hlo', hhi', hCA, hCB, hLA, hLB, hNA, hNB⟩ :=
        zip_root hz (fun e he => (hbound e he).1)
      subst hlo'; subst hhi'; subst hCA; subst hCB
      subst hLA; subst hLB; subst hNA; subst hNB
      have hnod2 : (nsL ++ nsR).Nodup := by simpa using hnod
      obtain ⟨nodeL, hnodeL, hparL⟩ := checksAs_parent_rec hL
      obtain ⟨nodeR, hnodeR, hparR⟩ := checksAs_parent_rec hR
      obtain ⟨_, ⟨tailL, htailL⟩, hstL, _⟩ := checksAs_facts hL
      obtain ⟨_, ⟨tailR, htailR⟩, hstR, _⟩ := checksAs_facts hR
      have hndL : nsL.Nodup := (List.nodup_append.mp hnod2).1
      have hndR : nsR.Nodup := (List.nodup_append.mp hnod2).2.1
      have hdisjLR : nsL.Disjoint nsR := (List.nodup_append.mp hnod2).2.2
      have hLmem : leftId ∈ nsL := htailL ▸ List.mem_cons_self _ _
      have hRmem : rightId ∈ nsR := htailR ▸ List.mem_cons_self _ _
      have hLlt : ∀ q ∈ nsL, q < t1.nextPageId := by
        intro q hq
        obtain ⟨node, hn⟩ := hstL q hq
        exact (getPage_lt_next t1 q node hbound hn).2
      have hRlt : ∀ q ∈ nsR, q < t1.nextPageId := by
        intro q hq
        obtain ⟨node, hn⟩ := hstR q hq
        exact (getPage_lt_next t1 q node hbound hn).2
      have hne : ¬ leftId = rightId := fun he => hdisjLR hLmem (he ▸ hRmem)
      set tA := (t1.newPage (.internal (-1) t1.internalMaxSize
        [(0, leftId), (key, rightId)])).2 with htA
      set tB := tA.updateParentId leftId t1.nextPageId with htB
      set tC := tB.updateParentId rightId t1.nextPageId with htC
      -- store facts along the chain
      have hLa : checksAs tA leftId (-1) none (some key) (csL, lsL, nsL) :=
        checksAs_frame hL (by rw [htA]; exact rfl) (by rw [htA]; exact rfl) (fun q hq =>
          getPage_newPage_ne t1 _ q (by have := hLlt q hq; omega))
      have hRa : checksAs tA rightId (-1) (some key) none (csR, lsR, nsR) :=
        checksAs_frame hR (by rw [htA]; exact rfl) (by rw [htA]; exact rfl) (fun q hq =>
          getPage_newPage_ne t1 _ q (by have := hRlt q hq; omega))
      have hnodeLa : tA.getPage leftId = some nodeL := by
        rw [htA, getPage_newPage_ne t1 _ leftId (by have := hLlt leftId hLmem; omega)]
        exact hnodeL
      have hnodeRa : tA.getPage rightId = some nodeR := by
        rw [htA, getPage_newPage_ne t1 _ rightId (by have := hRlt rightId hRmem; omega)]
        exact hnodeR
      have hmaxA : tA.leafMaxSize = t1.leafMaxSize ∧ tA.internalMaxSize = t1.internalMaxSize :=
        ⟨by rw [htA]; exact rfl, by rw [htA]; exact rfl⟩
      have hLb : checksAs tB leftId t1.nextPageId none (some key) (csL, lsL, nsL) := by
        rw [htB, updateParentId_eq_setPage tA leftId t1.nextPageId nodeL hnodeLa]
        exact checksAs_reparent t1.nextPageId hnodeLa hLa hndL
      have hnodeRb : tB.getPage rightId = some nodeR := by
        rw [htB, updateParentId_eq_setPage tA leftId t1.nextPageId nodeL hnodeLa,
          getPage_setPage_ne tA leftId rightId _ (fun h => hne h.symm)]
        exact hnodeRa
      have hRb : checksAs tB rightId (-1) (some key) none (csR, lsR, nsR) := by
        rw [htB, updateParentId_eq_setPage tA leftId t1.nextPageId nodeL hnodeLa]
        exact checksAs_frame hRa rfl rfl (fun q hq =>
          getPage_setPage_ne tA leftId q _ (fun h => hdisjLR (h ▸ hLmem) hq))
      have hLc : checksAs tC leftId t1.nextPageId none (some key) (csL, lsL, nsL) := by
        rw [htC, updateParentId_eq_setPage tB rightId t1.nextPageId nodeR hnodeRb]
        exact checksAs_frame hLb rfl rfl (fun q hq =>
          getPage_setPage_ne tB rightId q _ (fun h => hdisjLR hq (h ▸ hRmem)))
      have hRc : checksAs tC rightId t1.nextPageId (some key) none (csR, lsR, nsR) := by
        rw [htC, updateParentId_eq_setPage tB rightId t1.nextPageId nodeR hnodeRb]
        exact checksAs_reparent t1.nextPageId hnodeRb hRb hndR
      have hmaxB : tB.leafMaxSize = t1.leafMaxSize ∧ tB.internalMaxSize = t1.internalMaxSize := by
        rw [htB]
        rw [(maxes_updateParent tA leftId t1.nextPageId).1,
          (maxes_updateParent tA leftId t1.nextPageId).2]
        exact hmaxA
      have hmaxC : tC.leafMaxSize = t1.leafMaxSize ∧ tC.internalMaxSize = t1.internalMaxSize := by
        rw [htC]
        rw [(maxes_updateParent tB rightId t1.nextPageId).1,
          (maxes_updateParent tB rightId t1.nextPageId).2]
        exact hmaxB
      have hrootpg : tC.getPage t1.nextPageId =
          some (.internal (-1) t1.internalMaxSize [(0, leftId), (key, rightId)]) := by
        rw [htC, updateParentId_eq_setPage tB rightId t1.nextPageId nodeR hnodeRb,
          getPage_setPage_ne tB rightId t1.nextPageId _
            (by have := hRlt rightId hRmem; omega),
          htB, updateParentId_eq_setPage tA leftId t1.nextPageId nodeL hnodeLa,
          getPage_setPage_ne tA leftId t1.nextPageId _
            (by have := hLlt leftId hLmem; omega),
          htA]
        exact getPage_newPage_self t1 _ (getPage_none_of_ge t1 _ hbound (le_refl _))
      have hkidsF : childrenCheckAs tC t1.nextPageId leftId [(key, rightId)] none none
          (csL ++ csR, lsL ++ lsR, nsL ++ nsR) := by
        have happ := childrenCheckAs_append (k := key) (c := rightId)
          (childrenCheckAs_nil.mpr hLc) (childrenCheckAs_nil.mpr hRc) rfl rfl
        rw [List.nil_append] at happ
        exact happ
      have hrootpg2 : tC.getPage t1.nextPageId =
          some (.internal (-1) tC.internalMaxSize [(0, leftId), (key, rightId)]) := by
        rw [hmaxC.2]
        exact hrootpg
      have hchkC : checksAs tC t1.nextPageId (-1) none none
          (csL ++ csR, lsL ++ lsR, t1.nextPageId :: (nsL ++ nsR)) :=
        checksAs_internal_intro hrootpg2 rfl hkidsF
      have hnextC : tC.nextPageId = t1.nextPageId + 1 := by
        rw [htC, nextPageId_updateParent, htB, nextPageId_updateParent, htA]
        exact rfl
      have hboundA : ∀ e ∈ tA.pages, 0 ≤ e.1 ∧ e.1 < tA.nextPageId := by
        rw [htA]
        show ∀ e ∈ t1.pages ++ [(t1.nextPageId,
          BPlusTreePage.internal (-1) t1.internalMaxSize [(0, leftId), (key, rightId)])],
          0 ≤ e.1 ∧ e.1 < t1.nextPageId + 1
        intro e he
        rcases List.mem_append.mp he with he' | he'
        · have := hbound e he'
          show 0 ≤ e.1 ∧ e.1 < t1.nextPageId + 1
          omega
        · rcases List.mem_singleton.mp he' with rfl
          show 0 ≤ t1.nextPageId ∧ t1.nextPageId < t1.nextPageId + 1
          omega
      have hboundC : ∀ e ∈ tC.pages, 0 ≤ e.1 ∧ e.1 < tC.nextPageId := by
        rw [htC]
        apply bound_updateParentId
        rw [htB]
        exact bound_updateParentId tA leftId t1.nextPageId hboundA
      refine ⟨{ tC with rootPageId := t1.nextPageId }, t1.nextPageId :: (nsL ++ nsR),
        ?_, ?_, ?_, ?_, ?_, ?_, ?_, ?_, ?_⟩
      · rw [InsertIntoParent_succ]
        rfl
      · show tC.leafMaxSize = t1.leafMaxSize
        exact hmaxC.1
      · show tC.internalMaxSize = t1.internalMaxSize
        exact hmaxC.2
      · show ∀ e ∈ tC.pages, 0 ≤ e.1 ∧ e.1 < tC.nextPageId
        exact hboundC
      · show 1 ≤ tC.nextPageId
        rw [hnextC]
        omega
      · show ¬ t1.nextPageId = -1
        omega
      · have hfin : checksAs { tC with rootPageId := t1.nextPageId } t1.nextPageId (-1)
            none none (csL ++ csR, lsL ++ lsR, t1.nextPageId :: (nsL ++ nsR)) :=
          checksAs_frame hchkC rfl rfl (fun q _ => rfl)
        simpa using hfin
      · rw [List.nodup_cons]
        refine ⟨?_, hnod2⟩
        intro hmem
        rcases List.mem_append.mp hmem with hm | hm
        · have := hLlt _ hm; omega
        · have := hRlt _ hm; omega
      · intro x
        show linkView tC x = linkView t1 x
        rw [htC, linkView_updateParent, htB, linkView_updateParent, htA,
          linkView_newPage_internal t1 _ _ _ hbound]
    · -- the parent exists: insert the separator into it, splitting if full
      cases hz with
      | top => exact absurd rfl hp1
      | step hz' hslot =>
        rename_i d0 pp plo phi CA' CB' CAs CBs LA' LB' LAs LBs NA' NB' NAs NBs
        obtain ⟨pitems, hPpage, hcase⟩ := hslot
        have hbe : ¬ (parentId == -1) = true := by simpa using hp1
        have hPlt := getPage_lt_next t1 parentId _ hbound hPpage
        have hnodF : (NA' ++ parentId :: (NAs ++ (nsL ++ (nsR ++ (NBs ++ NB'))))).Nodup := by
          have hflat : (NA' ++ parentId :: NAs) ++ (nsL ++ nsR) ++ (NBs ++ NB') =
              NA' ++ parentId :: (NAs ++ (nsL ++ (nsR ++ (NBs ++ NB')))) := by
            simp [List.append_assoc]
          rw [← hflat]
          exact hnod
        have hx := hnodF
        rw [List.nodup_append, List.nodup_cons] at hx
        obtain ⟨hndNA', ⟨hPmem, hndM⟩, hdisjA⟩ := hx
        simp only [List.mem_append, not_or] at hPmem
        obtain ⟨hPNAs, hPnsL, hPnsR, hPNBs, hPNB'⟩ := hPmem
        have hPNA' : parentId ∉ NA' := fun hmem => hdisjA hmem (List.mem_cons_self _ _)
        have hndMc := hndM
        rw [List.nodup_append] at hndMc
        obtain ⟨hndNAs, hndM2, hdisjNAs⟩ := hndMc
        have hndM2c := hndM2
        rw [List.nodup_append] at hndM2c
        obtain ⟨hndnsL, hndM3, hdisjnsL⟩ := hndM2c
        have hndM3c := hndM3
        rw [List.nodup_append] at hndM3c
        obtain ⟨hndnsR, hndM4, hdisjnsR⟩ := hndM3c
        rw [List.nodup_append] at hndM4
        obtain ⟨hndNBs, hndNB'2, hdisjNBs⟩ := hndM4
        have hndAll : (NAs ++ (nsL ++ nsR) ++ NBs).Nodup := by
          have he2 : NAs ++ (nsL ++ (nsR ++ (NBs ++ NB'))) =
              (NAs ++ (nsL ++ nsR) ++ NBs) ++ NB' := by
            simp [List.append_assoc]
          rw [he2] at hndM
          exact (List.sublist_append_left _ _).nodup hndM
        have hstZ := zip_stored hz'
        have hstnsL : ∀ q ∈ nsL, ∃ node, t1.getPage q = some node := (checksAs_facts hL).2.2.1
        have hstnsR : ∀ q ∈ nsR, ∃ node, t1.getPage q = some node := (checksAs_facts hR).2.2.1
        have hstSlot : (∀ q ∈ NAs, ∃ node, t1.getPage q = some node) ∧
            (∀ q ∈ NBs, ∃ node, t1.getPage q = some node) := by
          rcases hcase with ⟨hk, post, hpe, hlo, hCA, hLA, hNA, hr⟩ |
              ⟨hk, hc, preRest, sk, post, hpe, hlo, hplb, hpub, hleft, hnotin, hr⟩
          · refine ⟨?_, rightSeg_stored hr⟩
            intro q hq
            rw [hNA] at hq
            cases hq
          · exact ⟨(childrenCheckAs_facts hleft).2.1, rightSeg_stored hr⟩
        have hfreshNA' : ∀ q ∈ NA', q < t1.nextPageId := by
          intro q hq
          obtain ⟨node, hn⟩ := hstZ.1 q hq
          exact (getPage_lt_next t1 q node hbound hn).2
        have hfreshNB' : ∀ q ∈ NB', q < t1.nextPageId := by
          intro q hq
          obtain ⟨node, hn⟩ := hstZ.2 q hq
          exact (getPage_lt_next t1 q node hbound hn).2
        obtain ⟨nodeR, hnodeR, hparR⟩ := checksAs_parent_rec hR
        have hRmem : rightId ∈ nsR := by
          obtain ⟨_, ⟨tailR, htailR⟩, _⟩ := checksAs_facts hR
          exact htailR ▸ List.mem_cons_self _ _
        have hRneP : ¬ rightId = parentId := fun he => hPnsR (he ▸ hRmem)
        have hcont : ∀ (k0h : Nat) (c0h : Int) (REST1 : List (Nat × Int)) (iSlot : Nat),
            pitems.findIdx? (fun entry => entry.2 == leftId) = some iSlot →
            pitems.insertIdx (iSlot + 1) (key, rightId) = (k0h, c0h) :: REST1 →
            1 ≤ REST1.length →
            childrenCheckAs
              (t1.setPage parentId
                (BPlusTreePage.internal pp t1.internalMaxSize ((k0h, c0h) :: REST1)))
              parentId c0h REST1 plo phi
              (CAs ++ (csL ++ csR) ++ CBs, LAs ++ (lsL ++ lsR) ++ LBs,
               NAs ++ (nsL ++ nsR) ++ NBs) →
            ∃ t2 ns2,
              InsertIntoParent t1 (n + 1) parentId leftId key rightId = some t2 ∧
              t2.leafMaxSize = t1.leafMaxSize ∧
              t2.internalMaxSize = t1.internalMaxSize ∧
              (∀ e ∈ t2.pages, 0 ≤ e.1 ∧ e.1 < t2.nextPageId) ∧
              1 ≤ t2.nextPageId ∧
              ¬ t2.rootPageId = -1 ∧
              checksAs t2 t2.rootPageId (-1) none none
                (CA' ++ CAs ++ (csL ++ csR) ++ (CBs ++ CB'),
                 LA' ++ LAs ++ (lsL ++ lsR) ++ (LBs ++ LB'), ns2) ∧
              ns2.Nodup ∧
              (∀ x, linkView t2 x = linkView t1 x) := by
          intro k0h c0h REST1 iSlot hfind hins hlen1 hrun
          set tS := t1.setPage parentId
            (BPlusTreePage.internal pp t1.internalMaxSize ((k0h, c0h) :: REST1)) with htS
          have hnR1 : tS.getPage rightId = some nodeR := by
            rw [htS, getPage_setPage_ne t1 parentId rightId _ hRneP]
            exact hnodeR
          have hnoop : tS.updateParentId rightId parentId = tS :=
            updateParentId_noop tS rightId parentId nodeR hnR1 hparR
          have hboundS : ∀ e ∈ tS.pages, 0 ≤ e.1 ∧ e.1 < tS.nextPageId := by
            rw [htS]
            exact bound_setPage t1 parentId _ hbound hPlt
          rw [InsertIntoParent_succ, if_neg hbe]
          simp only [hPpage, hfind, hins]
          rw [← htS, hnoop]
          by_cases hsp : t1.internalMaxSize < ((k0h, c0h) :: REST1).length
          · -- the parent overflows: split it and recurse
            rw [if_pos hsp]
            have hlenpos : 0 < REST1.length := hlen1
            set j := REST1.length / 2 with hj
            have hjlt : j < REST1.length := by
              rw [hj]
              exact Nat.div_lt_self hlenpos (by omega)
            obtain ⟨⟨mk, mc⟩, hgets, hsplitR1⟩ := list_split_at REST1 j hjlt
            have hsval : (((k0h, c0h) :: REST1).length + 1) / 2 = j + 1 := by
              simp only [List.length_cons]
              omega
            rw [hsval, List.get?_cons_succ, hgets]
            rw [hsplitR1] at hrun
            obtain ⟨r1, r2, hrun1, hrun2, hReq, hlbmk, hubmk⟩ := childrenCheckAs_split hrun
            rcases r1 with ⟨cs1, ls1, ns1⟩
            rcases r2 with ⟨cs2, ls2, ns2⟩
            simp only [Prod.mk.injEq] at hReq
            obtain ⟨hc12, hl12, hn12⟩ := hReq
            have hnd12 : (ns1 ++ ns2).Nodup := by
              rw [← hn12]
              exact hndAll
            obtain ⟨hndns1, hndns2, hdisj12⟩ := List.nodup_append.mp hnd12
            have hmem12 : ∀ q, q ∈ ns1 ∨ q ∈ ns2 → q ∈ NAs ∨ q ∈ nsL ∨ q ∈ nsR ∨ q ∈ NBs := by
              intro q hq
              have h2 : q ∈ ns1 ++ ns2 := List.mem_append.mpr hq
              rw [← hn12] at h2
              simp only [List.mem_append] at h2
              rcases h2 with (h | h | h) | h
              · exact Or.inl h
              · exact Or.inr (Or.inl h)
              · exact Or.inr (Or.inr (Or.inl h))
              · exact Or.inr (Or.inr (Or.inr h))
            have hstored12 : ∀ q, q ∈ ns1 ∨ q ∈ ns2 → ∃ node, t1.getPage q = some node := by
              intro q hq
              rcases hmem12 q hq with h | h | h | h
              · exact hstSlot.1 q h
              · exact hstnsL q h
              · exact hstnsR q h
              · exact hstSlot.2 q h
            have hlt12 : ∀ q, q ∈ ns1 ∨ q ∈ ns2 → q < t1.nextPageId := by
              intro q hq
              obtain ⟨node, hn2⟩ := hstored12 q hq
              exact (getPage_lt_next t1 q node hbound hn2).2
            have hPns1 : parentId ∉ ns1 := by
              intro hmem
              rcases hmem12 parentId (Or.inl hmem) with h | h | h | h
              exacts [hPNAs h, hPnsL h, hPnsR h, hPNBs h]
            have hPns2 : parentId ∉ ns2 := by
              intro hmem
              rcases hmem12 parentId (Or.inr hmem) with h | h | h | h
              exacts [hPNAs h, hPnsL h, hPnsR h, hPNBs h]
            have hNA'mid : ∀ q ∈ NA', q ∉ NAs ∧ q ∉ nsL ∧ q ∉ nsR ∧ q ∉ NBs := by
              intro q hq
              have h2 := hdisjA hq
              refine ⟨fun h => h2 ?_, fun h => h2 ?_, fun h => h2 ?_, fun h => h2 ?_⟩
              · exact List.mem_cons_of_mem _ (List.mem_append_left _ h)
              · exact List.mem_cons_of_mem _
                  (List.mem_append_right _ (List.mem_append_left _ h))
              · exact List.mem_cons_of_mem _ (List.mem_append_right _
                  (List.mem_append_right _ (List.mem_append_left _ h)))
              · exact List.mem_cons_of_mem _ (List.mem_append_right _
                  (List.mem_append_right _ (List.mem_append_right _ (List.mem_append_left _ h))))
            have hNB'mid : ∀ q ∈ NB', q ∉ NAs ∧ q ∉ nsL ∧ q ∉ nsR ∧ q ∉ NBs := by
              intro q hq
              refine ⟨fun h => hdisjNAs h ?_, fun h => hdisjnsL h ?_, fun h => hdisjnsR h ?_,
                fun h => hdisjNBs h hq⟩
              · exact List.mem_append_right _ (List.mem_append_right _ (List.mem_append_right _ hq))
              · exact List.mem_append_right _ (List.mem_append_right _ hq)
              · exact List.mem_append_right _ hq
            have hNA'12 : ∀ q ∈ NA', q ∉ ns1 ∧ q ∉ ns2 := by
              intro q hq
              obtain ⟨h1, h2, h3, h4⟩ := hNA'mid q hq
              constructor
              · intro hm
                rcases hmem12 q (Or.inl hm) with h | h | h | h
                exacts [h1 h, h2 h, h3 h, h4 h]
              · intro hm
                rcases hmem12 q (Or.inr hm) with h | h | h | h
                exacts [h1 h, h2 h, h3 h, h4 h]
            have hNB'12 : ∀ q ∈ NB', q ∉ ns1 ∧ q ∉ ns2 := by
              intro q hq
              obtain ⟨h1, h2, h3, h4⟩ := hNB'mid q hq
              constructor
              · intro hm
                rcases hmem12 q (Or.inl hm) with h | h | h | h
                exacts [h1 h, h2 h, h3 h, h4 h]
              · intro hm
                rcases hmem12 q (Or.inr hm) with h | h | h | h
                exacts [h1 h, h2 h, h3 h, h4 h]
            set trS := (tS.newPage (BPlusTreePage.internal pp t1.internalMaxSize
              ((0, mc) :: REST1.drop (j + 1)))).2 with htr
            set tT := trS.setPage parentId (BPlusTreePage.internal pp t1.internalMaxSize
              ((k0h, c0h) :: REST1.take j)) with htT
            set t4 := ((0, mc) :: REST1.drop (j + 1)).foldl
              (fun acc entry => acc.updateParentId entry.2 t1.nextPageId) tT with ht4
            have htrfresh : tS.getPage t1.nextPageId = none := by
              refine getPage_none_of_ge tS t1.nextPageId hboundS ?_
              rw [htS]
              exact le_refl _
            have htrN : trS.getPage t1.nextPageId =
                some (BPlusTreePage.internal pp t1.internalMaxSize
                  ((0, mc) :: REST1.drop (j + 1))) := by
              rw [htr]
              exact getPage_newPage_self tS _ htrfresh
            have htrne : ∀ x, ¬ x = t1.nextPageId → trS.getPage x = tS.getPage x := by
              intro x hx
              rw [htr]
              exact getPage_newPage_ne tS _ x hx
            have htTP : tT.getPage parentId =
                some (BPlusTreePage.internal pp t1.internalMaxSize
                  ((k0h, c0h) :: REST1.take j)) := by
              rw [htT]
              exact getPage_setPage_self trS parentId _
            have htTne : ∀ x, ¬ x = parentId → tT.getPage x = trS.getPage x := by
              intro x hx
              rw [htT]
              exact getPage_setPage_ne trS parentId x _ hx
            have htmem : ∀ x, x ∈ ((0, mc) :: REST1.drop (j + 1)).map (fun entry => entry.2) →
                x ∈ ns2 := by
              intro x hx
              simp only [List.map_cons, List.mem_cons] at hx
              rcases hx with rfl | hx
              · exact (childrenCheckAs_children_mem hrun2).1
              · obtain ⟨e, he, he2⟩ := List.mem_map.mp hx
                exact he2 ▸ (childrenCheckAs_children_mem hrun2).2 e he
            have hview4 : ∀ x, x ∉ ((0, mc) :: REST1.drop (j + 1)).map (fun entry => entry.2) →
                t4.getPage x = tT.getPage x := by
              intro x hx
              rw [ht4, fold_getPage, if_neg hx]
            have hviewS : ∀ x, x ∉ ((0, mc) :: REST1.drop (j + 1)).map (fun entry => entry.2) →
                ¬ x = parentId → ¬ x = t1.nextPageId → t4.getPage x = tS.getPage x := by
              intro x h1 h2 h3
              rw [hview4 x h1, htTne x h2, htrne x h3]
            have hviewT1 : ∀ x, x ∉ ((0, mc) :: REST1.drop (j + 1)).map (fun entry => entry.2) →
                ¬ x = parentId → ¬ x = t1.nextPageId → t4.getPage x = t1.getPage x := by
              intro x h1 h2 h3
              rw [hviewS x h1 h2 h3, htS]
              exact getPage_setPage_ne t1 parentId x _ h2
            have hmisc := fold_misc t1.nextPageId ((0, mc) :: REST1.drop (j + 1)) tT
            rw [← ht4] at hmisc
            obtain ⟨hm1, hm2, hm3, hm4, hm5, hm6⟩ := hmisc
            have hmaxL4 : t4.leafMaxSize = t1.leafMaxSize := by
              rw [hm3]
              exact rfl
            have hmaxI4 : t4.internalMaxSize = t1.internalMaxSize := by
              rw [hm4]
              exact rfl
            have hmaxL4S : t4.leafMaxSize = tS.leafMaxSize := by
              rw [hm3]
              exact rfl
            have hmaxI4S : t4.internalMaxSize = tS.internalMaxSize := by
              rw [hm4]
              exact rfl
            have hroot4 : ¬ t4.rootPageId = -1 := by
              rw [hm2]
              exact hroot
            have hnext4 : 1 ≤ t4.nextPageId := by
              rw [hm1]
              have h9 : (1 : Int) ≤ t1.nextPageId + 1 := by omega
              exact h9
            have hgetP4 : t4.getPage parentId =
                some (BPlusTreePage.internal pp t4.internalMaxSize
                  ((k0h, c0h) :: REST1.take j)) := by
              rw [hmaxI4, hview4 parentId (fun hm => hPns2 (htmem _ hm)), htTP]
            have hgetN4 : t4.getPage t1.nextPageId =
                some (BPlusTreePage.internal pp t4.internalMaxSize
                  ((0, mc) :: REST1.drop (j + 1))) := by
              have hne : ¬ t1.nextPageId = parentId := by
                intro he
                omega
              have hnm : t1.nextPageId ∉
                  ((0, mc) :: REST1.drop (j + 1)).map (fun entry => entry.2) :=
                fun hm => by have := hlt12 _ (Or.inr (htmem _ hm)); omega
              rw [hmaxI4, hview4 _ hnm, htTne _ hne, htrN]
            have hboundTr : ∀ e ∈ trS.pages, 0 ≤ e.1 ∧ e.1 < trS.nextPageId := by
              rw [htr]
              refine bound_newPage tS _ hboundS ?_
              have h9 : (0 : Int) ≤ t1.nextPageId := by omega
              exact h9
            have hboundTT : ∀ e ∈ tT.pages, 0 ≤ e.1 ∧ e.1 < tT.nextPageId := by
              rw [htT]
              refine bound_setPage trS parentId _ hboundTr ?_
              refine ⟨hPlt.1, ?_⟩
              have h9 : parentId < t1.nextPageId + 1 := by omega
              exact h9
            have hbound4 : ∀ e ∈ t4.pages, 0 ≤ e.1 ∧ e.1 < t4.nextPageId := hm6 hboundTT
            have hrun1f : childrenCheckAs t4 parentId c0h (REST1.take j) plo (some mk)
                (cs1, ls1, ns1) := by
              refine childrenCheckAs_frame hrun1 hmaxL4 hmaxI4 ?_
              intro q hq
              have h1 : q ∉ ((0, mc) :: REST1.drop (j + 1)).map (fun entry => entry.2) :=
                fun hm => hdisj12 hq (htmem _ hm)
              have h2 : ¬ q = parentId := fun he => hPns1 (he ▸ hq)
              have h3 : ¬ q = t1.nextPageId := by have := hlt12 q (Or.inl hq); omega
              exact hviewS q h1 h2 h3
            have hLnew : checksAs t4 parentId pp plo (some mk) (cs1, ls1, parentId :: ns1) :=
              checksAs_internal_intro hgetP4 rfl hrun1f
            have hrun2f : childrenCheckAs t4 t1.nextPageId mc (REST1.drop (j + 1)) (some mk) phi
                (cs2, ls2, ns2) := by
              refine run_reparent hmaxL4S hmaxI4S (REST1.drop (j + 1)) mc (some mk) phi
                cs2 ls2 ns2 hrun2 hndns2 ?_ ?_
              · intro x hx
                have hxt : x ∈ ((0, mc) :: REST1.drop (j + 1)).map (fun entry => entry.2) := by
                  simp only [List.map_cons, List.mem_cons]
                  rcases hx with rfl | hx2
                  · exact Or.inl rfl
                  · exact Or.inr hx2
                have hx2 : x ∈ ns2 := htmem x hxt
                have hxP : ¬ x = parentId := fun he => hPns2 (he ▸ hx2)
                have hxN : ¬ x = t1.nextPageId := by have := hlt12 x (Or.inr hx2); omega
                rw [ht4, fold_getPage, if_pos hxt, htTne x hxP, htrne x hxN]
              · intro x hx hxc hxm
                have h1 : x ∉ ((0, mc) :: REST1.drop (j + 1)).map (fun entry => entry.2) := by
                  simp only [List.map_cons, List.mem_cons, not_or]
                  exact ⟨hxc, hxm⟩
                have h2 : ¬ x = parentId := fun he => hPns2 (he ▸ hx)
                have h3 : ¬ x = t1.nextPageId := by have := hlt12 x (Or.inr hx); omega
                exact hviewS x h1 h2 h3
            have hRnew : checksAs t4 t1.nextPageId pp (some mk) phi
                (cs2, ls2, t1.nextPageId :: ns2) :=
              checksAs_internal_intro hgetN4 rfl hrun2f
            have hz4 : Zip t4 d0 parentId pp plo phi CA' CB' LA' LB' NA' NB' := by
              refine zip_frame hmaxL4 hmaxI4 ?_ hz' ?_ ?_
              · rw [hm2]
                exact rfl
              · intro q hq
                obtain ⟨hq1, hq2⟩ := hNA'12 q hq
                have h1 : q ∉ ((0, mc) :: REST1.drop (j + 1)).map (fun entry => entry.2) :=
                  fun hm => hq2 (htmem _ hm)
                have h2 : ¬ q = parentId := fun he => hPNA' (he ▸ hq)
                have h3 : ¬ q = t1.nextPageId := by have := hfreshNA' q hq; omega
                exact hviewT1 q h1 h2 h3
              · intro q hq
                obtain ⟨hq1, hq2⟩ := hNB'12 q hq
                have h1 : q ∉ ((0, mc) :: REST1.drop (j + 1)).map (fun entry => entry.2) :=
                  fun hm => hq2 (htmem _ hm)
                have h2 : ¬ q = parentId := fun he => hPNB' (he ▸ hq)
                have h3 : ¬ q = t1.nextPageId := by have := hfreshNB' q hq; omega
                exact hviewT1 q h1 h2 h3
            have hNlt : ∀ q, q ∈ NA' ∨ q = parentId ∨ q ∈ ns1 ∨ q ∈ ns2 ∨ q ∈ NB' →
                q < t1.nextPageId := by
              intro q hq
              rcases hq with h | h | h | h | h
              · exact hfreshNA' q h
              · rw [h]; exact hPlt.2
              · exact hlt12 q (Or.inl h)
              · exact hlt12 q (Or.inr h)
              · exact hfreshNB' q h
            have hNfresh : t1.nextPageId ∉ NA' ++ (parentId :: (ns1 ++ ns2)) ++ NB' := by
              intro hmem
              rcases List.mem_append.mp hmem with hm | hm
              · rcases List.mem_append.mp hm with hm2 | hm2
                · have := hNlt _ (Or.inl hm2)
                  omega
                · rcases List.mem_cons.mp hm2 with hm3 | hm3
                  · have := hNlt _ (Or.inr (Or.inl hm3))
                    omega
                  · rcases List.mem_append.mp hm3 with hm4 | hm4
                    · have := hNlt _ (Or.inr (Or.inr (Or.inl hm4)))
                      omega
                    · have := hNlt _ (Or.inr (Or.inr (Or.inr (Or.inl hm4))))
                      omega
              · have := hNlt _ (Or.inr (Or.inr (Or.inr (Or.inr hm))))
                omega
            have hperm : (NA' ++ ((parentId :: ns1) ++ (t1.nextPageId :: ns2)) ++ NB').Perm
                (t1.nextPageId :: (NA' ++ (parentId :: (ns1 ++ ns2)) ++ NB')) := by
              have he : NA' ++ ((parentId :: ns1) ++ (t1.nextPageId :: ns2)) ++ NB' =
                  (NA' ++ parentId :: ns1) ++ t1.nextPageId :: (ns2 ++ NB') := by
                simp [List.append_assoc]
              rw [he]
              refine List.perm_middle.trans ?_
              refine List.Perm.cons _ ?_
              have he2 : (NA' ++ parentId :: ns1) ++ (ns2 ++ NB') =
                  NA' ++ (parentId :: (ns1 ++ ns2)) ++ NB' := by
                simp [List.append_assoc]
              rw [he2]
            have hbaseN : (NA' ++ (parentId :: (ns1 ++ ns2)) ++ NB').Nodup := by
              have he : NA' ++ (parentId :: (ns1 ++ ns2)) ++ NB' =
                  (NA' ++ parentId :: NAs) ++ (nsL ++ nsR) ++ (NBs ++ NB') := by
                rw [← hn12]
                simp [List.append_assoc]
              rw [he]
              exact hnod
            have hnodRec : (NA' ++ ((parentId :: ns1) ++ (t1.nextPageId :: ns2)) ++ NB').Nodup := by
              rw [hperm.nodup_iff]
              rw [List.nodup_cons]
              exact ⟨hNfresh, hbaseN⟩
            obtain ⟨t5, ns5, hIIP5, hlm5, him5, hb5, hn5, hr5, hchk5, hnod5, hlink5⟩ :=
              ih t4 pp parentId mk t1.nextPageId d0 plo phi CA' CB' LA' LB' NA' NB'
                cs1 cs2 ls1 ls2 (parentId :: ns1) (t1.nextPageId :: ns2)
                hz4 hLnew hRnew hlbmk hubmk hnodRec hbound4 hnext4 hroot4 (by omega)
            refine ⟨t5, ns5, ?_, ?_, ?_, hb5, hn5, hr5, ?_, hnod5, ?_⟩
            · exact hIIP5
            · exact hlm5.trans hmaxL4
            · exact him5.trans hmaxI4
            · have hceq : CA' ++ (cs1 ++ cs2) ++ CB' =
                  CA' ++ CAs ++ (csL ++ csR) ++ (CBs ++ CB') := by
                rw [← hc12]
                simp [List.append_assoc]
              have hleq : LA' ++ (ls1 ++ ls2) ++ LB' =
                  LA' ++ LAs ++ (lsL ++ lsR) ++ (LBs ++ LB') := by
                rw [← hl12]
                simp [List.append_assoc]
              rw [← hceq, ← hleq]
              exact hchk5
            · intro x
              rw [hlink5 x, hm5 x]
              have hx1 : linkView tT x = linkView trS x := by
                rw [htT]
                refine linkView_setPage_internal trS parentId pp pp t1.internalMaxSize
                  t1.internalMaxSize ((k0h, c0h) :: REST1) ((k0h, c0h) :: REST1.take j) ?_ x
                rw [htr]
                rw [getPage_newPage_ne tS _ parentId (by show ¬ parentId = t1.nextPageId; omega)]
                rw [htS]
                exact getPage_setPage_self t1 parentId _
              have hx2 : linkView trS x = linkView tS x := by
                rw [htr]
                exact linkView_newPage_internal tS pp t1.internalMaxSize _ hboundS x
              have hx3 : linkView tS x = linkView t1 x := by
                rw [htS]
                exact linkView_setPage_internal t1 parentId pp pp t1.internalMaxSize
                  t1.internalMaxSize pitems ((k0h, c0h) :: REST1) hPpage x
              rw [hx1, hx2, hx3]
          · -- no split: the rewritten parent revalidates in place
            rw [if_neg hsp]
            refine ⟨tS, NA' ++ (parentId :: (NAs ++ (nsL ++ nsR) ++ NBs)) ++ NB',
              rfl, ?_, ?_, hboundS, ?_, ?_, ?_, ?_, ?_⟩
            · rw [htS]
              exact rfl
            · rw [htS]
              exact rfl
            · rw [htS]
              exact hnext
            · rw [htS]
              exact hroot
            · have hPget : tS.getPage parentId =
                  some (BPlusTreePage.internal pp tS.internalMaxSize ((k0h, c0h) :: REST1)) := by
                rw [htS]
                exact getPage_setPage_self t1 parentId _
              have hPchk : checksAs tS parentId pp plo phi
                  (CAs ++ (csL ++ csR) ++ CBs, LAs ++ (lsL ++ lsR) ++ LBs,
                   parentId :: (NAs ++ (nsL ++ nsR) ++ NBs)) :=
                checksAs_internal_intro hPget rfl hrun
              have hagA : ∀ q ∈ NA', tS.getPage q = t1.getPage q := by
                intro q hq
                rw [htS]
                exact getPage_setPage_ne t1 parentId q _ (fun he => hPNA' (he ▸ hq))
              have hagB : ∀ q ∈ NB', tS.getPage q = t1.getPage q := by
                intro q hq
                rw [htS]
                exact getPage_setPage_ne t1 parentId q _ (fun he => hPNB' (he ▸ hq))
              have hz4 : Zip tS d0 parentId pp plo phi CA' CB' LA' LB' NA' NB' := by
                refine zip_frame ?_ ?_ ?_ hz' hagA hagB
                · rw [htS]
                  exact rfl
                · rw [htS]
                  exact rfl
                · rw [htS]
                  exact rfl
              have hfill := zip_fill hz4 hPchk
              simpa only [List.append_assoc, List.cons_append] using hfill
            · have he3 : NA' ++ (parentId :: (NAs ++ (nsL ++ nsR) ++ NBs)) ++ NB' =
                  (NA' ++ parentId :: NAs) ++ (nsL ++ nsR) ++ (NBs ++ NB') := by
                simp [List.append_assoc]
              rw [he3]
              exact hnod
            · intro x
              rw [htS]
              exact linkView_setPage_internal t1 parentId pp pp t1.internalMaxSize
                t1.internalMaxSize pitems ((k0h, c0h) :: REST1) hPpage x
        rcases hcase with ⟨hk, post, hpe, hlo, hCA, hLA, hNA, hr⟩ |
            ⟨hk, hc, preRest, sk, post, hpe, hlo, hplb, hpub, hleft, hnotin, hr⟩
        · -- head slot
          subst hlo
          subst hCA
          subst hLA
          subst hNA
          have hfind : pitems.findIdx? (fun entry => entry.2 == leftId) = some 0 := by
            rw [hpe]
            have h0 := findIdx?_eq_length (fun entry : Nat × Int => entry.2 == leftId) []
              (hk, leftId) post 0 (fun a ha => absurd ha (List.not_mem_nil a)) (by simp)
            simpa using h0
          have hins : pitems.insertIdx (0 + 1) (key, rightId) =
              (hk, leftId) :: (key, rightId) :: post := by
            rw [hpe]
            rfl
          have hubphi : ltUB phi key = true := by
            cases post with
            | nil =>
              obtain ⟨hphi, _, _, _⟩ := hr
              rw [← hphi]
              exact hub
            | cons e post' =>
              rcases e with ⟨k1, c1⟩
              obtain ⟨hhi, _, hup, _⟩ := hr
              rw [hhi] at hub
              exact ltUB_weaken hub hup
          have hLs : checksAs
              (t1.setPage parentId (BPlusTreePage.internal pp t1.internalMaxSize
                ((hk, leftId) :: (key, rightId) :: post)))
              leftId parentId lo (some key) (csL, lsL, nsL) :=
            checksAs_frame (t := t1) hL rfl rfl (fun q hq =>
              getPage_setPage_ne t1 parentId q _ (fun he => hPnsL (he ▸ hq)))
          have hRs : checksAs
              (t1.setPage parentId (BPlusTreePage.internal pp t1.internalMaxSize
                ((hk, leftId) :: (key, rightId) :: post)))
              rightId parentId (some key) hi (csR, lsR, nsR) :=
            checksAs_frame (t := t1) hR rfl rfl (fun q hq =>
              getPage_setPage_ne t1 parentId q _ (fun he => hPnsR (he ▸ hq)))
          have hrs : RightSeg
              (t1.setPage parentId (BPlusTreePage.internal pp t1.internalMaxSize
                ((hk, leftId) :: (key, rightId) :: post)))
              parentId (some key) phi hi post CBs LBs NBs := by
            refine rightSeg_mono (rightSeg_frame (t := t1) hr rfl rfl (fun q hq =>
              getPage_setPage_ne t1 parentId q _ (fun he => hPNBs (he ▸ hq)))) ?_
            intro k1 hk1
            rw [hk1] at hub
            simpa [ltLB, ltUB] using hub
          have happ := childrenCheckAs_append (childrenCheckAs_nil.mpr hLs)
            (slot_right_run hrs hRs) hlb hubphi
          have hrun : childrenCheckAs
              (t1.setPage parentId (BPlusTreePage.internal pp t1.internalMaxSize
                ((hk, leftId) :: (key, rightId) :: post)))
              parentId leftId ((key, rightId) :: post) lo phi
              ([] ++ (csL ++ csR) ++ CBs, [] ++ (lsL ++ lsR) ++ LBs,
               [] ++ (nsL ++ nsR) ++ NBs) := by
            simpa only [List.nil_append, List.append_assoc] using happ
          exact hcont hk leftId ((key, rightId) :: post) 0 hfind hins (by simp) hrun
        · -- interior slot
          subst hlo
          have hfind : pitems.findIdx? (fun entry => entry.2 == leftId) =
              some (preRest.length + 1) := by
            have hpred : ∀ a ∈ (hk, hc) :: preRest,
                (fun entry : Nat × Int => entry.2 == leftId) a = false := by
              intro a ha
              simp only [beq_eq_false_iff_ne, ne_eq]
              intro he2
              exact hnotin (List.mem_map.mpr ⟨a, ha, he2⟩)
            rw [hpe, findIdx?_eq_length _ ((hk, hc) :: preRest) (sk, leftId) post 0 hpred (by simp)]
            simp
          have hpe2 : pitems = (hk, hc) :: (preRest ++ (sk, leftId) :: post) := by
            rw [hpe]
            simp
          have hlen2 : preRest.length + 1 ≤ (preRest ++ (sk, leftId) :: post).length := by
            simp
          have hins : pitems.insertIdx (preRest.length + 1 + 1) (key, rightId) =
              (hk, hc) :: (preRest ++ (sk, leftId) :: (key, rightId) :: post) := by
            rw [hpe2, List.insertIdx_succ_cons,
              insertIdx_eq_take_cons_drop _ _ _ hlen2]
            have htk : (preRest ++ (sk, leftId) :: post).take (preRest.length + 1) =
                preRest ++ [(sk, leftId)] := by
              rw [List.take_append]
              rfl
            have hdp : (preRest ++ (sk, leftId) :: post).drop (preRest.length + 1) = post := by
              rw [List.drop_append]
              rfl
            rw [htk, hdp]
            simp
          have hubphi : ltUB phi key = true := by
            cases post with
            | nil =>
              obtain ⟨hphi, _, _, _⟩ := hr
              rw [← hphi]
              exact hub
            | cons e post' =>
              rcases e with ⟨k1, c1⟩
              obtain ⟨hhi, _, hup, _⟩ := hr
              rw [hhi] at hub
              exact ltUB_weaken hub hup
          have hLs : checksAs
              (t1.setPage parentId (BPlusTreePage.internal pp t1.internalMaxSize
                ((hk, hc) :: (preRest ++ (sk, leftId) :: (key, rightId) :: post))))
              leftId parentId (some sk) (some key) (csL, lsL, nsL) :=
            checksAs_frame (t := t1) hL rfl rfl (fun q hq =>
              getPage_setPage_ne t1 parentId q _ (fun he => hPnsL (he ▸ hq)))
          have hRs : checksAs
              (t1.setPage parentId (BPlusTreePage.internal pp t1.internalMaxSize
                ((hk, hc) :: (preRest ++ (sk, leftId) :: (key, rightId) :: post))))
              rightId parentId (some key) hi (csR, lsR, nsR) :=
            checksAs_frame (t := t1) hR rfl rfl (fun q hq =>
              getPage_setPage_ne t1 parentId q _ (fun he => hPnsR (he ▸ hq)))
          have hrs : RightSeg
              (t1.setPage parentId (BPlusTreePage.internal pp t1.internalMaxSize
                ((hk, hc) :: (preRest ++ (sk, leftId) :: (key, rightId) :: post))))
              parentId (some key) phi hi post CBs LBs NBs := by
            refine rightSeg_mono (rightSeg_frame (t := t1) hr rfl rfl (fun q hq =>
              getPage_setPage_ne t1 parentId q _ (fun he => hPNBs (he ▸ hq)))) ?_
            intro k1 hk1
            rw [hk1] at hub
            simpa [ltLB, ltUB] using hub
          have hLeftS : childrenCheckAs
              (t1.setPage parentId (BPlusTreePage.internal pp t1.internalMaxSize
                ((hk, hc) :: (preRest ++ (sk, leftId) :: (key, rightId) :: post))))
              parentId hc preRest plo (some sk) (CAs, LAs, NAs) :=
            childrenCheckAs_frame (t := t1) hleft rfl rfl (fun q hq =>
              getPage_setPage_ne t1 parentId q _ (fun he => hPNAs (he ▸ hq)))
          have hinner := childrenCheckAs_append (childrenCheckAs_nil.mpr hLs)
            (slot_right_run hrs hRs) hlb hubphi
          have hinner2 : childrenCheckAs
              (t1.setPage parentId (BPlusTreePage.internal pp t1.internalMaxSize
                ((hk, hc) :: (preRest ++ (sk, leftId) :: (key, rightId) :: post))))
              parentId leftId ((key, rightId) :: post) (some sk) phi
              (csL ++ (csR ++ CBs), lsL ++ (lsR ++ LBs), nsL ++ (nsR ++ NBs)) := by
            simpa using hinner
          have houter := childrenCheckAs_append hLeftS hinner2 hplb hpub
          have hrun : childrenCheckAs
              (t1.setPage parentId (BPlusTreePage.internal pp t1.internalMaxSize
                ((hk, hc) :: (preRest ++ (sk, leftId) :: (key, rightId) :: post))))
              parentId hc (preRest ++ (sk, leftId) :: (key, rightId) :: post) plo phi
              (CAs ++ (csL ++ csR) ++ CBs, LAs ++ (lsL ++ lsR) ++ LBs,
               NAs ++ (nsL ++ nsR) ++ NBs) := by
            simpa only [List.append_assoc] using houter
          exact hcont hk hc (preRest ++ (sk, leftId) :: (key, rightId) :: post)
            (preRest.length + 1) hfind hins
            (by simp only [List.length_append, List.length_cons]; omega) hrun

/-- Witness for `c10_advance_at_end_is_noop` at `exhaustedIterator`. -/
theorem c10_advance_at_end_witness :
    exhaustedIterator.IsEnd = true ∧
    (exhaustedIterator.increment oneLeafStore = exhaustedIterator ∧
     (exhaustedIterator.increment oneLeafStore).IsEnd = true ∧
     IndexIterator.eq exhaustedIterator IndexIterator.endIterator =
       (exhaustedIterator.pageId == -1 && exhaustedIterator.index == 0)) :=
  ⟨rfl, c10_advance_at_end_is_noop oneLeafStore exhaustedIterator rfl⟩

end DB
